import Mathlib

/-!
# Verification of the intx extended-precision unsigned integer library

This development gives a shallow embedding of the `intx` library
(`include/intx/intx.hpp` and `test/experimental/addmod.hpp`) and proves the
frozen claims about it.

## Representation

A `uint<N>` value is stored by the library as a pair of `uint<N/2>` halves
bottoming out at 64-bit machine words; the library itself reinterprets this
storage as a flat array of `N/64` little-endian 64-bit words (`as_words`,
`operator[]`).  We embed a value as that flat word view: a `List Nat` of
64-bit words, least significant first, well-formed when every word is
below `2^64`.  `lo`/`hi` of the pair view are `take (n/2)` / `drop (n/2)`
of the word list.  `toNat` is the numeric value of a word list.

The word-level building blocks (`add_with_carry`/`sub_with_carry` ripple,
64×64→128 `umul`, `udivrem_2by1`, `udivrem_3by2`, `bswap` of a word, the
`uint128` shift base case) live in `int128.hpp`, which is not among the
sources; those definitions are modelled from the specification's
collaborator contracts (§4.2, §6) and are marked `Modelled from the spec`.
-/

namespace Intx

/-- The word base: each storage word of `uint<N>` is a 64-bit machine word. -/
def W : Nat := 2 ^ 64

theorem W_pos : 0 < W := by decide

theorem one_lt_W : 1 < W := by decide

/-- Numeric value of a little-endian list of 64-bit words
(the flat `as_words` view of a `uint<N>`). -/
def toNat : List Nat → Nat
  | [] => 0
  | w :: ws => w + W * toNat ws

/-- Well-formedness of a word list: every word fits in 64 bits. -/
def wf (xs : List Nat) : Prop := ∀ w ∈ xs, w < W

instance (xs : List Nat) : Decidable (wf xs) := by
  unfold wf; infer_instance

/-- Split a number into `n` little-endian 64-bit words (zero-extending). -/
def fromNat : Nat → Nat → List Nat
  | 0, _ => []
  | n + 1, v => (v % W) :: fromNat n (v / W)

/-- An all-zero word list. -/
def zeros (n : Nat) : List Nat := List.replicate n 0

@[simp] theorem toNat_nil : toNat [] = 0 := rfl

@[simp] theorem toNat_cons (w : Nat) (ws : List Nat) :
    toNat (w :: ws) = w + W * toNat ws := rfl

theorem zeros_succ (k : Nat) : zeros (k + 1) = 0 :: zeros k := by
  simp [zeros, List.replicate_succ]

@[simp] theorem length_zeros (n : Nat) : (zeros n).length = n := by
  simp [zeros]

@[simp] theorem toNat_zeros (n : Nat) : toNat (zeros n) = 0 := by
  induction n with
  | zero => rfl
  | succ k ih => rw [zeros_succ, toNat_cons, ih, Nat.mul_zero]

theorem toNat_append (xs ys : List Nat) :
    toNat (xs ++ ys) = toNat xs + W ^ xs.length * toNat ys := by
  induction xs with
  | nil => simp [toNat]
  | cons w ws ih => simp [toNat, ih, pow_succ]; ring

theorem wf_cons_head {w : Nat} {ws : List Nat} (h : wf (w :: ws)) : w < W :=
  h w (by simp)

theorem wf_cons_tail {w : Nat} {ws : List Nat} (h : wf (w :: ws)) : wf ws :=
  fun x hx => h x (by simp [hx])

theorem toNat_lt (xs : List Nat) (h : wf xs) : toNat xs < W ^ xs.length := by
  induction xs with
  | nil => simp [toNat]
  | cons w ws ih =>
    have hw : w < W := wf_cons_head h
    have hws : toNat ws < W ^ ws.length := ih (wf_cons_tail h)
    have h5 : W * (toNat ws + 1) ≤ W * W ^ ws.length :=
      Nat.mul_le_mul_left _ (by omega)
    rw [Nat.mul_add, Nat.mul_one] at h5
    simp only [toNat, List.length_cons, pow_succ]
    rw [mul_comm (W ^ ws.length) W]
    omega

theorem eq_zeros_of_toNat_eq_zero (xs : List Nat) (h : toNat xs = 0) :
    xs = zeros xs.length := by
  induction xs with
  | nil => rfl
  | cons w ws ih =>
    simp only [toNat] at h
    have hw : w = 0 := by omega
    have hmul : W * toNat ws = 0 := by omega
    have hws : toNat ws = 0 := by
      rcases Nat.mul_eq_zero.mp hmul with h' | h'
      · exact absurd h' (by decide)
      · exact h'
    rw [List.length_cons, zeros_succ, hw]
    exact congrArg (0 :: ·) (ih hws)

theorem toNat_inj (xs ys : List Nat) (hx : wf xs) (hy : wf ys)
    (hlen : xs.length = ys.length) (h : toNat xs = toNat ys) : xs = ys := by
  induction xs generalizing ys with
  | nil => cases ys with
    | nil => rfl
    | cons y ys => simp at hlen
  | cons x xs ih =>
    cases ys with
    | nil => simp at hlen
    | cons y ys =>
      simp only [toNat] at h
      have hxW : x < W := wf_cons_head hx
      have hyW : y < W := wf_cons_head hy
      have hxy : x = y := by
        have h1 : (x + W * toNat xs) % W = (y + W * toNat ys) % W := by rw [h]
        simpa [Nat.add_mul_mod_self_left, Nat.mod_eq_of_lt hxW,
          Nat.mod_eq_of_lt hyW] using h1
      have hts : toNat xs = toNat ys := by
        have h2 : W * toNat xs = W * toNat ys := by omega
        exact Nat.eq_of_mul_eq_mul_left W_pos h2
      rw [hxy, ih ys (wf_cons_tail hx) (wf_cons_tail hy) (by simpa using hlen) hts]

theorem wf_fromNat (n v : Nat) : wf (fromNat n v) := by
  induction n generalizing v with
  | zero => intro w hw; simp [fromNat] at hw
  | succ k ih =>
    intro w hw
    simp only [fromNat, List.mem_cons] at hw
    rcases hw with h | h
    · subst h; exact Nat.mod_lt _ W_pos
    · exact ih (v / W) w h

@[simp] theorem length_fromNat (n v : Nat) : (fromNat n v).length = n := by
  induction n generalizing v with
  | zero => rfl
  | succ k ih => simp [fromNat, ih]

theorem toNat_fromNat (n v : Nat) (h : v < W ^ n) : toNat (fromNat n v) = v := by
  induction n generalizing v with
  | zero => simp at h; simp [fromNat, h, toNat]
  | succ k ih =>
    simp only [fromNat, toNat]
    have hdiv : v / W < W ^ k := by
      rw [Nat.div_lt_iff_lt_mul W_pos]
      calc v < W ^ (k + 1) := h
      _ = W ^ k * W := by ring
    rw [ih _ hdiv, Nat.mod_add_div]

theorem fromNat_toNat (xs : List Nat) (h : wf xs) :
    fromNat xs.length (toNat xs) = xs := by
  refine toNat_inj _ _ (wf_fromNat _ _) h (by simp) ?_
  exact toNat_fromNat _ _ (toNat_lt xs h)

theorem toNat_take_drop (xs : List Nat) (k : Nat) :
    toNat xs = toNat (xs.take k) + W ^ (xs.take k).length * toNat (xs.drop k) := by
  conv_lhs => rw [← List.take_append_drop k xs]
  rw [toNat_append]

theorem wf_append (xs ys : List Nat) (hx : wf xs) (hy : wf ys) : wf (xs ++ ys) := by
  intro w hw
  rcases List.mem_append.mp hw with h | h
  · exact hx w h
  · exact hy w h

theorem wf_take (xs : List Nat) (k : Nat) (h : wf xs) : wf (xs.take k) :=
  fun w hw => h w (List.take_subset _ _ hw)

theorem wf_drop (xs : List Nat) (k : Nat) (h : wf xs) : wf (xs.drop k) :=
  fun w hw => h w (List.drop_subset _ _ hw)

theorem wf_zeros (n : Nat) : wf (zeros n) := by
  intro w hw
  simp [zeros] at hw
  rw [hw.2]
  exact W_pos

/-- The word at index `i` (0 beyond the end), as an arithmetic function of
the value.  This is the semantic content of `operator[]` / `as_words`. -/
theorem getD_eq_value (xs : List Nat) (h : wf xs) (i : Nat) :
    xs.getD i 0 = toNat xs / W ^ i % W := by
  induction xs generalizing i with
  | nil => simp [toNat, List.getD]
  | cons w ws ih =>
    cases i with
    | zero =>
      have hw : w < W := wf_cons_head h
      simp only [List.getD_cons_zero, toNat, pow_zero, Nat.div_one]
      rw [Nat.add_mul_mod_self_left, Nat.mod_eq_of_lt hw]
    | succ j =>
      have hw : w < W := wf_cons_head h
      rw [List.getD_cons_succ, ih (wf_cons_tail h) j]
      congr 1
      simp only [toNat]
      rw [pow_succ, mul_comm (W ^ j) W, ← Nat.div_div_eq_div_mul]
      congr 1
      rw [Nat.add_mul_div_left _ _ W_pos, Nat.div_eq_of_lt hw, Nat.zero_add]

/-- High words beyond `k` are all zero when the value is below `W^k`. -/
theorem drop_eq_zeros_of_lt (xs : List Nat) (k : Nat)
    (h : toNat xs < W ^ k) (hk : k ≤ xs.length) :
    xs.drop k = zeros (xs.length - k) := by
  have hsplit := toNat_take_drop xs k
  have hlen : (xs.take k).length = k := by
    simp [List.length_take, Nat.min_eq_left hk]
  rw [hlen] at hsplit
  have hz : toNat (xs.drop k) = 0 := by
    by_contra hne
    have h1 : 1 ≤ toNat (xs.drop k) := Nat.one_le_iff_ne_zero.mpr hne
    have : W ^ k ≤ W ^ k * toNat (xs.drop k) := Nat.le_mul_of_pos_right _ (by omega)
    omega
  have := eq_zeros_of_toNat_eq_zero _ hz
  rwa [List.length_drop] at this

theorem toNat_take_of_lt (xs : List Nat) (k : Nat)
    (h : toNat xs < W ^ k) (hk : k ≤ xs.length) :
    toNat (xs.take k) = toNat xs := by
  have hsplit := toNat_take_drop xs k
  have hz : toNat (xs.drop k) = 0 := by
    rw [drop_eq_zeros_of_lt xs k h hk, toNat_zeros]
  rw [hz, Nat.mul_zero, Nat.add_zero] at hsplit
  omega

/-! ### Bit-level helpers on `Nat`

These support reasoning about the word-boundary `|` / `<<` / `>>`
combinations that the shift and normalization loops use. -/

theorem testBit_add_mul {s : Nat} (a b : Nat) (ha : a < 2 ^ s) (i : Nat) :
    (a + 2 ^ s * b).testBit i = if i < s then a.testBit i else b.testBit (i - s) := by
  by_cases h : i < s
  · have hip : i + 1 ≤ s := h
    obtain ⟨c, hc⟩ := pow_dvd_pow 2 hip
    have h1 : (a + 2 ^ s * b) % 2 ^ (i + 1) = a % 2 ^ (i + 1) := by
      rw [hc, mul_assoc, Nat.add_mul_mod_self_left]
    have h2 := Nat.testBit_mod_two_pow (a + 2 ^ s * b) (i + 1) i
    have h3 := Nat.testBit_mod_two_pow a (i + 1) i
    simp only [Nat.lt_succ_self, decide_True, Bool.true_and] at h2 h3
    simp only [h, if_true]
    rw [← h2, h1, h3]
  · have hdiv : (a + 2 ^ s * b) >>> s = b := by
      rw [Nat.shiftRight_eq_div_pow, mul_comm,
        Nat.add_mul_div_right _ _ (Nat.two_pow_pos s), Nat.div_eq_of_lt ha,
        Nat.zero_add]
    have h2 := Nat.testBit_shiftRight (i := s) (j := i - s) (a + 2 ^ s * b)
    rw [hdiv] at h2
    have hsi : s + (i - s) = i := by omega
    rw [hsi] at h2
    simp only [h, if_false]
    exact h2.symm

theorem lt_two_pow_of_high_bits (x s : Nat)
    (h : ∀ i, s ≤ i → x.testBit i = false) : x < 2 ^ s := by
  have hmod : x % 2 ^ s = x := Nat.eq_of_testBit_eq fun i => by
    rw [Nat.testBit_mod_two_pow]
    by_cases hi : i < s
    · simp [hi]
    · simp [hi, h i (le_of_not_lt hi)]
  rw [← hmod]
  exact Nat.mod_lt _ (Nat.two_pow_pos s)

theorem lor_lt_two_pow {a c s : Nat} (ha : a < 2 ^ s) (hc : c < 2 ^ s) :
    a ||| c < 2 ^ s := by
  apply lt_two_pow_of_high_bits
  intro i hi
  have hpow : (2:Nat) ^ s ≤ 2 ^ i := Nat.pow_le_pow_right (by omega) hi
  rw [Nat.testBit_lor, Nat.testBit_lt_two_pow (by omega),
    Nat.testBit_lt_two_pow (by omega)]
  rfl

theorem lor_split {s : Nat} (a b c d : Nat) (ha : a < 2 ^ s) (hc : c < 2 ^ s) :
    (a + 2 ^ s * b) ||| (c + 2 ^ s * d) = (a ||| c) + 2 ^ s * (b ||| d) := by
  apply Nat.eq_of_testBit_eq
  intro i
  rw [Nat.testBit_lor, testBit_add_mul a b ha i, testBit_add_mul c d hc i,
    testBit_add_mul (a ||| c) (b ||| d) (lor_lt_two_pow ha hc) i]
  by_cases h : i < s <;> simp [h, Nat.testBit_lor]

theorem lor_disjoint_add {s : Nat} (a b : Nat) (ha : a % 2 ^ s = 0)
    (hb : b < 2 ^ s) : a ||| b = a + b := by
  have h0 : 2 ^ s * (a / 2 ^ s) = a := Nat.mul_div_cancel' (Nat.dvd_of_mod_eq_zero ha)
  have h1 : a ||| b = (0 + 2 ^ s * (a / 2 ^ s)) ||| (b + 2 ^ s * 0) := by
    rw [Nat.zero_add, h0, Nat.mul_zero, Nat.add_zero]
  rw [h1, lor_split 0 (a / 2 ^ s) b 0 (Nat.two_pow_pos s) hb, Nat.zero_or,
    Nat.or_zero, h0]
  omega

theorem mul_pow_mod_pow {H s : Nat} (A : Nat) (hs : s ≤ H) :
    A * 2 ^ s % 2 ^ H = A % 2 ^ (H - s) * 2 ^ s := by
  have h : (2:Nat) ^ H = 2 ^ (H - s) * 2 ^ s := by
    rw [← pow_add]
    congr 1
    omega
  rw [h, Nat.mul_mod_mul_right]

theorem mul_pow_div_pow {H s : Nat} (A : Nat) (hs : s ≤ H) :
    A * 2 ^ s / 2 ^ H = A / 2 ^ (H - s) := by
  have h : (2:Nat) ^ H = 2 ^ (H - s) * 2 ^ s := by
    rw [← pow_add]
    congr 1
    omega
  rw [h, Nat.mul_div_mul_right _ _ (Nat.two_pow_pos s)]

theorem div_pow_lt_pow {H s : Nat} (A : Nat) (hA : A < 2 ^ H) (hs : s ≤ H) :
    A / 2 ^ (H - s) < 2 ^ s := by
  rw [Nat.div_lt_iff_lt_mul (Nat.two_pow_pos _), ← pow_add]
  have : H - s + s = H := by omega
  rwa [Nat.add_comm, this]

/-! ### Word primitives, modelled from the spec (§4.2, §6)

The code's `add_with_carry` / `sub_with_carry` on `uint<N>` (from
`int128.hpp`) are "word-wise ripple-carry addition" and "word-wise
ripple-borrow subtraction" whose per-word steps are the `add_carry` /
`sub_borrow` contracts of §6. -/

/-- Modelled from the spec: `add_with_carry(x, y, cin)` — word-wise
ripple-carry addition over the word arrays (§4.2). -/
def addc : List Nat → List Nat → Bool → List Nat × Bool
  | x :: xs, y :: ys, c =>
    let t := x + y + c.toNat
    let r := addc xs ys (decide (W ≤ t))
    ((t % W) :: r.1, r.2)
  | _, _, c => ([], c)

/-- Modelled from the spec: `sub_with_carry(x, y, bin)` — word-wise
ripple-borrow subtraction; the final borrow is the `carry` field (§4.2). -/
def subc : List Nat → List Nat → Bool → List Nat × Bool
  | x :: xs, y :: ys, b =>
    let bin := b.toNat
    let r := subc xs ys (decide (x < y + bin))
    (((x + W - (y + bin)) % W) :: r.1, r.2)
  | _, _, b => ([], b)

theorem addc_spec (xs : List Nat) : ∀ (ys : List Nat) (c : Bool), wf xs → wf ys →
    xs.length = ys.length →
    toNat (addc xs ys c).1 + W ^ xs.length * (addc xs ys c).2.toNat
      = toNat xs + toNat ys + c.toNat
    ∧ wf (addc xs ys c).1 ∧ (addc xs ys c).1.length = xs.length := by
  induction xs with
  | nil =>
    intro ys c hx hy hlen
    cases ys with
    | nil =>
      refine ⟨by simp [addc, toNat], ?_, rfl⟩
      intro w hw
      simp [addc] at hw
    | cons y ys => simp at hlen
  | cons x xs ih =>
    intro ys c hx hy hlen
    cases ys with
    | nil => simp at hlen
    | cons y ys =>
      have hxW : x < W := wf_cons_head hx
      have hyW : y < W := wf_cons_head hy
      obtain ⟨hval, hwf, hl⟩ := ih ys (decide (W ≤ x + y + c.toNat))
        (wf_cons_tail hx) (wf_cons_tail hy) (by simpa using hlen)
      simp only [addc]
      refine ⟨?_, ?_, by simpa using hl⟩
      · simp only [toNat_cons, List.length_cons]
        have hmod := Nat.div_add_mod (x + y + c.toNat) W
        have hdiv : (x + y + c.toNat) / W = (decide (W ≤ x + y + c.toNat)).toNat := by
          rcases Nat.lt_or_ge (x + y + c.toNat) W with hlt | hge
          · simp [Nat.div_eq_of_lt hlt, hlt, Nat.not_le_of_lt hlt]
          · have hlt2 : x + y + c.toNat < 2 * W := by
              cases c <;> simp [Bool.toNat] <;> omega
            have : (x + y + c.toNat) / W = 1 := by
              rw [Nat.div_eq_sub_div W_pos hge, Nat.div_eq_of_lt (by omega)]
            simp [this, hge]

        rw [pow_succ]
        have hc2 : W ^ xs.length * W * (addc xs ys (decide (W ≤ x + y + c.toNat))).2.toNat
            = W * (W ^ xs.length * (addc xs ys (decide (W ≤ x + y + c.toNat))).2.toNat) := by
          ring
        rw [hc2]
        have := hval
        -- combine: word + W * (tailsum) where tailsum + W^n*cout = tailx+taily+cmid
        nlinarith [hval, hmod, hdiv]
      · intro w hw
        rcases List.mem_cons.mp hw with h | h
        · rw [h]; exact Nat.mod_lt _ W_pos
        · exact hwf w h

/-- Comparing two-limb decompositions: the standard fact justifying that the
ripple borrow decides the multi-word order. -/
theorem lowhigh_lt_iff (M x y bin X Y : Nat) (hx : x < M) (hy : y < M)
    (hbin : bin ≤ 1) :
    (x + M * X < y + M * Y + bin) ↔ (X < Y + (decide (x < y + bin)).toNat) := by
  by_cases hxy : x < y + bin
  · simp only [hxy, decide_True, Bool.toNat_true]
    constructor
    · intro hlt
      by_contra hge
      push_neg at hge
      have h1 : M * (Y + 1) ≤ M * X := Nat.mul_le_mul_left M hge
      rw [Nat.mul_add, Nat.mul_one] at h1
      omega
    · intro hle
      have h1 : M * X ≤ M * Y := Nat.mul_le_mul_left M (by omega)
      omega
  · simp only [hxy, decide_False, Bool.toNat_false, Nat.add_zero]
    constructor
    · intro hlt
      by_contra hge
      push_neg at hge
      have h1 : M * Y ≤ M * X := Nat.mul_le_mul_left M hge
      omega
    · intro hlt
      have h1 : M * (X + 1) ≤ M * Y := Nat.mul_le_mul_left M (by omega)
      rw [Nat.mul_add, Nat.mul_one] at h1
      omega

theorem subc_spec (xs : List Nat) : ∀ (ys : List Nat) (b : Bool), wf xs → wf ys →
    xs.length = ys.length →
    ((toNat (subc xs ys b).1 : ℤ)
        = toNat xs - toNat ys - b.toNat + ((subc xs ys b).2.toNat : ℤ) * W ^ xs.length)
    ∧ ((subc xs ys b).2 = decide (toNat xs < toNat ys + b.toNat))
    ∧ wf (subc xs ys b).1 ∧ (subc xs ys b).1.length = xs.length := by
  induction xs with
  | nil =>
    intro ys b hx hy hlen
    cases ys with
    | nil =>
      refine ⟨by simp [subc, toNat], by cases b <;> simp [subc, toNat], ?_, rfl⟩
      intro w hw
      simp [subc] at hw
    | cons y ys => simp at hlen
  | cons x xs ih =>
    intro ys b hx hy hlen
    cases ys with
    | nil => simp at hlen
    | cons y ys =>
      have hxW : x < W := wf_cons_head hx
      have hyW : y < W := wf_cons_head hy
      have hbin : b.toNat ≤ 1 := by cases b <;> simp
      obtain ⟨hval, hbor, hwf, hl⟩ := ih ys (decide (x < y + b.toNat))
        (wf_cons_tail hx) (wf_cons_tail hy) (by simpa using hlen)
      simp only [subc]
      set bw := decide (x < y + b.toNat) with hbw
      refine ⟨?_, ?_, ?_, by simpa using hl⟩
      · have hge2 : y + b.toNat ≤ x + bw.toNat * W := by
          by_cases hc : x < y + b.toNat
          · have hb1 : bw = true := by rw [hbw]; simp [hc]
            rw [hb1]
            simp only [Bool.toNat_true]
            omega
          · have hb0 : bw = false := by rw [hbw]; simp [hc]
            rw [hb0]
            simp only [Bool.toNat_false]
            omega
        have hA : (x + W - (y + b.toNat)) % W = x + bw.toNat * W - (y + b.toNat) := by
          by_cases hc : x < y + b.toNat
          · have hb1 : bw = true := by rw [hbw]; simp [hc]
            have hlt : x + W - (y + b.toNat) < W := by omega
            rw [Nat.mod_eq_of_lt hlt, hb1]
            simp only [Bool.toNat_true]
            omega
          · have hb0 : bw = false := by rw [hbw]; simp [hc]
            have heq : x + W - (y + b.toNat) = (x - (y + b.toNat)) + W := by omega
            rw [heq, Nat.add_mod_right, Nat.mod_eq_of_lt (by omega), hb0]
            simp only [Bool.toNat_false]
            omega
        simp only [toNat_cons, List.length_cons]
        rw [hA]
        push_cast [Nat.cast_sub hge2]
        have hp : ((W : ℤ)) ^ (xs.length + 1) = (W : ℤ) ^ xs.length * W := by
          rw [pow_succ]
        rw [hp]
        linear_combination (W : ℤ) * hval
      · rw [hbor]
        simp only [toNat_cons, List.length_cons]
        have hiff := lowhigh_lt_iff W x y b.toNat (toNat xs) (toNat ys) hxW hyW hbin
        rw [← hbw] at hiff
        rw [decide_eq_decide]
        exact hiff.symm
      · intro w hw
        rcases List.mem_cons.mp hw with h | h
        · rw [h]; exact Nat.mod_lt _ W_pos
        · exact hwf w h

/-! ### The multi-word operators of `intx.hpp` (additive & comparison layer) -/

/-- `operator+` (drops the carry). -/
def addT (x y : List Nat) : List Nat := (addc x y false).1

/-- `operator-` (two's-complement subtraction, drops the borrow). -/
def subT (x y : List Nat) : List Nat := (subc x y false).1

/-- `operator~` (word-wise complement). -/
def notT (x : List Nat) : List Nat := x.map (fun w => (W - 1) - w)

/-- Unary `operator-`: `~x + 1`. -/
def negT (x : List Nat) : List Nat := addT (notT x) (fromNat x.length 1)

/-- `operator<`: the borrow of `sub_with_carry(x, y)`. -/
def ltT (x y : List Nat) : Bool := (subc x y false).2

/-- `operator|` (word-wise). -/
def orT (x y : List Nat) : List Nat := List.zipWith (· ||| ·) x y

theorem addT_value (x y : List Nat) (hx : wf x) (hy : wf y)
    (hlen : x.length = y.length) :
    toNat (addT x y) = (toNat x + toNat y) % W ^ x.length := by
  obtain ⟨hval, hwf, hl⟩ := addc_spec x y false hx hy hlen
  simp only [Bool.toNat_false, Nat.add_zero, Nat.mul_zero] at hval
  simp only [addT]
  have hlt : toNat (addc x y false).1 < W ^ x.length := by
    have h2 := toNat_lt _ hwf
    rwa [hl] at h2
  rw [← hval, mul_comm, Nat.add_mul_mod_self_right, Nat.mod_eq_of_lt hlt]

theorem wf_addT (x y : List Nat) (hx : wf x) (hy : wf y)
    (hlen : x.length = y.length) : wf (addT x y) :=
  (addc_spec x y false hx hy hlen).2.1

theorem length_addT (x y : List Nat) (hx : wf x) (hy : wf y)
    (hlen : x.length = y.length) : (addT x y).length = x.length :=
  (addc_spec x y false hx hy hlen).2.2

theorem ltT_iff (x y : List Nat) (hx : wf x) (hy : wf y)
    (hlen : x.length = y.length) :
    ltT x y = decide (toNat x < toNat y) := by
  obtain ⟨-, hbor, -, -⟩ := subc_spec x y false hx hy hlen
  simpa [ltT] using hbor

theorem orT_spec (x : List Nat) : ∀ (y : List Nat), wf x → wf y →
    x.length = y.length →
    toNat (orT x y) = (toNat x ||| toNat y)
    ∧ wf (orT x y) ∧ (orT x y).length = x.length := by
  induction x with
  | nil =>
    intro y hx hy hlen
    cases y with
    | nil => exact ⟨by simp [orT, toNat], fun w hw => by simp [orT] at hw, rfl⟩
    | cons b ys => simp at hlen
  | cons a xs ih =>
    intro y hx hy hlen
    cases y with
    | nil => simp at hlen
    | cons b ys =>
      have haW : a < W := wf_cons_head hx
      have hbW : b < W := wf_cons_head hy
      have haW2 : a < 2 ^ 64 := haW
      have hbW2 : b < 2 ^ 64 := hbW
      obtain ⟨hval, hwf, hl⟩ := ih ys (wf_cons_tail hx) (wf_cons_tail hy)
        (by simpa using hlen)
      have hstep : orT (a :: xs) (b :: ys) = (a ||| b) :: orT xs ys := rfl
      refine ⟨?_, ?_, by simp [hstep, hl]⟩
      · rw [hstep, toNat_cons, hval, toNat_cons, toNat_cons]
        have hsp := lor_split (s := 64) a (toNat xs) b (toNat ys) haW2 hbW2
        simpa [W] using hsp.symm
      · rw [hstep]
        intro w hw
        rcases List.mem_cons.mp hw with h | h
        · rw [h]
          exact lor_lt_two_pow haW2 hbW2
        · exact hwf w h

/-! ### Powers of two widths -/

/-- Widths of `uint<N>` in words are powers of two (`static_assert` in the
source: `N` is a power of two, `N ≥ 256`). -/
def pow2 (n : Nat) : Prop := ∃ k, n = 2 ^ k

theorem pow2_half {n : Nat} (h : pow2 n) (hn : 2 < n) :
    pow2 (n / 2) ∧ n / 2 * 2 = n ∧ 2 ≤ n / 2 := by
  obtain ⟨k, rfl⟩ := h
  have hk : 2 ≤ k := by
    by_contra hlt
    push_neg at hlt
    interval_cases k <;> simp_all
  have h1 : 2 ^ k / 2 = 2 ^ (k - 1) := by
    conv_lhs => rw [show k = (k - 1) + 1 by omega]
    rw [pow_succ, Nat.mul_div_cancel _ (by omega)]
  refine ⟨⟨k - 1, h1⟩, ?_, ?_⟩
  · rw [h1, ← pow_succ]
    congr 1
    omega
  · rw [h1]
    calc 2 = 2 ^ 1 := rfl
    _ ≤ 2 ^ (k - 1) := Nat.pow_le_pow_right (by omega) (by omega)

theorem W_pow (m : Nat) : W ^ m = 2 ^ (64 * m) := by
  rw [W, ← pow_mul]

/-! ### Two-limb shift arithmetic -/

theorem limb_mod (B r t : Nat) (hB : 0 < B) (hr : r < B) :
    (r + B * t) % B ^ 2 = r + B * (t % B) := by
  have hsplit : r + B * t = (r + B * (t % B)) + B ^ 2 * (t / B) := by
    conv_lhs => rw [← Nat.div_add_mod t B]
    ring
  rw [hsplit, Nat.add_mul_mod_self_left]
  apply Nat.mod_eq_of_lt
  have ht : t % B < B := Nat.mod_lt _ hB
  have h2 : B * (t % B) ≤ B * (B - 1) := Nat.mul_le_mul_left _ (by omega)
  have h3 : B * (B - 1) + B * 1 = B * B := by
    rw [← Nat.mul_add]
    congr 1
    omega
  rw [pow_two]
  omega

theorem hi_word_lt {H s : Nat} (a b : Nat) (ha : a < 2 ^ H) (hs : s < H) :
    b * 2 ^ s % 2 ^ H + a / 2 ^ (H - s) < 2 ^ H := by
  have h1 : b * 2 ^ s % 2 ^ H = b % 2 ^ (H - s) * 2 ^ s :=
    mul_pow_mod_pow b (by omega)
  have h5 : (2:Nat) ^ (H - s) * 2 ^ s = 2 ^ H := by
    rw [← pow_add]
    congr 1
    omega
  have h2 : b % 2 ^ (H - s) ≤ 2 ^ (H - s) - 1 := by
    have := Nat.mod_lt b (y := 2 ^ (H - s)) (Nat.two_pow_pos _)
    omega
  have h3 : b % 2 ^ (H - s) * 2 ^ s ≤ (2 ^ (H - s) - 1) * 2 ^ s :=
    Nat.mul_le_mul_right _ h2
  have h4 : ((2:Nat) ^ (H - s) - 1) * 2 ^ s = 2 ^ H - 2 ^ s := by
    rw [Nat.sub_mul, one_mul, h5]
  have h7 : (2:Nat) ^ s ≤ 2 ^ H := Nat.pow_le_pow_right (by omega) (by omega)
  have h6 : a / 2 ^ (H - s) < 2 ^ s := div_pow_lt_pow a ha (by omega)
  omega

theorem two_limb_shl {H s : Nat} (a b : Nat) (ha : a < 2 ^ H) (hb : b < 2 ^ H)
    (hs : s < H) :
    (a + 2 ^ H * b) * 2 ^ s % (2 ^ H) ^ 2
      = a * 2 ^ s % 2 ^ H + 2 ^ H * (b * 2 ^ s % 2 ^ H + a / 2 ^ (H - s)) := by
  have hdecomp : (a + 2 ^ H * b) * 2 ^ s
      = a * 2 ^ s % 2 ^ H + 2 ^ H * (a / 2 ^ (H - s) + b * 2 ^ s) := by
    have h1 : a * 2 ^ s = a * 2 ^ s % 2 ^ H + 2 ^ H * (a / 2 ^ (H - s)) := by
      rw [← mul_pow_div_pow a (le_of_lt hs)]
      exact (Nat.mod_add_div _ _).symm
    calc (a + 2 ^ H * b) * 2 ^ s = a * 2 ^ s + 2 ^ H * (b * 2 ^ s) := by ring
    _ = a * 2 ^ s % 2 ^ H + 2 ^ H * (a / 2 ^ (H - s)) + 2 ^ H * (b * 2 ^ s) := by
        rw [← h1]
    _ = a * 2 ^ s % 2 ^ H + 2 ^ H * (a / 2 ^ (H - s) + b * 2 ^ s) := by ring
  have ht : a / 2 ^ (H - s) + b * 2 ^ s
      = (a / 2 ^ (H - s) + b * 2 ^ s % 2 ^ H) + 2 ^ H * (b * 2 ^ s / 2 ^ H) := by
    conv_lhs => rw [← Nat.div_add_mod (b * 2 ^ s) (2 ^ H)]
    ring
  rw [hdecomp, limb_mod _ _ _ (Nat.two_pow_pos H) (Nat.mod_lt _ (Nat.two_pow_pos H)),
    ht, Nat.add_mul_mod_self_left,
    Nat.mod_eq_of_lt (show a / 2 ^ (H - s) + b * 2 ^ s % 2 ^ H < 2 ^ H by
      have := hi_word_lt a b ha hs
      omega)]
  ring

theorem two_limb_shl_hi {H s : Nat} (a b : Nat) (hs1 : H ≤ s) (hs2 : s < 2 * H) :
    (a + 2 ^ H * b) * 2 ^ s % (2 ^ H) ^ 2 = 2 ^ H * (a * 2 ^ (s - H) % 2 ^ H) := by
  have hsplit : (2:Nat) ^ s = 2 ^ (s - H) * 2 ^ H := by
    rw [← pow_add]
    congr 1
    omega
  have h1 : (a + 2 ^ H * b) * 2 ^ s
      = 2 ^ H * (a * 2 ^ (s - H)) + (2 ^ H) ^ 2 * (b * 2 ^ (s - H)) := by
    rw [hsplit, pow_two]
    ring
  rw [h1, Nat.add_mul_mod_self_left, pow_two, Nat.mul_mod_mul_left]

theorem shl_overflow_mod {n s : Nat} (x : Nat) (hs : n ≤ s) :
    x * 2 ^ s % 2 ^ n = 0 := by
  have h : x * 2 ^ s = x * 2 ^ (s - n) * 2 ^ n := by
    rw [mul_assoc, ← pow_add]
    congr 2
    omega
  rw [h, Nat.mul_mod_left]

theorem two_limb_shr {H s : Nat} (a b : Nat) (ha : a < 2 ^ H) (hb : b < 2 ^ H)
    (hs : s < H) :
    (a + 2 ^ H * b) / 2 ^ s
      = (a / 2 ^ s + b * 2 ^ (H - s) % 2 ^ H) + 2 ^ H * (b / 2 ^ s) := by
  have h1 : b * 2 ^ (H - s) % 2 ^ H = b % 2 ^ s * 2 ^ (H - s) := by
    have := mul_pow_mod_pow (H := H) (s := H - s) b (by omega)
    rwa [show H - (H - s) = s by omega] at this
  have h2 : (2:Nat) ^ H = 2 ^ s * 2 ^ (H - s) := by
    rw [← pow_add]
    congr 1
    omega
  rw [h1]
  have hb' : b = b % 2 ^ s + 2 ^ s * (b / 2 ^ s) := by
    rw [Nat.mod_add_div]
  calc (a + 2 ^ H * b) / 2 ^ s
      = (a + 2 ^ s * (2 ^ (H - s) * b)) / 2 ^ s := by
        congr 2
        rw [h2]
        ring
    _ = a / 2 ^ s + 2 ^ (H - s) * b := by
        rw [mul_comm ((2:Nat) ^ s) _, Nat.add_mul_div_right _ _ (Nat.two_pow_pos s)]
    _ = a / 2 ^ s + 2 ^ (H - s) * (b % 2 ^ s + 2 ^ s * (b / 2 ^ s)) := by rw [← hb']
    _ = (a / 2 ^ s + b % 2 ^ s * 2 ^ (H - s)) + (2 ^ s * 2 ^ (H - s)) * (b / 2 ^ s) := by
        ring
    _ = (a / 2 ^ s + b % 2 ^ s * 2 ^ (H - s)) + 2 ^ H * (b / 2 ^ s) := by rw [← h2]

theorem two_limb_shr_hi {H s : Nat} (a b : Nat) (ha : a < 2 ^ H) (hs1 : H ≤ s) :
    (a + 2 ^ H * b) / 2 ^ s = b / 2 ^ (s - H) := by
  have h1 : (2:Nat) ^ s = 2 ^ H * 2 ^ (s - H) := by
    rw [← pow_add]
    congr 1
    omega
  rw [h1, ← Nat.div_div_eq_div_mul, mul_comm ((2:Nat) ^ H) b,
    Nat.add_mul_div_right _ _ (Nat.two_pow_pos H), Nat.div_eq_of_lt ha,
    Nat.zero_add]

theorem shr_lo_word_lt {H s : Nat} (a b : Nat) (ha : a < 2 ^ H) (hs : s < H) :
    a / 2 ^ s + b * 2 ^ (H - s) % 2 ^ H < 2 ^ H := by
  have h1 : b * 2 ^ (H - s) % 2 ^ H = b % 2 ^ s * 2 ^ (H - s) := by
    have := mul_pow_mod_pow (H := H) (s := H - s) b (by omega)
    rwa [show H - (H - s) = s by omega] at this
  have h2 : a / 2 ^ s < 2 ^ (H - s) := by
    have := div_pow_lt_pow (s := H - s) a ha (by omega)
    rwa [show H - (H - s) = s by omega] at this
  have h3 : b % 2 ^ s ≤ 2 ^ s - 1 := by
    have := Nat.mod_lt b (y := 2 ^ s) (Nat.two_pow_pos _)
    omega
  have h4 : b % 2 ^ s * 2 ^ (H - s) ≤ (2 ^ s - 1) * 2 ^ (H - s) :=
    Nat.mul_le_mul_right _ h3
  have h6 : (2:Nat) ^ s * 2 ^ (H - s) = 2 ^ H := by
    rw [← pow_add]
    congr 1
    omega
  have h5 : ((2:Nat) ^ s - 1) * 2 ^ (H - s) = 2 ^ H - 2 ^ (H - s) := by
    rw [Nat.sub_mul, one_mul, h6]
  have h7 : (2:Nat) ^ (H - s) ≤ 2 ^ H := Nat.pow_le_pow_right (by omega) (by omega)
  omega

/-! ### Shifts

`operator<<` / `operator>>` of `intx.hpp` perform half-decomposition with
the word-width-avoiding split; the recursion bottoms out at the `uint128`
shift of `int128.hpp`, which is modelled from the spec (§4.1). -/

/-- Modelled from the spec (§4.1): the `uint128` left shift base case, with
the split `(lo >> (H − s − 1)) >> 1` protecting against a shift by the word
width. -/
def shl128 (x : List Nat) (s : Nat) : List Nat :=
  match x with
  | [a, b] =>
    if s < 64 then
      [(a <<< s) % W, ((b <<< s) % W) ||| ((a >>> (64 - s - 1)) >>> 1)]
    else if s < 128 then
      [0, (a <<< (s - 64)) % W]
    else [0, 0]
  | l => zeros l.length

/-- Modelled from the spec (§4.1): the `uint128` right shift base case
(mirror of the left shift). -/
def shr128 (x : List Nat) (s : Nat) : List Nat :=
  match x with
  | [a, b] =>
    if s < 64 then
      [(a >>> s) ||| ((((b <<< (64 - s - 1)) % W) <<< 1) % W), b >>> s]
    else if s < 128 then
      [b >>> (s - 64), 0]
    else [0, 0]
  | l => zeros l.length

theorem shl128_spec (a b s : Nat) (ha : a < W) (hb : b < W) :
    toNat (shl128 [a, b] s) = toNat [a, b] * 2 ^ s % W ^ 2
    ∧ wf (shl128 [a, b] s) ∧ (shl128 [a, b] s).length = 2 := by
  have ha64 : a < 2 ^ 64 := ha
  have hb64 : b < 2 ^ 64 := hb
  by_cases h1 : s < 64
  · have hse : shl128 [a, b] s
        = [(a <<< s) % W, ((b <<< s) % W) ||| ((a >>> (64 - s - 1)) >>> 1)] := by
      simp [shl128, h1]
    have hov : (a >>> (64 - s - 1)) >>> 1 = a / 2 ^ (64 - s) := by
      rw [Nat.shiftRight_eq_div_pow, Nat.shiftRight_eq_div_pow,
        Nat.div_div_eq_div_mul, pow_one, ← pow_succ]
      congr 2
      omega
    have hdis : ((b <<< s) % W) ||| (a / 2 ^ (64 - s))
        = (b <<< s) % W + a / 2 ^ (64 - s) := by
      apply lor_disjoint_add (s := s)
      · rw [Nat.shiftLeft_eq]
        show b * 2 ^ s % 2 ^ 64 % 2 ^ s = 0
        rw [mul_pow_mod_pow b (by omega), Nat.mul_mod_left]
      · exact div_pow_lt_pow a ha64 (by omega)
    refine ⟨?_, ?_, by rw [hse]; rfl⟩
    · rw [hse]
      simp only [toNat_cons, toNat_nil, Nat.mul_zero, Nat.add_zero, hov]
      rw [hdis]
      simp only [Nat.shiftLeft_eq]
      have h2 := two_limb_shl (H := 64) a b ha64 hb64 h1
      simpa [W] using h2.symm
    · rw [hse]
      intro w hw
      rcases List.mem_cons.mp hw with h | hw2
      · rw [h]; exact Nat.mod_lt _ W_pos
      rcases List.mem_cons.mp hw2 with h | hw3
      · rw [h, hov]
        apply lor_lt_two_pow (s := 64)
        · exact Nat.mod_lt _ W_pos
        · exact lt_of_le_of_lt (Nat.div_le_self _ _) ha64
      · simp at hw3
  · by_cases h2 : s < 128
    · have hse : shl128 [a, b] s = [0, (a <<< (s - 64)) % W] := by
        simp [shl128, h1, h2]
      refine ⟨?_, ?_, by rw [hse]; rfl⟩
      · rw [hse]
        simp only [toNat_cons, toNat_nil, Nat.mul_zero, Nat.add_zero,
          Nat.zero_add, Nat.shiftLeft_eq]
        have h3 := two_limb_shl_hi (H := 64) (s := s) a b (by omega) (by omega)
        simpa [W] using h3.symm
      · rw [hse]
        intro w hw
        rcases List.mem_cons.mp hw with h | hw2
        · rw [h]; exact W_pos
        rcases List.mem_cons.mp hw2 with h | hw3
        · rw [h]; exact Nat.mod_lt _ W_pos
        · simp at hw3
    · have hse : shl128 [a, b] s = [0, 0] := by
        simp [shl128, h1, h2]
      refine ⟨?_, ?_, by rw [hse]; rfl⟩
      · rw [hse]
        have hx : toNat [a, b] * 2 ^ s % 2 ^ 128 = 0 :=
          shl_overflow_mod _ (by omega)
        have h128 : W ^ 2 = 2 ^ 128 := by norm_num [W, ← pow_mul]
        rw [h128, hx]
        simp [toNat]
      · rw [hse]
        intro w hw
        simp at hw
        rw [hw]
        exact W_pos

theorem shr128_spec (a b s : Nat) (ha : a < W) (hb : b < W) :
    toNat (shr128 [a, b] s) = toNat [a, b] / 2 ^ s
    ∧ wf (shr128 [a, b] s) ∧ (shr128 [a, b] s).length = 2 := by
  have ha64 : a < 2 ^ 64 := ha
  have hb64 : b < 2 ^ 64 := hb
  by_cases h1 : s < 64
  · have hse : shr128 [a, b] s
        = [(a >>> s) ||| ((((b <<< (64 - s - 1)) % W) <<< 1) % W), b >>> s] := by
      simp [shr128, h1]
    have hov : (((b <<< (64 - s - 1)) % W) <<< 1) % W = b * 2 ^ (64 - s) % W := by
      simp only [Nat.shiftLeft_eq, pow_one]
      show b * 2 ^ (64 - s - 1) % W * 2 % W = b * 2 ^ (64 - s) % W
      have h3 : b * 2 ^ (64 - s - 1) % W * 2 % W = b * 2 ^ (64 - s - 1) * 2 % W := by
        conv_rhs => rw [Nat.mul_mod]
        rw [Nat.mod_eq_of_lt (show (2:Nat) < W by decide)]
      rw [h3, mul_assoc, ← pow_succ]
      congr 3
      omega
    have hdis : (a >>> s) ||| (b * 2 ^ (64 - s) % W)
        = a / 2 ^ s + b * 2 ^ (64 - s) % W := by
      rw [Nat.shiftRight_eq_div_pow, Nat.lor_comm]
      rw [lor_disjoint_add (s := 64 - s) _ _
        (by
          show b * 2 ^ (64 - s) % 2 ^ 64 % 2 ^ (64 - s) = 0
          rw [mul_pow_mod_pow b (by omega), Nat.mul_mod_left])
        (by
          have h4 := div_pow_lt_pow (s := 64 - s) a ha64 (by omega)
          rwa [show 64 - (64 - s) = s by omega] at h4)]
      omega
    refine ⟨?_, ?_, by rw [hse]; rfl⟩
    · rw [hse]
      simp only [toNat_cons, toNat_nil, Nat.mul_zero, Nat.add_zero, hov]
      rw [hdis]
      simp only [Nat.shiftRight_eq_div_pow]
      have h2 := two_limb_shr (H := 64) a b ha64 hb64 h1
      simpa [W] using h2.symm
    · rw [hse]
      intro w hw
      rcases List.mem_cons.mp hw with h | hw2
      · rw [h, hov]
        apply lor_lt_two_pow (s := 64)
        · rw [Nat.shiftRight_eq_div_pow]
          exact lt_of_le_of_lt (Nat.div_le_self _ _) ha64
        · exact Nat.mod_lt _ W_pos
      rcases List.mem_cons.mp hw2 with h | hw3
      · rw [h, Nat.shiftRight_eq_div_pow]
        exact lt_of_le_of_lt (Nat.div_le_self _ _) hb64
      · simp at hw3
  · by_cases h2 : s < 128
    · have hse : shr128 [a, b] s = [b >>> (s - 64), 0] := by
        simp [shr128, h1, h2]
      refine ⟨?_, ?_, by rw [hse]; rfl⟩
      · rw [hse]
        simp only [toNat_cons, toNat_nil, Nat.mul_zero, Nat.add_zero,
          Nat.shiftRight_eq_div_pow]
        have h3 := two_limb_shr_hi (H := 64) (s := s) a b ha64 (by omega)
        simpa [W] using h3.symm
      · rw [hse]
        intro w hw
        rcases List.mem_cons.mp hw with h | hw2
        · rw [h, Nat.shiftRight_eq_div_pow]
          exact lt_of_le_of_lt (Nat.div_le_self _ _) hb64
        rcases List.mem_cons.mp hw2 with h | hw3
        · rw [h]; exact W_pos
        · simp at hw3
    · have hse : shr128 [a, b] s = [0, 0] := by
        simp [shr128, h1, h2]
      refine ⟨?_, ?_, by rw [hse]; rfl⟩
      · rw [hse]
        have hwfab : wf [a, b] := by
          intro w hw
          rcases List.mem_cons.mp hw with h | hw2
          · rw [h]; exact ha
          rcases List.mem_cons.mp hw2 with h | hw3
          · rw [h]; exact hb
          · simp at hw3
        have hlt : toNat [a, b] < 2 ^ 128 := by
          have h5 := toNat_lt [a, b] hwfab
          have h6 : W ^ 2 = 2 ^ 128 := by norm_num [W, ← pow_mul]
          simp only [List.length_cons, List.length_nil] at h5
          rw [show (0:Nat) + 1 + 1 = 2 by rfl] at h5
          omega
        have hpow : (2:Nat) ^ 128 ≤ 2 ^ s := Nat.pow_le_pow_right (by omega) (by omega)
        rw [Nat.div_eq_of_lt (by omega)]
        simp [toNat]
      · rw [hse]
        intro w hw
        simp at hw
        rw [hw]
        exact W_pos

/-- The half-decomposition shift of `intx.hpp` (`operator<<` / `operator>>`
with a `uint64_t` distance), one function for both directions.  `fuel`
bounds the recursion depth (any value at least the word count works); the
base case of one or two words is the modelled `uint128` shift. -/
def shiftAux : Nat → Bool → List Nat → Nat → List Nat
  | 0, true, x, s => shl128 x s
  | 0, false, x, s => shr128 x s
  | fuel + 1, true, x, s =>
    if x.length ≤ 2 then shl128 x s
    else
      let k := x.length / 2
      let hb := 64 * k
      let lo := x.take k
      let hi := x.drop k
      if s < hb then
        let lo2 := shiftAux fuel true lo s
        let lov := shiftAux fuel false (shiftAux fuel false lo (hb - s - 1)) 1
        lo2 ++ orT (shiftAux fuel true hi s) lov
      else if s < 64 * x.length then
        zeros k ++ shiftAux fuel true lo (s - hb)
      else zeros x.length
  | fuel + 1, false, x, s =>
    if x.length ≤ 2 then shr128 x s
    else
      let k := x.length / 2
      let hb := 64 * k
      let lo := x.take k
      let hi := x.drop k
      if s < hb then
        let hi2 := shiftAux fuel false hi s
        let hiov := shiftAux fuel true (shiftAux fuel true hi (hb - s - 1)) 1
        orT (shiftAux fuel false lo s) hiov ++ hi2
      else if s < 64 * x.length then
        shiftAux fuel false hi (s - hb) ++ zeros k
      else zeros x.length

/-- `operator<<(uint<N>, uint64_t)`. -/
def shlT (x : List Nat) (s : Nat) : List Nat := shiftAux x.length true x s

/-- `operator>>(uint<N>, uint64_t)`. -/
def shrT (x : List Nat) (s : Nat) : List Nat := shiftAux x.length false x s

theorem shiftAux_spec (fuel : Nat) : ∀ (x : List Nat) (s : Nat) (left : Bool),
    wf x → pow2 x.length → 2 ≤ x.length → x.length ≤ fuel + 2 →
    toNat (shiftAux fuel left x s)
      = (if left then toNat x * 2 ^ s % W ^ x.length else toNat x / 2 ^ s)
    ∧ wf (shiftAux fuel left x s) ∧ (shiftAux fuel left x s).length = x.length := by
  induction fuel with
  | zero =>
    intro x s left hwf hp2 h2 hfuel
    have hlen : x.length = 2 := by omega
    obtain ⟨a, b, rfl⟩ : ∃ a b, x = [a, b] := by
      match x, hlen with
      | [a, b], _ => exact ⟨a, b, rfl⟩
    have ha : a < W := hwf a (by simp)
    have hb : b < W := hwf b (by simp)
    cases left with
    | true =>
      have h := shl128_spec a b s ha hb
      exact ⟨by simpa [shiftAux] using h.1, by simpa [shiftAux] using h.2.1,
        by simpa [shiftAux] using h.2.2⟩
    | false =>
      have h := shr128_spec a b s ha hb
      exact ⟨by simpa [shiftAux] using h.1, by simpa [shiftAux] using h.2.1,
        by simpa [shiftAux] using h.2.2⟩
  | succ fuel ih =>
    intro x s left hwf hp2 h2 hfuel
    by_cases hsm : x.length ≤ 2
    · have hlen : x.length = 2 := by omega
      obtain ⟨a, b, rfl⟩ : ∃ a b, x = [a, b] := by
        match x, hlen with
        | [a, b], _ => exact ⟨a, b, rfl⟩
      have ha : a < W := hwf a (by simp)
      have hb : b < W := hwf b (by simp)
      cases left with
      | true =>
        have h := shl128_spec a b s ha hb
        exact ⟨by simpa [shiftAux] using h.1, by simpa [shiftAux] using h.2.1,
          by simpa [shiftAux] using h.2.2⟩
      | false =>
        have h := shr128_spec a b s ha hb
        exact ⟨by simpa [shiftAux] using h.1, by simpa [shiftAux] using h.2.1,
          by simpa [shiftAux] using h.2.2⟩
    · push_neg at hsm
      obtain ⟨hp2half, hkk, hk2⟩ := pow2_half hp2 hsm
      set n := x.length with hn
      set k := n / 2 with hk
      have hkfuel : k ≤ fuel + 2 := by omega
      have hklen : (x.take k).length = k := by
        simp [List.length_take]
        omega
      have hdlen : (x.drop k).length = k := by
        simp [List.length_drop]
        omega
      have hwlo : wf (x.take k) := wf_take x k hwf
      have hwhi : wf (x.drop k) := wf_drop x k hwf
      have hsplitv : toNat x = toNat (x.take k) + W ^ k * toNat (x.drop k) := by
        have h3 := toNat_take_drop x k
        rwa [hklen] at h3
      have hLlt : toNat (x.take k) < W ^ k := by
        have h3 := toNat_lt _ hwlo
        rwa [hklen] at h3
      have hHlt : toNat (x.drop k) < W ^ k := by
        have h3 := toNat_lt _ hwhi
        rwa [hdlen] at h3
      have hWk : W ^ k = 2 ^ (64 * k) := W_pow k
      have hW2 : ((2:Nat) ^ (64 * k)) ^ 2 = W ^ n := by
        rw [W_pow, ← pow_mul]
        congr 1
        omega
      have ihloL : ∀ s', toNat (shiftAux fuel true (x.take k) s')
            = toNat (x.take k) * 2 ^ s' % W ^ k
          ∧ wf (shiftAux fuel true (x.take k) s')
          ∧ (shiftAux fuel true (x.take k) s').length = k := by
        intro s'
        have h3 := ih (x.take k) s' true hwlo (by rwa [hklen]) (by omega)
          (by omega)
        rw [hklen] at h3
        simpa using h3
      have ihloR : ∀ (u : List Nat), wf u → u.length = k → ∀ s',
            toNat (shiftAux fuel false u s') = toNat u / 2 ^ s'
          ∧ wf (shiftAux fuel false u s')
          ∧ (shiftAux fuel false u s').length = k := by
        intro u hu hul s'
        have h3 := ih u s' false hu (by rwa [hul]) (by omega) (by omega)
        rw [hul] at h3
        simpa using h3
      have ihhiL : ∀ (u : List Nat), wf u → u.length = k → ∀ s',
            toNat (shiftAux fuel true u s') = toNat u * 2 ^ s' % W ^ k
          ∧ wf (shiftAux fuel true u s')
          ∧ (shiftAux fuel true u s').length = k := by
        intro u hu hul s'
        have h3 := ih u s' true hu (by rwa [hul]) (by omega) (by omega)
        rw [hul] at h3
        simpa using h3
      cases left with
      | true =>
        by_cases hs1 : s < 64 * k
        · have hse : shiftAux (fuel + 1) true x s
              = shiftAux fuel true (x.take k) s
                ++ orT (shiftAux fuel true (x.drop k) s)
                  (shiftAux fuel false (shiftAux fuel false (x.take k) (64 * k - s - 1)) 1) := by
            simp only [shiftAux, ← hn, ← hk]
            rw [if_neg (show ¬n ≤ 2 by omega), if_pos (show s < 64 * k from hs1)]
          obtain ⟨hv1, hw1, hl1⟩ := ihloL s
          obtain ⟨hv2, hw2, hl2⟩ := ihhiL (x.drop k) hwhi hdlen s
          obtain ⟨hv3, hw3, hl3⟩ := ihloR (x.take k) hwlo hklen (64 * k - s - 1)
          obtain ⟨hv4, hw4, hl4⟩ :=
            ihloR (shiftAux fuel false (x.take k) (64 * k - s - 1)) hw3 hl3 1
          have hlovval : toNat (shiftAux fuel false
              (shiftAux fuel false (x.take k) (64 * k - s - 1)) 1)
              = toNat (x.take k) / 2 ^ (64 * k - s) := by
            rw [hv4, hv3, Nat.div_div_eq_div_mul, ← pow_add,
              show 64 * k - s - 1 + 1 = 64 * k - s by omega]
          obtain ⟨hvor, hwor, hlor⟩ := orT_spec _ _ hw2 hw4 (by rw [hl2, hl4])
          refine ⟨?_, by rw [hse]; exact wf_append _ _ hw1 hwor, ?_⟩
          · rw [hse, toNat_append, hl1, hvor, hlovval, hv1, hv2]
            simp only [if_true]
            have hdisj : (toNat (x.drop k) * 2 ^ s % W ^ k)
                ||| (toNat (x.take k) / 2 ^ (64 * k - s))
                = toNat (x.drop k) * 2 ^ s % W ^ k
                  + toNat (x.take k) / 2 ^ (64 * k - s) := by
              apply lor_disjoint_add (s := s)
              · rw [hWk, mul_pow_mod_pow _ (by omega), Nat.mul_mod_left]
              · exact div_pow_lt_pow _ (by rwa [hWk] at hLlt) (by omega)
            rw [hdisj, hsplitv]
            have h5 := two_limb_shl (H := 64 * k) (s := s) (toNat (x.take k))
              (toNat (x.drop k)) (by rwa [hWk] at hLlt) (by rwa [hWk] at hHlt) hs1
            rw [hWk, ← hW2]
            exact h5.symm
          · rw [hse]
            simp only [List.length_append, hl1, hlor, hl2]
            omega
        · by_cases hs2 : s < 64 * n
          · have hse : shiftAux (fuel + 1) true x s
                = zeros k ++ shiftAux fuel true (x.take k) (s - 64 * k) := by
              simp only [shiftAux, ← hn, ← hk]
              rw [if_neg (show ¬n ≤ 2 by omega), if_neg (show ¬s < 64 * k by omega),
                if_pos (show s < 64 * n by omega)]
            obtain ⟨hv1, hw1, hl1⟩ := ihloL (s - 64 * k)
            refine ⟨?_, by rw [hse]; exact wf_append _ _ (wf_zeros k) hw1, ?_⟩
            · rw [hse, toNat_append, toNat_zeros, length_zeros, hv1]
              simp only [if_true, Nat.zero_add]
              rw [hsplitv]
              have h5 := two_limb_shl_hi (H := 64 * k) (s := s) (toNat (x.take k))
                (toNat (x.drop k)) (by omega) (by omega)
              rw [hWk, ← hW2]
              exact h5.symm
            · rw [hse]
              simp only [List.length_append, length_zeros, hl1]
              omega
          · have hse : shiftAux (fuel + 1) true x s = zeros n := by
              simp only [shiftAux, ← hn, ← hk]
              rw [if_neg (show ¬n ≤ 2 by omega), if_neg (show ¬s < 64 * k by omega),
                if_neg (show ¬s < 64 * n by omega)]
            refine ⟨?_, by rw [hse]; exact wf_zeros n, by rw [hse]; simp⟩
            rw [hse, toNat_zeros]
            simp only [if_true]
            rw [W_pow]
            exact (shl_overflow_mod _ (by omega)).symm
      | false =>
        by_cases hs1 : s < 64 * k
        · have hse : shiftAux (fuel + 1) false x s
              = orT (shiftAux fuel false (x.take k) s)
                  (shiftAux fuel true (shiftAux fuel true (x.drop k) (64 * k - s - 1)) 1)
                ++ shiftAux fuel false (x.drop k) s := by
            simp only [shiftAux, ← hn, ← hk]
            rw [if_neg (show ¬n ≤ 2 by omega), if_pos (show s < 64 * k from hs1)]
          obtain ⟨hv1, hw1, hl1⟩ := ihloR (x.take k) hwlo hklen s
          obtain ⟨hv2, hw2, hl2⟩ := ihloR (x.drop k) hwhi hdlen s
          obtain ⟨hv3, hw3, hl3⟩ := ihhiL (x.drop k) hwhi hdlen (64 * k - s - 1)
          obtain ⟨hv4, hw4, hl4⟩ :=
            ihhiL (shiftAux fuel true (x.drop k) (64 * k - s - 1)) hw3 hl3 1
          have hiovval : toNat (shiftAux fuel true
              (shiftAux fuel true (x.drop k) (64 * k - s - 1)) 1)
              = toNat (x.drop k) * 2 ^ (64 * k - s) % W ^ k := by
            rw [hv4, hv3, hWk]
            have hmm : toNat (x.drop k) * 2 ^ (64 * k - s - 1) % 2 ^ (64 * k)
                * 2 ^ 1 % 2 ^ (64 * k)
                = toNat (x.drop k) * 2 ^ (64 * k - s - 1) * 2 ^ 1 % 2 ^ (64 * k) := by
              conv_rhs => rw [Nat.mul_mod]
              rw [Nat.mod_eq_of_lt (show (2:Nat) ^ 1 < 2 ^ (64 * k) by
                apply Nat.pow_lt_pow_right (by omega)
                omega)]
            rw [hmm, mul_assoc, ← pow_add,
              show 64 * k - s - 1 + 1 = 64 * k - s by omega]
          obtain ⟨hvor, hwor, hlor⟩ := orT_spec _ _ hw1 hw4 (by rw [hl1, hl4])
          refine ⟨?_, by rw [hse]; exact wf_append _ _ hwor hw2, ?_⟩
          · rw [hse, toNat_append, hvor, hiovval, hv1, hv2, hlor, hl1]
            simp only [Bool.false_eq_true, if_false]
            have hdisj : (toNat (x.take k) / 2 ^ s)
                ||| (toNat (x.drop k) * 2 ^ (64 * k - s) % W ^ k)
                = toNat (x.take k) / 2 ^ s
                  + toNat (x.drop k) * 2 ^ (64 * k - s) % W ^ k := by
              rw [Nat.lor_comm]
              rw [lor_disjoint_add (s := 64 * k - s) _ _
                (by rw [hWk, mul_pow_mod_pow _ (by omega), Nat.mul_mod_left])
                (by
                  have h4 := div_pow_lt_pow (s := 64 * k - s) (toNat (x.take k))
                    (by rwa [hWk] at hLlt) (by omega)
                  rwa [show 64 * k - (64 * k - s) = s by omega] at h4)]
              omega
            rw [hdisj, hsplitv]
            have h5 := two_limb_shr (H := 64 * k) (s := s) (toNat (x.take k))
              (toNat (x.drop k)) (by rwa [hWk] at hLlt) (by rwa [hWk] at hHlt) hs1
            rw [hWk]
            exact h5.symm
          · rw [hse]
            simp only [List.length_append, hlor, hl1, hl2]
            omega
        · by_cases hs2 : s < 64 * n
          · have hse : shiftAux (fuel + 1) false x s
                = shiftAux fuel false (x.drop k) (s - 64 * k) ++ zeros k := by
              simp only [shiftAux, ← hn, ← hk]
              rw [if_neg (show ¬n ≤ 2 by omega), if_neg (show ¬s < 64 * k by omega),
                if_pos (show s < 64 * n by omega)]
            obtain ⟨hv1, hw1, hl1⟩ := ihloR (x.drop k) hwhi hdlen (s - 64 * k)
            refine ⟨?_, by rw [hse]; exact wf_append _ _ hw1 (wf_zeros k), ?_⟩
            · rw [hse, toNat_append, toNat_zeros, hl1, hv1]
              simp only [Bool.false_eq_true, if_false, Nat.mul_zero, Nat.add_zero]
              rw [hsplitv]
              have h5 := two_limb_shr_hi (H := 64 * k) (s := s) (toNat (x.take k))
                (toNat (x.drop k)) (by rwa [hWk] at hLlt) (by omega)
              rw [hWk]
              exact h5.symm
            · rw [hse]
              simp only [List.length_append, length_zeros, hl1]
              omega
          · have hse : shiftAux (fuel + 1) false x s = zeros n := by
              simp only [shiftAux, ← hn, ← hk]
              rw [if_neg (show ¬n ≤ 2 by omega), if_neg (show ¬s < 64 * k by omega),
                if_neg (show ¬s < 64 * n by omega)]
            refine ⟨?_, by rw [hse]; exact wf_zeros n, by rw [hse]; simp⟩
            rw [hse, toNat_zeros]
            simp only [Bool.false_eq_true, if_false]
            have hxlt : toNat x < 2 ^ (64 * n) := by
              have h3 := toNat_lt x hwf
              rwa [W_pow] at h3
            have hpow : (2:Nat) ^ (64 * n) ≤ 2 ^ s :=
              Nat.pow_le_pow_right (by omega) (by omega)
            rw [Nat.div_eq_of_lt (by omega)]

theorem shlT_spec (x : List Nat) (s : Nat) (hwf : wf x) (hp2 : pow2 x.length)
    (h2 : 2 ≤ x.length) :
    toNat (shlT x s) = toNat x * 2 ^ s % W ^ x.length
    ∧ wf (shlT x s) ∧ (shlT x s).length = x.length := by
  have h := shiftAux_spec x.length x s true hwf hp2 h2 (by omega)
  simpa [shlT] using h

theorem shrT_spec (x : List Nat) (s : Nat) (hwf : wf x) (hp2 : pow2 x.length)
    (h2 : 2 ≤ x.length) :
    toNat (shrT x s) = toNat x / 2 ^ s
    ∧ wf (shrT x s) ∧ (shrT x s).length = x.length := by
  have h := shiftAux_spec x.length x s false hwf hp2 h2 (by omega)
  simpa [shrT] using h

/-- `operator<<(uint<N>, T)` for a shift distance of a type `T` convertible
to `uint<N>` (instantiated at `T = uint<N>`): compare against
`T{sizeof(x) * 8}` and forward the low word (`static_cast<uint64_t>`). -/
def shlU (x y : List Nat) : List Nat :=
  if ltT y (fromNat x.length (64 * x.length)) then shlT x (y.getD 0 0)
  else zeros x.length

/-- `operator>>(uint<N>, T)`, mirror of `shlU`. -/
def shrU (x y : List Nat) : List Nat :=
  if ltT y (fromNat x.length (64 * x.length)) then shrT x (y.getD 0 0)
  else zeros x.length

/-- `shl_loop`'s inner loop: carry words across one left shift by `s < 64`. -/
def shlLoopGo (s carry : Nat) : List Nat → List Nat
  | [] => []
  | w :: ws => (((w <<< s) % W) ||| carry) :: shlLoopGo s ((w >>> (64 - s - 1)) >>> 1) ws

/-- `shl_loop`: word-loop implementation of the left shift (`intx.hpp`
lines 401–421): split the distance into a word skip and an in-word shift,
then ripple the shifted-out carry upward. -/
def shlLoop (x : List Nat) (shift : Nat) : List Nat :=
  zeros (shift / 64) ++ shlLoopGo (shift % 64) 0 (x.take (x.length - shift / 64))

theorem limb_mod_gen (B r t L : Nat) (hB : 0 < B) (hr : r < B) :
    (r + B * t) % B ^ (L + 1) = r + B * (t % B ^ L) := by
  have hsplit : r + B * t = (r + B * (t % B ^ L)) + B ^ (L + 1) * (t / B ^ L) := by
    conv_lhs => rw [← Nat.div_add_mod t (B ^ L)]
    ring
  rw [hsplit, Nat.add_mul_mod_self_left]
  apply Nat.mod_eq_of_lt
  have ht : t % B ^ L < B ^ L := Nat.mod_lt _ (pow_pos hB L)
  have h2 : B * (t % B ^ L) ≤ B * (B ^ L - 1) := Nat.mul_le_mul_left _ (by omega)
  have h3 : B * (B ^ L - 1) + B * 1 = B * B ^ L := by
    rw [← Nat.mul_add]
    congr 1
    have := pow_pos hB L
    omega
  rw [pow_succ, mul_comm (B ^ L) B]
  omega

theorem shlLoopGo_spec (s : Nat) (hs : s < 64) : ∀ (ws : List Nat) (c : Nat),
    wf ws → c < 2 ^ s →
    toNat (shlLoopGo s c ws) = (c + toNat ws * 2 ^ s) % W ^ ws.length
    ∧ wf (shlLoopGo s c ws) ∧ (shlLoopGo s c ws).length = ws.length := by
  intro ws
  induction ws with
  | nil =>
    intro c hwf hc
    refine ⟨by simp [shlLoopGo, toNat, Nat.mod_one], ?_, rfl⟩
    intro w hw
    simp [shlLoopGo] at hw
  | cons w ws ih =>
    intro c hwf hc
    have hwW : w < W := wf_cons_head hwf
    have hw64 : w < 2 ^ 64 := hwW
    have hcar : (w >>> (64 - s - 1)) >>> 1 = w / 2 ^ (64 - s) := by
      rw [Nat.shiftRight_eq_div_pow, Nat.shiftRight_eq_div_pow,
        Nat.div_div_eq_div_mul, pow_one, ← pow_succ,
        show 64 - s - 1 + 1 = 64 - s by omega]
    have hcar2 : w / 2 ^ (64 - s) < 2 ^ s := div_pow_lt_pow w hw64 (by omega)
    obtain ⟨hval, hwf2, hl2⟩ := ih (w / 2 ^ (64 - s)) (wf_cons_tail hwf) hcar2
    have hstep : shlLoopGo s c (w :: ws)
        = (((w <<< s) % W) ||| c) :: shlLoopGo s (w / 2 ^ (64 - s)) ws := by
      rw [show shlLoopGo s c (w :: ws)
        = (((w <<< s) % W) ||| c) :: shlLoopGo s ((w >>> (64 - s - 1)) >>> 1) ws
        from rfl, hcar]
    have hdis : ((w <<< s) % W) ||| c = (w <<< s) % W + c := by
      apply lor_disjoint_add (s := s)
      · rw [Nat.shiftLeft_eq]
        show w * 2 ^ s % 2 ^ 64 % 2 ^ s = 0
        rw [mul_pow_mod_pow w (by omega), Nat.mul_mod_left]
      · exact hc
    refine ⟨?_, ?_, by rw [hstep]; simp [hl2]⟩
    · rw [hstep, toNat_cons, hdis, hval, Nat.shiftLeft_eq]
      have hword : w * 2 ^ s % W + c < W := by
        show w * 2 ^ s % 2 ^ 64 + c < 2 ^ 64
        have hcs : c < 2 ^ s := hc
        have h3 : w * 2 ^ s % 2 ^ 64 = w % 2 ^ (64 - s) * 2 ^ s :=
          mul_pow_mod_pow w (by omega)
        have h4 : w % 2 ^ (64 - s) ≤ 2 ^ (64 - s) - 1 := by
          have := Nat.mod_lt w (y := 2 ^ (64 - s)) (Nat.two_pow_pos _)
          omega
        have h5 : w % 2 ^ (64 - s) * 2 ^ s ≤ (2 ^ (64 - s) - 1) * 2 ^ s :=
          Nat.mul_le_mul_right _ h4
        have h6 : ((2:Nat) ^ (64 - s) - 1) * 2 ^ s = 2 ^ 64 - 2 ^ s := by
          rw [Nat.sub_mul, one_mul, ← pow_add,
            show 64 - s + s = 64 by omega]
        have h7 : (2:Nat) ^ s ≤ 2 ^ 64 := Nat.pow_le_pow_right (by omega) (by omega)
        omega
      have hW64 : W = 2 ^ 64 := rfl
      calc w * 2 ^ s % W + c + W * ((w / 2 ^ (64 - s) + toNat ws * 2 ^ s) % W ^ ws.length)
          = (w * 2 ^ s % W + c) + W * ((w / 2 ^ (64 - s) + toNat ws * 2 ^ s) % W ^ ws.length) := by
            ring
        _ = ((w * 2 ^ s % W + c) + W * (w / 2 ^ (64 - s) + toNat ws * 2 ^ s)) % W ^ (ws.length + 1) := by
            rw [limb_mod_gen W _ _ ws.length W_pos hword]
        _ = (c + (w + W * toNat ws) * 2 ^ s) % W ^ (ws.length + 1) := by
            congr 1
            have hw2 : w * 2 ^ s = w * 2 ^ s % W + W * (w / 2 ^ (64 - s)) := by
              rw [hW64, ← mul_pow_div_pow w (by omega : s ≤ 64)]
              exact (Nat.mod_add_div _ _).symm
            calc w * 2 ^ s % W + c + W * (w / 2 ^ (64 - s) + toNat ws * 2 ^ s)
                = c + (w * 2 ^ s % W + W * (w / 2 ^ (64 - s))) + W * toNat ws * 2 ^ s := by
                  ring
              _ = c + w * 2 ^ s + W * toNat ws * 2 ^ s := by rw [← hw2]
              _ = c + (w + W * toNat ws) * 2 ^ s := by ring
    · rw [hstep]
      intro v hv
      rcases List.mem_cons.mp hv with h | h
      · rw [h, hdis]
        show w <<< s % W + c < W
        rw [Nat.shiftLeft_eq]
        have h3 : w * 2 ^ s % 2 ^ 64 = w % 2 ^ (64 - s) * 2 ^ s :=
          mul_pow_mod_pow w (by omega)
        have h4 : w % 2 ^ (64 - s) ≤ 2 ^ (64 - s) - 1 := by
          have := Nat.mod_lt w (y := 2 ^ (64 - s)) (Nat.two_pow_pos _)
          omega
        have h5 : w % 2 ^ (64 - s) * 2 ^ s ≤ (2 ^ (64 - s) - 1) * 2 ^ s :=
          Nat.mul_le_mul_right _ h4
        have h6 : ((2:Nat) ^ (64 - s) - 1) * 2 ^ s = 2 ^ 64 - 2 ^ s := by
          rw [Nat.sub_mul, one_mul, ← pow_add,
            show 64 - s + s = 64 by omega]
        have h7 : (2:Nat) ^ s ≤ 2 ^ 64 := Nat.pow_le_pow_right (by omega) (by omega)
        show w * 2 ^ s % 2 ^ 64 + c < 2 ^ 64
        omega
      · exact hwf2 v h

theorem shlLoop_spec (x : List Nat) (shift : Nat) (hwf : wf x)
    (hs : shift < 64 * x.length) :
    toNat (shlLoop x shift) = toNat x * 2 ^ shift % W ^ x.length
    ∧ wf (shlLoop x shift) ∧ (shlLoop x shift).length = x.length := by
  set skip := shift / 64 with hskipdef
  set s := shift % 64 with hsdef
  have hs64 : s < 64 := Nat.mod_lt _ (by omega)
  have hskip : skip < x.length := by
    rw [hskipdef]
    rw [Nat.div_lt_iff_lt_mul (by omega)]
    omega
  have hshift : shift = 64 * skip + s := by
    rw [hskipdef, hsdef]
    omega
  have htlen : (x.take (x.length - skip)).length = x.length - skip := by
    rw [List.length_take]
    omega
  obtain ⟨hval, hwf2, hl2⟩ := shlLoopGo_spec s hs64 (x.take (x.length - skip)) 0
    (wf_take _ _ hwf) (Nat.two_pow_pos s)
  refine ⟨?_, wf_append _ _ (wf_zeros skip) hwf2, ?_⟩
  · rw [shlLoop, ← hskipdef, ← hsdef, toNat_append, toNat_zeros, length_zeros,
      hval, htlen, Nat.zero_add, Nat.zero_add]
    have hsplit := toNat_take_drop x (x.length - skip)
    rw [htlen] at hsplit
    have hWsplit : W ^ x.length = W ^ skip * W ^ (x.length - skip) := by
      rw [← pow_add]
      congr 1
      omega
    have h2 : toNat x * 2 ^ shift % W ^ x.length
        = W ^ skip * (toNat x * 2 ^ s % W ^ (x.length - skip)) := by
      have hpow : (2:Nat) ^ shift = 2 ^ s * W ^ skip := by
        rw [W_pow, ← pow_add, hshift]
        congr 1
        omega
      rw [hpow, hWsplit, ← mul_assoc, mul_comm (W ^ skip) (W ^ (x.length - skip)),
        Nat.mul_mod_mul_right]
      ring_nf
    rw [h2]
    congr 1
    rw [hsplit, Nat.add_mul, mul_assoc, Nat.add_mul_mod_self_left]
  · rw [shlLoop, ← hskipdef, ← hsdef]
    simp only [List.length_append, length_zeros, hl2, htlen]
    omega

theorem toNat_take_eq_mod (xs : List Nat) (k : Nat) (hw : wf xs)
    (hk : k ≤ xs.length) : toNat (xs.take k) = toNat xs % W ^ k := by
  have hsplit := toNat_take_drop xs k
  have hklen : (xs.take k).length = k := by
    rw [List.length_take]
    omega
  rw [hklen] at hsplit
  have hlt : toNat (xs.take k) < W ^ k := by
    have := toNat_lt _ (wf_take xs k hw)
    rwa [hklen] at this
  rw [hsplit, Nat.add_mul_mod_self_left, Nat.mod_eq_of_lt hlt]

theorem toNat_drop_eq_div (xs : List Nat) (k : Nat) (hw : wf xs)
    (hk : k ≤ xs.length) : toNat (xs.drop k) = toNat xs / W ^ k := by
  have hsplit := toNat_take_drop xs k
  have hklen : (xs.take k).length = k := by
    rw [List.length_take]
    omega
  rw [hklen] at hsplit
  have hlt : toNat (xs.take k) < W ^ k := by
    have := toNat_lt _ (wf_take xs k hw)
    rwa [hklen] at this
  rw [hsplit, Nat.add_mul_div_left _ _ (pow_pos W_pos k), Nat.div_eq_of_lt hlt,
    Nat.zero_add]

/-- Zero-extension: the implicit converting constructor
`uint<N>(x : uint<N/2>)` viewed on words. -/
def zext (x : List Nat) (n : Nat) : List Nat := x ++ zeros (n - x.length)

theorem zext_spec (x : List Nat) (n : Nat) (hw : wf x) (hn : x.length ≤ n) :
    toNat (zext x n) = toNat x ∧ wf (zext x n) ∧ (zext x n).length = n := by
  refine ⟨?_, wf_append _ _ hw (wf_zeros _), ?_⟩
  · rw [zext, toNat_append, toNat_zeros, Nat.mul_zero, Nat.add_zero]
  · rw [zext]
    simp only [List.length_append, length_zeros]
    omega

/-! ### Multiplication

`umul` (recursive half-decomposition), `umul_loop` (schoolbook), the
truncated `operator*` (schoolbook with folded boundary column), and `sqr`. -/

/-- The body of `umul` (`intx.hpp` lines 474–485) on the four half-width
sub-products `t0 = umul(lo x, lo y)`, `t1 = umul(hi x, lo y)`,
`t2 = umul(lo x, hi y)`, `t3 = umul(hi x, hi y)`:
`u1 = t1 + hi(t0)`, `u2 = t2 + lo(u1)`, low = `(u2 << H) | lo(t0)`,
high = `t3 + hi(u2) + hi(u1)`. -/
def umulCombine (k : Nat) (t0 t1 t2 t3 : List Nat) : List Nat :=
  let u1 := addT t1 (zext (t0.drop k) (2 * k))
  let u2 := addT t2 (zext (u1.take k) (2 * k))
  let l := orT (shlT u2 (64 * k)) (zext (t0.take k) (2 * k))
  let h := addT (addT t3 (zext (u2.drop k) (2 * k))) (zext (u1.drop k) (2 * k))
  l ++ h

/-- `umul` (`intx.hpp` lines 471–486): recursive full multiplication via
half decomposition, `fuel` bounding recursion depth.  The base case —
`umul` on `uint128` halves, from `int128.hpp` — is modelled from the spec
(§6 `mul_wide` lifted: the exact double-width product). -/
def umulAux : Nat → List Nat → List Nat → List Nat
  | 0, x, y => fromNat (x.length + y.length) (toNat x * toNat y)
  | fuel + 1, x, y =>
    if x.length ≤ 2 then fromNat (x.length + y.length) (toNat x * toNat y)
    else
      umulCombine (x.length / 2)
        (umulAux fuel (x.take (x.length / 2)) (y.take (x.length / 2)))
        (umulAux fuel (x.drop (x.length / 2)) (y.take (x.length / 2)))
        (umulAux fuel (x.take (x.length / 2)) (y.drop (x.length / 2)))
        (umulAux fuel (x.drop (x.length / 2)) (y.drop (x.length / 2)))

/-- `umul(x, y)` with the source's recursion structure. -/
def umulT (x y : List Nat) : List Nat := umulAux x.length x y

theorem umulCombine_spec (k : Nat) (t0 t1 t2 t3 : List Nat) (hk2 : 2 ≤ k)
    (hp2 : pow2 k)
    (hw0 : wf t0) (hw1 : wf t1) (hw2 : wf t2) (hw3 : wf t3)
    (hl0 : t0.length = 2 * k) (hl1 : t1.length = 2 * k)
    (hl2 : t2.length = 2 * k) (hl3 : t3.length = 2 * k)
    (hb0 : toNat t0 ≤ (W ^ k - 1) * (W ^ k - 1))
    (hb1 : toNat t1 ≤ (W ^ k - 1) * (W ^ k - 1))
    (hb2 : toNat t2 ≤ (W ^ k - 1) * (W ^ k - 1))
    (hb3 : toNat t3 ≤ (W ^ k - 1) * (W ^ k - 1)) :
    toNat (umulCombine k t0 t1 t2 t3)
      = toNat t0 + W ^ k * (toNat t1 + toNat t2) + W ^ k * W ^ k * toNat t3
    ∧ wf (umulCombine k t0 t1 t2 t3) ∧ (umulCombine k t0 t1 t2 t3).length = 4 * k := by
  set M := W ^ k with hM
  have hMpos : 0 < M := pow_pos W_pos k
  have hM2 : W ^ (2 * k) = M * M := by
    rw [hM, ← pow_add]
    congr 1
    omega
  have hMW : (2:Nat) ^ (64 * k) = M := by rw [hM, W_pow]
  have hMM : (M - 1) * (M - 1) + 2 * (M - 1) < M * M := by
    have h1 : ((M - 1) + 1) * ((M - 1) + 1) = (M - 1) * (M - 1) + 2 * (M - 1) + 1 := by
      ring
    have h2 : (M - 1) + 1 = M := by omega
    rw [h2] at h1
    omega
  -- hi(t0), zero-extended
  obtain ⟨hvz0, hwz0, hlz0⟩ := zext_spec (t0.drop k) (2 * k) (wf_drop _ _ hw0)
    (by rw [List.length_drop, hl0]; omega)
  have hdt0 : toNat (t0.drop k) = toNat t0 / M := by
    rw [toNat_drop_eq_div _ _ hw0 (by omega), hM]
  have ht0M : toNat t0 / M ≤ M - 1 := by
    have h2 : toNat t0 / M < M := by
      rw [Nat.div_lt_iff_lt_mul hMpos]
      omega
    omega
  -- u1 = t1 + hi(t0)
  set u1 := addT t1 (zext (t0.drop k) (2 * k)) with hu1def
  have hwu1 : wf u1 := wf_addT _ _ hw1 hwz0 (by rw [hl1, hlz0])
  have hlu1 : u1.length = 2 * k := by
    rw [hu1def, length_addT _ _ hw1 hwz0 (by rw [hl1, hlz0]), hl1]
  have hvu1 : toNat u1 = toNat t1 + toNat t0 / M := by
    rw [hu1def, addT_value _ _ hw1 hwz0 (by rw [hl1, hlz0]), hvz0, hdt0, hl1, hM2]
    apply Nat.mod_eq_of_lt
    omega
  have hu1lt : toNat u1 < M * M := by
    rw [hvu1]
    omega
  have hq1 : toNat u1 / M ≤ M - 1 := by
    have h2 : toNat u1 / M < M := by
      rw [Nat.div_lt_iff_lt_mul hMpos]
      omega
    omega
  -- u2 = t2 + lo(u1)
  obtain ⟨hvzu1, hwzu1, hlzu1⟩ := zext_spec (u1.take k) (2 * k)
    (wf_take _ _ hwu1) (by rw [List.length_take]; omega)
  have hvu1take : toNat (u1.take k) = toNat u1 % M := by
    rw [toNat_take_eq_mod _ _ hwu1 (by omega), hM]
  set u2 := addT t2 (zext (u1.take k) (2 * k)) with hu2def
  have hwu2 : wf u2 := wf_addT _ _ hw2 hwzu1 (by rw [hl2, hlzu1])
  have hlu2 : u2.length = 2 * k := by
    rw [hu2def, length_addT _ _ hw2 hwzu1 (by rw [hl2, hlzu1]), hl2]
  have hr1M : toNat u1 % M < M := Nat.mod_lt _ hMpos
  have hvu2 : toNat u2 = toNat t2 + toNat u1 % M := by
    rw [hu2def, addT_value _ _ hw2 hwzu1 (by rw [hl2, hlzu1]), hvzu1, hvu1take,
      hl2, hM2]
    apply Nat.mod_eq_of_lt
    omega
  have hu2lt : toNat u2 < M * M := by
    rw [hvu2]
    omega
  have hq2 : toNat u2 / M ≤ M - 1 := by
    have h2 : toNat u2 / M < M := by
      rw [Nat.div_lt_iff_lt_mul hMpos]
      omega
    omega
  -- l = (u2 << H) | lo(t0)
  have hp2two : pow2 (2 * k) := by
    obtain ⟨j, hj⟩ := hp2
    exact ⟨j + 1, by rw [hj]; ring⟩
  obtain ⟨hvsh, hwsh, hlsh⟩ := shlT_spec u2 (64 * k) hwu2 (by rwa [hlu2])
    (by omega)
  rw [hlu2] at hlsh
  have hvsh' : toNat (shlT u2 (64 * k)) = toNat u2 % M * M := by
    rw [hvsh, hlu2, hMW, hM2, Nat.mul_mod_mul_right]
  obtain ⟨hvzt0, hwzt0, hlzt0⟩ := zext_spec (t0.take k) (2 * k)
    (wf_take _ _ hw0) (by rw [List.length_take]; omega)
  have hvt0take : toNat (t0.take k) = toNat t0 % M := by
    rw [toNat_take_eq_mod _ _ hw0 (by omega), hM]
  set l := orT (shlT u2 (64 * k)) (zext (t0.take k) (2 * k)) with hldef
  obtain ⟨hvor, hwor, hlor⟩ := orT_spec _ _ hwsh hwzt0 (by rw [hlsh, hlzt0])
  have hvl : toNat l = toNat u2 % M * M + toNat t0 % M := by
    rw [hldef, hvor, hvsh', hvzt0, hvt0take]
    apply lor_disjoint_add (s := 64 * k)
    · rw [hMW, Nat.mul_mod_left]
    · rw [hMW]
      exact Nat.mod_lt _ hMpos
  have hll : l.length = 2 * k := by rw [hldef, hlor, hlsh]
  -- h = (t3 + hi(u2)) + hi(u1)
  obtain ⟨hvzu2, hwzu2, hlzu2⟩ := zext_spec (u2.drop k) (2 * k)
    (wf_drop _ _ hwu2) (by rw [List.length_drop]; omega)
  have hvu2drop : toNat (u2.drop k) = toNat u2 / M := by
    rw [toNat_drop_eq_div _ _ hwu2 (by omega), hM]
  obtain ⟨hvzu1d, hwzu1d, hlzu1d⟩ := zext_spec (u1.drop k) (2 * k)
    (wf_drop _ _ hwu1) (by rw [List.length_drop]; omega)
  have hvu1drop : toNat (u1.drop k) = toNat u1 / M := by
    rw [toNat_drop_eq_div _ _ hwu1 (by omega), hM]
  set h1 := addT t3 (zext (u2.drop k) (2 * k)) with hh1def
  have hwh1 : wf h1 := wf_addT _ _ hw3 hwzu2 (by rw [hl3, hlzu2])
  have hlh1 : h1.length = 2 * k := by
    rw [hh1def, length_addT _ _ hw3 hwzu2 (by rw [hl3, hlzu2]), hl3]
  have hvh1 : toNat h1 = toNat t3 + toNat u2 / M := by
    rw [hh1def, addT_value _ _ hw3 hwzu2 (by rw [hl3, hlzu2]), hvzu2, hvu2drop,
      hl3, hM2]
    apply Nat.mod_eq_of_lt
    omega
  set h := addT h1 (zext (u1.drop k) (2 * k)) with hhdef
  have hwh : wf h := wf_addT _ _ hwh1 hwzu1d (by rw [hlh1, hlzu1d])
  have hlh : h.length = 2 * k := by
    rw [hhdef, length_addT _ _ hwh1 hwzu1d (by rw [hlh1, hlzu1d]), hlh1]
  have hvh : toNat h = toNat t3 + toNat u2 / M + toNat u1 / M := by
    rw [hhdef, addT_value _ _ hwh1 hwzu1d (by rw [hlh1, hlzu1d]), hvzu1d,
      hvu1drop, hvh1, hlh1, hM2]
    apply Nat.mod_eq_of_lt
    omega
  have hse : umulCombine k t0 t1 t2 t3 = l ++ h := rfl
  refine ⟨?_, by rw [hse]; exact wf_append _ _ hwor hwh, ?_⟩
  · rw [hse, toNat_append, hll, hvl, hvh, hM2]
    -- the div/mod bookkeeping
    have hd0 := Nat.div_add_mod (toNat t0) M
    have hd1 := Nat.div_add_mod (toNat u1) M
    have hd2 := Nat.div_add_mod (toNat u2) M
    have key : ∀ (T0 T1 T2 T3 U1 U2 q0 r0 q1 r1 q2 r2 : ℕ),
        M * q0 + r0 = T0 → M * q1 + r1 = U1 → M * q2 + r2 = U2 →
        U1 = T1 + q0 → U2 = T2 + r1 →
        r2 * M + r0 + M * M * (T3 + q2 + q1) = T0 + M * (T1 + T2) + M * M * T3 := by
      intro T0 T1 T2 T3 U1 U2 q0 r0 q1 r1 q2 r2 h1 h2 h3 h4 h5
      zify at h1 h2 h3 h4 h5 ⊢
      linear_combination h1 + (M:ℤ) * h2 + (M:ℤ) * h4 + (M:ℤ) * h3 + (M:ℤ) * h5
    exact key _ _ _ _ _ _ _ _ _ _ _ _ hd0 hd1 hd2 hvu1 hvu2
  · rw [hse]
    simp only [List.length_append, hll, hlh]
    omega

theorem umulAux_spec (fuel : Nat) : ∀ (x y : List Nat),
    wf x → wf y → pow2 x.length → x.length = y.length → x.length ≤ fuel + 2 →
    toNat (umulAux fuel x y) = toNat x * toNat y
    ∧ wf (umulAux fuel x y) ∧ (umulAux fuel x y).length = 2 * x.length := by
  induction fuel with
  | zero =>
    intro x y hwx hwy hp2 hlen hfuel
    have hlt : toNat x * toNat y < W ^ (x.length + y.length) := by
      have h1 := toNat_lt x hwx
      have h2 := toNat_lt y hwy
      calc toNat x * toNat y < W ^ x.length * W ^ y.length :=
        mul_lt_mul'' h1 h2 (Nat.zero_le _) (Nat.zero_le _)
      _ = W ^ (x.length + y.length) := (pow_add W _ _).symm
    refine ⟨toNat_fromNat _ _ hlt, wf_fromNat _ _, ?_⟩
    show (fromNat (x.length + y.length) (toNat x * toNat y)).length = _
    rw [length_fromNat]
    omega
  | succ fuel ih =>
    intro x y hwx hwy hp2 hlen hfuel
    by_cases hsm : x.length ≤ 2
    · have hlt : toNat x * toNat y < W ^ (x.length + y.length) := by
        have h1 := toNat_lt x hwx
        have h2 := toNat_lt y hwy
        calc toNat x * toNat y < W ^ x.length * W ^ y.length :=
          mul_lt_mul'' h1 h2 (Nat.zero_le _) (Nat.zero_le _)
        _ = W ^ (x.length + y.length) := (pow_add W _ _).symm
      have hse : umulAux (fuel + 1) x y
          = fromNat (x.length + y.length) (toNat x * toNat y) := by
        simp only [umulAux]
        rw [if_pos hsm]
      refine ⟨by rw [hse]; exact toNat_fromNat _ _ hlt,
        by rw [hse]; exact wf_fromNat _ _, ?_⟩
      rw [hse, length_fromNat]
      omega
    · push_neg at hsm
      obtain ⟨hp2half, hkk, hk2⟩ := pow2_half hp2 hsm
      set n := x.length with hn
      set k := n / 2 with hk
      set M := W ^ k with hM
      have hMpos : 0 < M := pow_pos W_pos k
      have hxt : (x.take k).length = k := by rw [List.length_take]; omega
      have hxd : (x.drop k).length = k := by rw [List.length_drop]; omega
      have hyt : (y.take k).length = k := by rw [List.length_take]; omega
      have hyd : (y.drop k).length = k := by rw [List.length_drop]; omega
      have hwxt : wf (x.take k) := wf_take _ _ hwx
      have hwxd : wf (x.drop k) := wf_drop _ _ hwx
      have hwyt : wf (y.take k) := wf_take _ _ hwy
      have hwyd : wf (y.drop k) := wf_drop _ _ hwy
      have hX0 : toNat (x.take k) < M := by
        have := toNat_lt _ hwxt; rwa [hxt] at this
      have hX1 : toNat (x.drop k) < M := by
        have := toNat_lt _ hwxd; rwa [hxd] at this
      have hY0 : toNat (y.take k) < M := by
        have := toNat_lt _ hwyt; rwa [hyt] at this
      have hY1 : toNat (y.drop k) < M := by
        have := toNat_lt _ hwyd; rwa [hyd] at this
      obtain ⟨hv0, hw0, hl0⟩ := ih (x.take k) (y.take k) hwxt hwyt
        (by rwa [hxt]) (by rw [hxt, hyt]) (by omega)
      obtain ⟨hv1, hw1, hl1⟩ := ih (x.drop k) (y.take k) hwxd hwyt
        (by rwa [hxd]) (by rw [hxd, hyt]) (by omega)
      obtain ⟨hv2, hw2, hl2⟩ := ih (x.take k) (y.drop k) hwxt hwyd
        (by rwa [hxt]) (by rw [hxt, hyd]) (by omega)
      obtain ⟨hv3, hw3, hl3⟩ := ih (x.drop k) (y.drop k) hwxd hwyd
        (by rwa [hxd]) (by rw [hxd, hyd]) (by omega)
      rw [hxt] at hl0 hl2
      rw [hxd] at hl1 hl3
      have hprodb : ∀ a b : Nat, a < M → b < M → a * b ≤ (M - 1) * (M - 1) :=
        fun a b ha hb => Nat.mul_le_mul (by omega) (by omega)
      obtain ⟨hcv, hcw, hcl⟩ := umulCombine_spec k _ _ _ _ hk2 hp2half
        hw0 hw1 hw2 hw3 hl0 hl1 hl2 hl3
        (by rw [hv0, ← hM]; exact hprodb _ _ hX0 hY0)
        (by rw [hv1, ← hM]; exact hprodb _ _ hX1 hY0)
        (by rw [hv2, ← hM]; exact hprodb _ _ hX0 hY1)
        (by rw [hv3, ← hM]; exact hprodb _ _ hX1 hY1)
      have hse : umulAux (fuel + 1) x y
          = umulCombine k (umulAux fuel (x.take k) (y.take k))
              (umulAux fuel (x.drop k) (y.take k))
              (umulAux fuel (x.take k) (y.drop k))
              (umulAux fuel (x.drop k) (y.drop k)) := by
        simp only [umulAux, ← hn, ← hk]
        rw [if_neg (show ¬n ≤ 2 by omega)]
      have hsplitx : toNat x = toNat (x.take k) + M * toNat (x.drop k) := by
        have h3 := toNat_take_drop x k
        rwa [hxt, ← hM] at h3
      have hsplity : toNat y = toNat (y.take k) + M * toNat (y.drop k) := by
        have h3 := toNat_take_drop y k
        rwa [hyt, ← hM] at h3
      refine ⟨?_, by rw [hse]; exact hcw, ?_⟩
      · rw [hse, hcv, hv0, hv1, hv2, hv3, hsplitx, hsplity, ← hM]
        ring
      · rw [hse, hcl]
        omega

theorem umulT_spec (x y : List Nat) (hwx : wf x) (hwy : wf y)
    (hp2 : pow2 x.length) (hlen : x.length = y.length) :
    toNat (umulT x y) = toNat x * toNat y
    ∧ wf (umulT x y) ∧ (umulT x y).length = 2 * x.length := by
  exact umulAux_spec x.length x y hwx hwy hp2 hlen (by omega)

theorem toNat_headD_tail (l : List Nat) (h : 0 < l.length) :
    l.headD 0 + W * toNat l.tail = toNat l := by
  cases l with
  | nil => simp at h
  | cons w ws => rfl

theorem getD_drop_zero (l : List Nat) : ∀ (n : Nat), (l.drop n).getD 0 0 = l.getD n 0 := by
  induction l with
  | nil => intro n; simp [List.getD]
  | cons w ws ih =>
    intro n
    cases n with
    | zero => rfl
    | succ m =>
      rw [List.drop_succ_cons, List.getD_cons_succ]
      exact ih m

/-- One row of the `umul_loop` schoolbook (`intx.hpp` lines 510–519):
`t = umul(x[i], y[j]) + p[i + j] + k`, write the low word, carry the high
word; after the inner loop, store the final carry in the next word.
The 64×64→128 `umul` word product is modelled from the spec (§6
`mul_wide`). -/
def addMulRow (y : Nat) : Nat → List Nat → List Nat → List Nat
  | k, x :: xs, pw :: p =>
    ((x * y + pw + k) % W) :: addMulRow y ((x * y + pw + k) / W) xs p
  | k, [], _ :: p => k :: p
  | _, _, [] => []

/-- `umul_loop` (`intx.hpp` lines 500–522): the outer loop over the words of
`y`; each row is written at an offset one higher than the previous, here
realized by peeling the finished low word. -/
def umulLoopGo (xs : List Nat) : List Nat → List Nat → List Nat
  | y :: ys, p =>
    (addMulRow y 0 xs p).headD 0 :: umulLoopGo xs ys (addMulRow y 0 xs p).tail
  | [], p => p

def umulLoop (x y : List Nat) : List Nat := umulLoopGo x y (zeros (x.length + y.length))

theorem addMulRow_spec (y : Nat) (hy : y < W) : ∀ (xs p : List Nat) (k : Nat),
    wf xs → wf p → k < W → xs.length < p.length → p.getD xs.length 0 = 0 →
    toNat (addMulRow y k xs p) = toNat p + y * toNat xs + k
    ∧ wf (addMulRow y k xs p) ∧ (addMulRow y k xs p).length = p.length
    ∧ (addMulRow y k xs p).drop (xs.length + 1) = p.drop (xs.length + 1) := by
  intro xs
  induction xs with
  | nil =>
    intro p k hwx hwp hk hlen hz
    cases p with
    | nil => simp at hlen
    | cons pw p' =>
      have hpw : pw = 0 := by simpa [List.getD] using hz
      refine ⟨?_, ?_, rfl, by simp [addMulRow]⟩
      · show toNat (k :: p') = toNat (pw :: p') + y * toNat [] + k
        rw [toNat_cons, toNat_cons, hpw, toNat_nil]
        ring
      · show wf (k :: p')
        intro w hw
        rcases List.mem_cons.mp hw with h | h
        · rw [h]; exact hk
        · exact (wf_cons_tail hwp) w h
  | cons x xs ih =>
    intro p k hwx hwp hk hlen hz
    cases p with
    | nil => simp at hlen
    | cons pw p' =>
      have hxW : x < W := wf_cons_head hwx
      have hpwW : pw < W := wf_cons_head hwp
      set t := x * y + pw + k with htdef
      have htlt : t < W * W := by
        have h1 : x * y ≤ (W - 1) * (W - 1) := Nat.mul_le_mul (by omega) (by omega)
        have h2 : (W - 1) * (W - 1) + 2 * (W - 1) < W * W := by
          have h3 : ((W - 1) + 1) * ((W - 1) + 1)
              = (W - 1) * (W - 1) + 2 * (W - 1) + 1 := by ring
          have h4 : (W - 1) + 1 = W := by omega
          rw [h4] at h3
          omega
        omega
      have htc : t / W < W := by
        rw [Nat.div_lt_iff_lt_mul W_pos]
        omega
      have hz' : p'.getD xs.length 0 = 0 := by
        simp only [List.length_cons] at hz
        rwa [List.getD_cons_succ] at hz
      obtain ⟨hval, hwf2, hlen2, hdrop2⟩ := ih p' (t / W) (wf_cons_tail hwx)
        (wf_cons_tail hwp) htc (by simpa using hlen) hz'
      have hse : addMulRow y k (x :: xs) (pw :: p')
          = (t % W) :: addMulRow y (t / W) xs p' := rfl
      refine ⟨?_, ?_, by rw [hse]; simpa using hlen2, ?_⟩
      · rw [hse, toNat_cons, hval, toNat_cons, toNat_cons]
        have ht := Nat.div_add_mod t W
        zify at ht ⊢
        have htdef' : (t : ℤ) = x * y + pw + k := by exact_mod_cast htdef
        linear_combination ht + htdef'
      · rw [hse]
        intro w hw
        rcases List.mem_cons.mp hw with h | h
        · rw [h]; exact Nat.mod_lt _ W_pos
        · exact hwf2 w h
      · rw [hse]
        show ((t % W) :: addMulRow y (t / W) xs p').drop (xs.length + 2)
            = (pw :: p').drop (xs.length + 2)
        rw [List.drop_succ_cons, List.drop_succ_cons]
        exact hdrop2

theorem umulLoopGo_spec (xs : List Nat) (hwx : wf xs) : ∀ (ys p : List Nat),
    wf ys → wf p → p.length = xs.length + ys.length →
    p.drop xs.length = zeros ys.length →
    toNat (umulLoopGo xs ys p) = toNat p + toNat xs * toNat ys
    ∧ wf (umulLoopGo xs ys p) ∧ (umulLoopGo xs ys p).length = p.length := by
  intro ys
  induction ys with
  | nil =>
    intro p hwy hwp hlen hdz
    refine ⟨?_, hwp, rfl⟩
    show toNat p = toNat p + toNat xs * toNat []
    rw [toNat_nil, Nat.mul_zero, Nat.add_zero]
  | cons y ys ih =>
    intro p hwy hwp hlen hdz
    have hyW : y < W := wf_cons_head hwy
    have hz : p.getD xs.length 0 = 0 := by
      rw [← getD_drop_zero p xs.length, hdz, List.length_cons, zeros_succ]
      rfl
    obtain ⟨hval, hwf2, hlen2, hdrop2⟩ := addMulRow_spec y hyW xs p 0 hwx hwp
      W_pos (by rw [hlen, List.length_cons]; omega) hz
    simp only [Nat.add_zero] at hval
    set row := addMulRow y 0 xs p with hrowdef
    have hrowne : 0 < row.length := by
      rw [hlen2, hlen, List.length_cons]
      omega
    have htail_len : row.tail.length = xs.length + ys.length := by
      rw [List.length_tail, hlen2, hlen, List.length_cons]
      omega
    have htail_wf : wf row.tail := by
      intro w hw
      exact hwf2 w (List.mem_of_mem_tail hw)
    have htail_dz : row.tail.drop xs.length = zeros ys.length := by
      have h1 : row.tail.drop xs.length = row.drop (xs.length + 1) := by
        rw [← List.drop_one, List.drop_drop]
        congr 1
        omega
      rw [h1, hdrop2]
      have h2 : p.drop (xs.length + 1) = (p.drop xs.length).drop 1 := by
        rw [List.drop_drop]
      rw [h2, hdz, List.length_cons, zeros_succ, List.drop_one]
      rfl
    obtain ⟨hval3, hwf3, hlen3⟩ := ih row.tail (wf_cons_tail hwy) htail_wf
      htail_len htail_dz
    have hse : umulLoopGo xs (y :: ys) p = row.headD 0 :: umulLoopGo xs ys row.tail := rfl
    refine ⟨?_, ?_, ?_⟩
    · rw [hse, toNat_cons, hval3]
      have hht := toNat_headD_tail row hrowne
      calc row.headD 0 + W * (toNat row.tail + toNat xs * toNat ys)
          = (row.headD 0 + W * toNat row.tail) + W * (toNat xs * toNat ys) := by
            ring
        _ = toNat row + W * (toNat xs * toNat ys) := by rw [hht]
        _ = toNat p + y * toNat xs + W * (toNat xs * toNat ys) := by rw [hval]
        _ = toNat p + toNat xs * toNat (y :: ys) := by
            rw [toNat_cons]
            ring
    · rw [hse]
      intro w hw
      rcases List.mem_cons.mp hw with h | h
      · rw [h]
        cases hrow : row with
        | nil => rw [hrow] at hrowne; simp at hrowne
        | cons r rs =>
          have := hwf2 r (by rw [hrow]; simp)
          simpa [hrow] using this
      · exact hwf3 w h
    · rw [hse]
      simp only [List.length_cons, hlen3, htail_len, hlen]
      omega

theorem umulLoop_spec (x y : List Nat) (hwx : wf x) (hwy : wf y) :
    toNat (umulLoop x y) = toNat x * toNat y
    ∧ wf (umulLoop x y) ∧ (umulLoop x y).length = x.length + y.length := by
  have hdz : (zeros (x.length + y.length)).drop x.length = zeros y.length := by
    rw [zeros, zeros, List.drop_replicate]
    congr 1
    omega
  obtain ⟨hval, hwf2, hlen2⟩ := umulLoopGo_spec x hwx y (zeros (x.length + y.length))
    hwy (wf_zeros _) (by rw [length_zeros]) hdz
  refine ⟨?_, hwf2, by rw [umulLoop, hlen2, length_zeros]⟩
  rw [umulLoop, hval, toNat_zeros, Nat.zero_add]

/-- One row of the truncated `operator*` (`intx.hpp` lines 526–544): full
column steps while more than one result word remains, then the folded
boundary column `p[num_words-1] += x[num_words-j-1] * y[j] + k` in
wrapping 64-bit arithmetic. -/
def mulRow (y : Nat) : Nat → List Nat → List Nat → List Nat
  | k, xs, [plast] => [(plast + (xs.headD 0 * y % W + k) % W) % W]
  | k, x :: xs, pw :: pw2 :: p =>
    ((x * y + pw + k) % W) :: mulRow y ((x * y + pw + k) / W) xs (pw2 :: p)
  | _, _, _ => []

/-- `operator*` (`intx.hpp` lines 526–544): truncated schoolbook
multiplication, one row per word of `y`, peeling the finished low word. -/
def mulTGo (xs : List Nat) : List Nat → List Nat → List Nat
  | y :: ys, p => (mulRow y 0 xs p).headD 0 :: mulTGo xs ys (mulRow y 0 xs p).tail
  | [], p => p

def mulT (x y : List Nat) : List Nat := mulTGo x y (zeros y.length)

theorem mulRow_spec (y : Nat) (hy : y < W) : ∀ (p xs : List Nat) (k : Nat),
    wf xs → wf p → k < W → 1 ≤ p.length → p.length ≤ xs.length →
    Nat.ModEq (W ^ p.length) (toNat (mulRow y k xs p)) (toNat p + y * toNat xs + k)
    ∧ wf (mulRow y k xs p) ∧ (mulRow y k xs p).length = p.length := by
  intro p
  induction p with
  | nil =>
    intro xs k hwx hwp hk h1 h2
    simp at h1
  | cons ph pt ih =>
    intro xs k hwx hwp hk h1 h2
    cases pt with
    | nil =>
      -- the folded boundary column
      obtain ⟨x0, rest, rfl⟩ : ∃ x0 rest, xs = x0 :: rest := by
        cases xs with
        | nil => simp at h2
        | cons a l => exact ⟨a, l, rfl⟩
      have hse : mulRow y k (x0 :: rest) [ph]
          = [(ph + (x0 * y % W + k) % W) % W] := rfl
      have hx0 : x0 < W := wf_cons_head hwx
      have hph : ph < W := wf_cons_head hwp
      refine ⟨?_, ?_, by rw [hse]; rfl⟩
      · rw [hse]
        show Nat.ModEq (W ^ 1) (toNat [(ph + (x0 * y % W + k) % W) % W])
          (toNat [ph] + y * toNat (x0 :: rest) + k)
        have hv1 : toNat [(ph + (x0 * y % W + k) % W) % W]
            = (ph + (x0 * y % W + k) % W) % W := by
          simp [toNat]
        have hv2 : toNat [ph] = ph := by simp [toNat]
        rw [hv1, hv2, pow_one]
        show (ph + (x0 * y % W + k) % W) % W % W
          = (ph + y * (x0 + W * toNat rest) + k) % W
        have hstep1 : (ph + (x0 * y % W + k) % W) % W % W
            = (ph + (x0 * y + k)) % W := by
          rw [Nat.mod_mod_of_dvd _ dvd_rfl]
          conv_lhs => rw [Nat.add_mod ph ((x0 * y % W + k) % W), Nat.mod_mod_of_dvd _ dvd_rfl]
          conv_rhs => rw [Nat.add_mod ph (x0 * y + k)]
          congr 1
          congr 1
          rw [Nat.add_mod (x0 * y % W) k, Nat.mod_mod_of_dvd _ dvd_rfl,
            ← Nat.add_mod]
        rw [hstep1]
        have hstep2 : ph + y * (x0 + W * toNat rest) + k
            = (ph + (x0 * y + k)) + W * (y * toNat rest) := by ring
        rw [hstep2, Nat.add_mul_mod_self_left]
      · rw [hse]
        intro w hw
        simp at hw
        rw [hw]
        exact Nat.mod_lt _ W_pos
    | cons pw2 p' =>
      obtain ⟨x0, rest, rfl⟩ : ∃ x0 rest, xs = x0 :: rest := by
        cases xs with
        | nil => simp at h2
        | cons a l => exact ⟨a, l, rfl⟩
      have hx0 : x0 < W := wf_cons_head hwx
      have hph : ph < W := wf_cons_head hwp
      set t := x0 * y + ph + k with htdef
      have htlt : t < W * W := by
        have ha : x0 * y ≤ (W - 1) * (W - 1) := Nat.mul_le_mul (by omega) (by omega)
        have hb : ((W - 1) + 1) * ((W - 1) + 1)
            = (W - 1) * (W - 1) + 2 * (W - 1) + 1 := by ring
        have hc : (W - 1) + 1 = W := by omega
        rw [hc] at hb
        omega
      have htc : t / W < W := by
        rw [Nat.div_lt_iff_lt_mul W_pos]
        omega
      obtain ⟨hval, hwf2, hlen2⟩ := ih rest (t / W) (wf_cons_tail hwx)
        (wf_cons_tail hwp) htc (by simp) (by simpa using h2)
      have hse : mulRow y k (x0 :: rest) (ph :: pw2 :: p')
          = (t % W) :: mulRow y (t / W) rest (pw2 :: p') := rfl
      refine ⟨?_, ?_, by rw [hse]; simpa using hlen2⟩
      · rw [hse, toNat_cons]
        have hmul := Nat.ModEq.mul_left' (c := W) hval
        have hstep : Nat.ModEq (W * W ^ (pw2 :: p').length)
            (t % W + W * toNat (mulRow y (t / W) rest (pw2 :: p')))
            (t % W + W * (toNat (pw2 :: p') + y * toNat rest + t / W)) :=
          Nat.ModEq.add_left _ hmul
        have hWW : W * W ^ (pw2 :: p').length = W ^ (ph :: pw2 :: p').length := by
          simp only [List.length_cons]
          ring
        rw [hWW] at hstep
        refine hstep.trans ?_
        have hfinal : t % W + W * (toNat (pw2 :: p') + y * toNat rest + t / W)
            = toNat (ph :: pw2 :: p') + y * toNat (x0 :: rest) + k := by
          have ht := Nat.div_add_mod t W
          simp only [toNat_cons]
          zify at ht ⊢
          have htdef' : (t : ℤ) = x0 * y + ph + k := by exact_mod_cast htdef
          linear_combination ht + htdef'
        rw [hfinal]
      · rw [hse]
        intro w hw
        rcases List.mem_cons.mp hw with h | h
        · rw [h]; exact Nat.mod_lt _ W_pos
        · exact hwf2 w h

theorem mulTGo_spec (xs : List Nat) (hwx : wf xs) : ∀ (ys p : List Nat),
    wf ys → wf p → p.length = ys.length → p.length ≤ xs.length →
    Nat.ModEq (W ^ p.length) (toNat (mulTGo xs ys p)) (toNat p + toNat xs * toNat ys)
    ∧ wf (mulTGo xs ys p) ∧ (mulTGo xs ys p).length = p.length := by
  intro ys
  induction ys with
  | nil =>
    intro p hwy hwp hlen hle
    refine ⟨?_, hwp, rfl⟩
    show Nat.ModEq _ (toNat p) (toNat p + toNat xs * toNat [])
    rw [toNat_nil, Nat.mul_zero, Nat.add_zero]
  | cons y ys ih =>
    intro p hwy hwp hlen hle
    have hyW : y < W := wf_cons_head hwy
    have hp1 : 1 ≤ p.length := by rw [hlen, List.length_cons]; omega
    obtain ⟨hrowEq, hroww, hrowl⟩ := mulRow_spec y hyW p xs 0 hwx hwp W_pos hp1 hle
    simp only [Nat.add_zero] at hrowEq
    set row := mulRow y 0 xs p with hrowdef
    have hrowne : 0 < row.length := by rw [hrowl]; omega
    have htail_len : row.tail.length = ys.length := by
      rw [List.length_tail, hrowl, hlen, List.length_cons]
      omega
    have htail_wf : wf row.tail := fun w hw => hroww w (List.mem_of_mem_tail hw)
    obtain ⟨hGoEq, hGow, hGol⟩ := ih row.tail (wf_cons_tail hwy) htail_wf
      (by rw [htail_len]) (by rw [htail_len]; rw [hlen, List.length_cons] at hle; omega)
    have hse : mulTGo xs (y :: ys) p = row.headD 0 :: mulTGo xs ys row.tail := rfl
    refine ⟨?_, ?_, ?_⟩
    · rw [hse, toNat_cons]
      rw [htail_len] at hGoEq
      have hmul := Nat.ModEq.mul_left' (c := W) hGoEq
      have hstep := Nat.ModEq.add_left (row.headD 0) hmul
      have hWW : W * W ^ ys.length = W ^ p.length := by
        rw [hlen, List.length_cons, pow_succ]
        ring
      rw [hWW] at hstep
      refine hstep.trans ?_
      have hht := toNat_headD_tail row hrowne
      have heq2 : row.headD 0 + W * (toNat row.tail + toNat xs * toNat ys)
          = toNat row + W * (toNat xs * toNat ys) := by
        rw [← hht]
        ring
      rw [heq2]
      refine (Nat.ModEq.add_right _ hrowEq).trans ?_
      rw [toNat_cons]
      have : toNat p + toNat xs * y + W * (toNat xs * toNat ys)
          = toNat p + toNat xs * (y + W * toNat ys) := by ring
      rw [mul_comm y (toNat xs), this]
    · rw [hse]
      intro w hw
      rcases List.mem_cons.mp hw with h | h
      · rw [h]
        cases hrow : row with
        | nil => rw [hrow] at hrowne; simp at hrowne
        | cons r rs =>
          have := hroww r (by rw [hrow]; simp)
          simpa [hrow] using this
      · exact hGow w h
    · rw [hse]
      simp only [List.length_cons, hGol, htail_len, hlen]

theorem mulT_spec (x y : List Nat) (hwx : wf x) (hwy : wf y)
    (hlen : x.length = y.length) :
    toNat (mulT x y) = toNat x * toNat y % W ^ x.length
    ∧ wf (mulT x y) ∧ (mulT x y).length = x.length := by
  obtain ⟨hEq, hw, hl⟩ := mulTGo_spec x hwx y (zeros y.length) hwy (wf_zeros _)
    (by rw [length_zeros]) (by rw [length_zeros, hlen])
  rw [length_zeros] at hl
  have hmt : mulT x y = mulTGo x y (zeros y.length) := rfl
  refine ⟨?_, by rw [hmt]; exact hw, by rw [hmt, hl, hlen]⟩
  have h2 : toNat (mulTGo x y (zeros y.length)) % W ^ y.length
      = (toNat x * toNat y) % W ^ y.length := by
    have h3 : toNat (mulTGo x y (zeros y.length)) % W ^ (zeros y.length).length
        = (toNat (zeros y.length) + toNat x * toNat y) % W ^ (zeros y.length).length :=
      hEq
    rwa [toNat_zeros, Nat.zero_add, length_zeros] at h3
  have hlt : toNat (mulTGo x y (zeros y.length)) < W ^ y.length := by
    have := toNat_lt _ hw
    rwa [hl] at this
  rw [hmt, hlen, ← h2, Nat.mod_eq_of_lt hlt]

/-- `sqr` (`intx.hpp` lines 489–497): squaring based on the recursive
multiplication — `t = umul(lo x, lo x)`, `h = ((lo(x) * hi(x)) << 1) + hi(t)`,
result `{h, lo(t)}`. -/
def sqrT (x : List Nat) : List Nat :=
  let k := x.length / 2
  let t := umulT (x.take k) (x.take k)
  let h := addT (shlT (mulT (x.take k) (x.drop k)) 1) (t.drop k)
  t.take k ++ h

theorem sqrT_spec (x : List Nat) (hwf : wf x) (hp2 : pow2 x.length)
    (h4 : 4 ≤ x.length) :
    toNat (sqrT x) = toNat x * toNat x % W ^ x.length
    ∧ wf (sqrT x) ∧ (sqrT x).length = x.length := by
  obtain ⟨hpk, hkk, hk2⟩ := pow2_half hp2 (by omega)
  set n := x.length with hn
  set k := n / 2 with hk
  have hkn : k ≤ n := by omega
  have hlk : (x.take k).length = k := by rw [List.length_take]; omega
  have hld : (x.drop k).length = k := by rw [List.length_drop]; omega
  have hwlo : wf (x.take k) := wf_take x k hwf
  have hwhi : wf (x.drop k) := wf_drop x k hwf
  set X0 := toNat (x.take k) with hX0
  set X1 := toNat (x.drop k) with hX1
  set M := W ^ k with hM
  have hX0M : X0 < M := by
    have := toNat_lt _ hwlo
    rwa [hlk] at this
  have hMpos : 0 < M := pow_pos W_pos k
  -- the full product of the low halves
  obtain ⟨htv, htw, htl⟩ := umulT_spec (x.take k) (x.take k) hwlo hwlo
    (by rw [hlk]; exact hpk) rfl
  rw [hlk] at htl
  set t := umulT (x.take k) (x.take k) with ht
  -- the truncated product of the halves
  obtain ⟨hpv, hpw, hpl⟩ := mulT_spec (x.take k) (x.drop k) hwlo hwhi
    (by rw [hlk, hld])
  rw [hlk] at hpl
  set p := mulT (x.take k) (x.drop k) with hp
  rw [hlk] at hpv
  -- the doubled cross product
  obtain ⟨hsv, hsw, hsl⟩ := shlT_spec p 1 hpw (by rw [hpl]; exact hpk)
    (by omega)
  rw [hpl] at hsl
  rw [hpl] at hsv
  set s := shlT p 1 with hs
  -- the high half of the result
  have hdl : (t.drop k).length = k := by rw [List.length_drop, htl]; omega
  have hdw : wf (t.drop k) := wf_drop t k htw
  have hdv : toNat (t.drop k) = X0 * X0 / M := by
    rw [toNat_drop_eq_div t k htw (by omega), htv]
  obtain hhv := addT_value s (t.drop k) hsw hdw (by rw [hsl, hdl])
  have hhw : wf (addT s (t.drop k)) := wf_addT s (t.drop k) hsw hdw (by rw [hsl, hdl])
  have hhl : (addT s (t.drop k)).length = k := by
    rw [length_addT s (t.drop k) hsw hdw (by rw [hsl, hdl]), hsl]
  rw [hsl] at hhv
  set h := addT s (t.drop k) with hh
  -- assemble
  have hse : sqrT x = t.take k ++ h := rfl
  have htkl : (t.take k).length = k := by rw [List.length_take, htl]; omega
  have htkv : toNat (t.take k) = X0 * X0 % M := by
    rw [toNat_take_eq_mod t k htw (by omega), htv]
  refine ⟨?_, ?_, ?_⟩
  · rw [hse, toNat_append, htkl, htkv]
    set Q := X0 * X0 / M with hQ
    set R := X0 * X0 % M with hR
    have hRM : R < M := Nat.mod_lt _ hMpos
    have hqr : X0 * X0 = M * Q + R := (Nat.div_add_mod _ _).symm
    -- the value of the doubled cross product
    have hSv : toNat s = X0 * X1 * 2 % M := by
      rw [hsv, hpv, pow_one, Nat.mod_mul_mod]
    -- the value of the high half
    have hHv : toNat h = (Q + 2 * (X0 * X1)) % M := by
      rw [hhv, hdv, hSv, ← hM, Nat.mod_add_mod]
      congr 1
      ring
    -- the value of the whole square
    have hxv : toNat x = X0 + M * X1 := by
      have := toNat_take_drop x k
      rwa [hlk, ← hX0, ← hX1, ← hM] at this
    have hWn : W ^ n = M ^ 2 := by
      rw [hM, ← pow_mul]
      congr 1
      omega
    rw [hxv, hWn]
    have hexp : (X0 + M * X1) * (X0 + M * X1)
        = R + M * (Q + 2 * (X0 * X1)) + M ^ 2 * (X1 * X1) := by
      have hring : (X0 + M * X1) * (X0 + M * X1)
          = X0 * X0 + M * (2 * (X0 * X1)) + M ^ 2 * (X1 * X1) := by ring
      rw [hring, hqr]
      ring
    rw [hexp, Nat.add_mul_mod_self_left, limb_mod M R _ hMpos hRM, hHv, ← hM]
  · rw [hse]
    exact wf_append _ _ (wf_take t k htw) hhw
  · rw [hse, List.length_append, htkl, hhl]
    omega

/-- The square-and-multiply loop of `exp` (`intx.hpp` lines 554–569):
`while (exponent != 0) { if ((exponent & 1) != 0) result *= base;
base = sqr(base); exponent >>= 1; }`.  The fuel bounds the number of
iterations; since each iteration halves the exponent, any fuel with
`toNat e < 2 ^ fuel` runs the loop to completion. -/
def expGo : Nat → List Nat → List Nat → List Nat → List Nat
  | 0, _, _, result => result
  | fuel + 1, base, exponent, result =>
    if toNat exponent = 0 then result
    else
      expGo fuel (sqrT base) (shrT exponent 1)
        (if exponent.getD 0 0 % 2 = 1 then mulT result base else result)

/-- `exp` (`intx.hpp` lines 554–569): the `base == 2` fast path returns
`result << exponent` (typed-distance shift), otherwise square-and-multiply. -/
def expT (b e : List Nat) : List Nat :=
  if toNat b = 2 then shlU (fromNat b.length 1) e
  else expGo (64 * e.length) b e (fromNat b.length 1)

theorem pow_sq_mod (B P m : Nat) : (B * B % P) ^ m % P = B ^ (2 * m) % P := by
  have h1 : (B * B) ^ m % P = (B * B % P) ^ m % P := Nat.pow_mod _ _ _
  rw [← h1, ← sq, ← pow_mul]

theorem expGo_spec (n : Nat) (hp2 : pow2 n) (h4 : 4 ≤ n) :
    ∀ (fuel : Nat) (b e r : List Nat), wf b → wf e → wf r →
    b.length = n → e.length = n → r.length = n → toNat e < 2 ^ fuel →
    toNat (expGo fuel b e r) = toNat r * toNat b ^ toNat e % W ^ n
    ∧ wf (expGo fuel b e r) ∧ (expGo fuel b e r).length = n := by
  intro fuel
  induction fuel with
  | zero =>
    intro b e r hwb hwe hwr hlb hle hlr hbound
    have h0 : toNat e = 0 := by simpa using hbound
    have hrlt : toNat r < W ^ n := by
      have := toNat_lt r hwr
      rwa [hlr] at this
    refine ⟨?_, hwr, hlr⟩
    show toNat r = toNat r * toNat b ^ toNat e % W ^ n
    rw [h0, pow_zero, Nat.mul_one, Nat.mod_eq_of_lt hrlt]
  | succ fuel ih =>
    intro b e r hwb hwe hwr hlb hle hlr hbound
    have hse : expGo (fuel + 1) b e r
        = if toNat e = 0 then r
          else expGo fuel (sqrT b) (shrT e 1)
            (if e.getD 0 0 % 2 = 1 then mulT r b else r) := rfl
    by_cases h0 : toNat e = 0
    · rw [hse, if_pos h0]
      have hrlt : toNat r < W ^ n := by
        have := toNat_lt r hwr
        rwa [hlr] at this
      exact ⟨by rw [h0, pow_zero, Nat.mul_one, Nat.mod_eq_of_lt hrlt], hwr, hlr⟩
    · rw [hse, if_neg h0]
      -- values of the loop-body updates
      obtain ⟨hsqv, hsqw, hsql⟩ := sqrT_spec b hwb (by rw [hlb]; exact hp2)
        (by omega)
      rw [hlb] at hsql hsqv
      obtain ⟨hshv, hshw, hshl⟩ := shrT_spec e 1 hwe (by rw [hle]; exact hp2)
        (by omega)
      rw [hle] at hshl
      have hpar : e.getD 0 0 % 2 = toNat e % 2 := by
        rw [getD_eq_value e hwe 0, pow_zero, Nat.div_one,
          Nat.mod_mod_of_dvd _ (by rw [W]; exact dvd_pow_self 2 (by omega))]
      have hbound2 : toNat (shrT e 1) < 2 ^ fuel := by
        rw [hshv, pow_one]
        omega
      set r2 := if e.getD 0 0 % 2 = 1 then mulT r b else r with hr2
      have hr2spec : toNat r2 = toNat r * toNat b ^ (toNat e % 2) % W ^ n
          ∧ wf r2 ∧ r2.length = n := by
        rw [hr2]
        by_cases hodd : e.getD 0 0 % 2 = 1
        · rw [if_pos hodd]
          obtain ⟨hmv, hmw, hml⟩ := mulT_spec r b hwr hwb (by rw [hlr, hlb])
          rw [hlr] at hml hmv
          refine ⟨?_, hmw, hml⟩
          rw [hmv, ← hpar, hodd, pow_one]
        · rw [if_neg hodd]
          have heven : toNat e % 2 = 0 := by
            rw [← hpar]
            omega
          have hrlt : toNat r < W ^ n := by
            have := toNat_lt r hwr
            rwa [hlr] at this
          exact ⟨by rw [heven, pow_zero, Nat.mul_one, Nat.mod_eq_of_lt hrlt],
            hwr, hlr⟩
      obtain ⟨hr2v, hr2w, hr2l⟩ := hr2spec
      obtain ⟨hGv, hGw, hGl⟩ := ih (sqrT b) (shrT e 1) r2 hsqw hshw hr2w
        hsql hshl hr2l hbound2
      refine ⟨?_, hGw, hGl⟩
      rw [hGv, hr2v, hsqv, hshv, pow_one]
      set P := W ^ n with hP
      set B := toNat b with hB
      set R := toNat r with hR
      set E := toNat e with hE
      -- drop both inner reductions modulo P and fold the parity exponent in
      have h3 : Nat.ModEq P (R * B ^ (E % 2) % P * (B * B % P) ^ (E / 2))
          (R * B ^ (E % 2) * (B * B) ^ (E / 2)) :=
        (Nat.mod_modEq _ _).mul ((Nat.mod_modEq _ _).pow _)
      have h4 : R * B ^ (E % 2) * (B * B) ^ (E / 2) = R * B ^ E := by
        rw [← sq, ← pow_mul, Nat.mul_assoc, ← pow_add]
        congr 2
        omega
      rw [h4] at h3
      exact h3

theorem expT_spec (b e : List Nat) (hwb : wf b) (hwe : wf e)
    (hlen : b.length = e.length) (hp2 : pow2 b.length) (h4 : 4 ≤ b.length)
    (h32 : 64 * b.length < W) :
    toNat (expT b e) = toNat b ^ toNat e % W ^ b.length
    ∧ wf (expT b e) ∧ (expT b e).length = b.length := by
  set n := b.length with hn
  have hone : toNat (fromNat n 1) = 1 := by
    apply toNat_fromNat
    calc 1 < W := by rw [W]; norm_num
    _ = W ^ 1 := (pow_one W).symm
    _ ≤ W ^ n := Nat.pow_le_pow_right W_pos (by omega)
  have hdef : expT b e
      = if toNat b = 2 then shlU (fromNat b.length 1) e
        else expGo (64 * e.length) b e (fromNat b.length 1) := rfl
  by_cases hb2 : toNat b = 2
  · rw [hdef, if_pos hb2]
    have hsh : shlU (fromNat b.length 1) e
        = if ltT e (fromNat (fromNat b.length 1).length
            (64 * (fromNat b.length 1).length))
          then shlT (fromNat b.length 1) (e.getD 0 0)
          else zeros (fromNat b.length 1).length := rfl
    rw [hsh, length_fromNat]
    have hlim : toNat (fromNat n (64 * n)) = 64 * n := by
      apply toNat_fromNat
      calc 64 * n < 2 ^ (64 * n) := Nat.lt_two_pow _
      _ = W ^ n := (W_pow n).symm
    have hcond : ltT e (fromNat n (64 * n))
        = decide (toNat e < toNat (fromNat n (64 * n))) :=
      ltT_iff e (fromNat n (64 * n)) hwe (wf_fromNat _ _)
        (by rw [length_fromNat, hlen])
    rw [hlim] at hcond
    by_cases hlt : toNat e < 64 * n
    · rw [hcond, decide_eq_true hlt, if_pos rfl]
      have hgetD : e.getD 0 0 = toNat e := by
        rw [getD_eq_value e hwe 0, pow_zero, Nat.div_one,
          Nat.mod_eq_of_lt (by omega)]
      obtain ⟨hsv, hsw, hsl⟩ := shlT_spec (fromNat n 1) (e.getD 0 0)
        (wf_fromNat _ _) (by rw [length_fromNat]; exact hp2)
        (by rw [length_fromNat]; omega)
      rw [length_fromNat] at hsl
      rw [length_fromNat, hone, Nat.one_mul] at hsv
      refine ⟨?_, hsw, hsl⟩
      rw [hsv, hgetD, hb2]
    · rw [hcond, decide_eq_false hlt, if_neg (by simp)]
      refine ⟨?_, wf_zeros n, length_zeros n⟩
      rw [toNat_zeros, hb2, W_pow]
      exact (Nat.mod_eq_zero_of_dvd (pow_dvd_pow 2 (by omega))).symm
  · rw [hdef, if_neg hb2]
    have hbound : toNat e < 2 ^ (64 * e.length) := by
      have := toNat_lt e hwe
      rwa [W_pow] at this
    obtain ⟨hGv, hGw, hGl⟩ := expGo_spec n hp2 h4 (64 * e.length) b e
      (fromNat n 1) hwb hwe (wf_fromNat _ _) rfl hlen.symm (length_fromNat _ _)
      hbound
    exact ⟨by rw [hGv, hone, Nat.one_mul], hGw, hGl⟩

/-! ### Serialization -/

/-- The `f` least-significant bytes of a word, least-significant first:
the `memcpy` image of a little-endian word. -/
def wordBytes : Nat → Nat → List Nat
  | 0, _ => []
  | f + 1, w => (w % 256) :: wordBytes f (w / 256)

/-- Read a little-endian byte list back as a number. -/
def fromBytes : List Nat → Nat
  | [] => 0
  | b :: bs => b + 256 * fromBytes bs

/-- Modelled from the spec: the 64-bit byte swap primitive of `int128.hpp`
reverses the eight bytes of a word. -/
def bswap64 (w : Nat) : Nat := fromBytes (List.reverse (wordBytes 8 w))

/-- `bswap` (`intx.hpp` lines 901–912):
`rw[num_words - 1 - i] = bswap(xw[i])`, i.e. byte-swap every word and
reverse the word order. -/
def bswapT (x : List Nat) : List Nat := (x.map bswap64).reverse

/-- `le::store` (`intx.hpp` lines 1094–1098 of the `le` namespace):
`memcpy` of the whole value, i.e. the words' bytes in little-endian order. -/
def leStore : List Nat → List Nat
  | [] => []
  | w :: ws => wordBytes 8 w ++ leStore ws

/-- `le::load` (`intx.hpp` lines 1089–1093 of the `le` namespace):
`memcpy` of the byte buffer into the value: 8 bytes per word. -/
def leLoad : Nat → List Nat → List Nat
  | 0, _ => []
  | n + 1, bs => fromBytes (bs.take 8) :: leLoad n (bs.drop 8)

/-- `be::store` (`intx.hpp` lines 1124–1129): `d = bswap(x)` then `memcpy`. -/
def beStore (x : List Nat) : List Nat := leStore (bswapT x)

/-- `be::load` with a full-size buffer (`intx.hpp` lines 1112–1122 with
`M = N/8`): `memcpy` into the value then `bswap`. -/
def beLoad (n : Nat) (bs : List Nat) : List Nat := bswapT (leLoad n bs)

theorem length_wordBytes : ∀ (f w : Nat), (wordBytes f w).length = f := by
  intro f
  induction f with
  | zero => intro w; rfl
  | succ f ih => intro w; simp [wordBytes, ih]

theorem wordBytes_lt : ∀ (f w : Nat), ∀ b ∈ wordBytes f w, b < 256 := by
  intro f
  induction f with
  | zero => intro w b hb; simp [wordBytes] at hb
  | succ f ih =>
    intro w b hb
    rcases List.mem_cons.mp hb with h | h
    · rw [h]; exact Nat.mod_lt _ (by norm_num)
    · exact ih _ b h

theorem fromBytes_lt : ∀ (l : List Nat), (∀ b ∈ l, b < 256) →
    fromBytes l < 256 ^ l.length := by
  intro l
  induction l with
  | nil => intro _; simp [fromBytes]
  | cons b bs ih =>
    intro hb
    have h1 : b < 256 := hb b (by simp)
    have h2 := ih (fun c hc => hb c (by simp [hc]))
    show b + 256 * fromBytes bs < 256 ^ (bs.length + 1)
    rw [pow_succ]
    have : 256 * fromBytes bs + 256 ≤ 256 * 256 ^ bs.length := by
      have := Nat.mul_le_mul_left 256 h2
      omega
    omega

theorem fromBytes_wordBytes : ∀ (f w : Nat), w < 256 ^ f →
    fromBytes (wordBytes f w) = w := by
  intro f
  induction f with
  | zero =>
    intro w hw
    simp at hw
    simp [wordBytes, fromBytes, hw]
  | succ f ih =>
    intro w hw
    show w % 256 + 256 * fromBytes (wordBytes f (w / 256)) = w
    have hdw : w / 256 < 256 ^ f := by
      rw [Nat.div_lt_iff_lt_mul (by norm_num)]
      rw [pow_succ] at hw
      omega
    rw [ih (w / 256) hdw]
    omega

theorem wordBytes_fromBytes : ∀ (l : List Nat), (∀ b ∈ l, b < 256) →
    wordBytes l.length (fromBytes l) = l := by
  intro l
  induction l with
  | nil => intro _; rfl
  | cons b bs ih =>
    intro hb
    have h1 : b < 256 := hb b (by simp)
    show ((b + 256 * fromBytes bs) % 256) :: wordBytes bs.length
      ((b + 256 * fromBytes bs) / 256) = b :: bs
    have hm : (b + 256 * fromBytes bs) % 256 = b := by
      rw [Nat.add_mul_mod_self_left, Nat.mod_eq_of_lt h1]
    have hd : (b + 256 * fromBytes bs) / 256 = fromBytes bs := by
      rw [Nat.add_mul_div_left _ _ (by norm_num : (0:Nat) < 256),
        Nat.div_eq_of_lt h1, Nat.zero_add]
    rw [hm, hd, ih (fun c hc => hb c (by simp [hc]))]

theorem bswap64_lt (w : Nat) : bswap64 w < W := by
  have h := fromBytes_lt (List.reverse (wordBytes 8 w))
    (fun b hb => wordBytes_lt 8 w b (List.mem_reverse.mp hb))
  rw [List.length_reverse, length_wordBytes] at h
  calc bswap64 w < 256 ^ 8 := h
  _ = W := by rw [W]; norm_num

theorem bswap64_involutive (w : Nat) (hw : w < W) : bswap64 (bswap64 w) = w := by
  have hw8 : w < 256 ^ 8 := by
    calc w < W := hw
    _ = 256 ^ 8 := by rw [W]; norm_num
  have h1 : wordBytes 8 (bswap64 w) = List.reverse (wordBytes 8 w) := by
    have := wordBytes_fromBytes (List.reverse (wordBytes 8 w))
      (fun b hb => wordBytes_lt 8 w b (List.mem_reverse.mp hb))
    rwa [List.length_reverse, length_wordBytes] at this
  rw [bswap64, h1, List.reverse_reverse, fromBytes_wordBytes 8 w hw8]

theorem bswapT_bswapT (x : List Nat) (hw : wf x) : bswapT (bswapT x) = x := by
  rw [bswapT, bswapT, List.map_reverse, List.reverse_reverse, List.map_map]
  have : ∀ (l : List Nat), wf l → l.map (bswap64 ∘ bswap64) = l := by
    intro l
    induction l with
    | nil => intro _; rfl
    | cons w ws ih =>
      intro hwl
      show bswap64 (bswap64 w) :: ws.map (bswap64 ∘ bswap64) = w :: ws
      rw [bswap64_involutive w (wf_cons_head hwl), ih (wf_cons_tail hwl)]
  exact this x hw

theorem wf_bswapT (x : List Nat) : wf (bswapT x) := by
  intro w hw
  rw [bswapT, List.mem_reverse] at hw
  obtain ⟨v, -, rfl⟩ := List.mem_map.mp hw
  exact bswap64_lt v

theorem length_bswapT (x : List Nat) : (bswapT x).length = x.length := by
  rw [bswapT, List.length_reverse, List.length_map]

theorem leLoad_leStore : ∀ (x : List Nat), wf x →
    leLoad x.length (leStore x) = x := by
  intro x
  induction x with
  | nil => intro _; rfl
  | cons w ws ih =>
    intro hw
    show fromBytes ((wordBytes 8 w ++ leStore ws).take 8)
      :: leLoad ws.length ((wordBytes 8 w ++ leStore ws).drop 8) = w :: ws
    have h8 : (wordBytes 8 w).length = 8 := length_wordBytes 8 w
    have htake : (wordBytes 8 w ++ leStore ws).take 8 = wordBytes 8 w := by
      rw [← h8]
      exact List.take_left _ _
    have hdrop : (wordBytes 8 w ++ leStore ws).drop 8 = leStore ws := by
      rw [← h8]
      exact List.drop_left _ _
    have hwW : w < 256 ^ 8 := by
      calc w < W := wf_cons_head hw
      _ = 256 ^ 8 := by rw [W]; norm_num
    rw [htake, hdrop, fromBytes_wordBytes 8 w hwW, ih (wf_cons_tail hw)]

theorem beLoad_beStore (x : List Nat) (hw : wf x) :
    beLoad x.length (beStore x) = x := by
  rw [beLoad, beStore, ← length_bswapT x, leLoad_leStore (bswapT x) (wf_bswapT x),
    bswapT_bswapT x hw]

/-! ### Division

`normalize`, `udivrem_by1`, `udivrem_by2`, `udivrem_knuth` and `udivrem`
(`intx.hpp` lines 626–856).  The word primitives `udivrem_2by1` and
`udivrem_3by2` (from `int128.hpp`) are modelled from the spec: exact
division of a two-word (resp. three-word) numerator by a normalized
one-word (resp. two-word) divisor under the precondition that the
quotient fits a single word. -/

/-- One word of `sub_with_carry(x, b)` for a full-word borrow operand `b`:
the wrapped difference together with its borrow indicator. -/
theorem subWord (x b : Nat) (hx : x < W) (hb : b < W) :
    (((x + W - b) % W : Nat) : ℤ)
      = (x : ℤ) - b + (if x < b then 1 else 0) * W
    ∧ (x < b → 0 < (x + W - b) % W) := by
  have hW := W_pos
  by_cases h : x < b
  · have hlt : x + W - b < W := by omega
    rw [Nat.mod_eq_of_lt hlt, if_pos h]
    constructor
    · push_cast
      omega
    · intro _
      omega
  · have heq : x + W - b = (x - b) + W := by omega
    rw [heq, Nat.add_mod_right, Nat.mod_eq_of_lt (by omega), if_neg h]
    constructor
    · push_cast [Nat.cast_sub (by omega : b ≤ x)]
      ring
    · intro hc
      exact absurd hc h

/-- `internal::submul` (`intx.hpp` lines 758–774): `r = x - multiplier * y`
word-wise, with a full-word running borrow
`borrow = p[1] + s.carry + t.carry`. -/
def submulL (mult : Nat) : List Nat → List Nat → Nat → List Nat × Nat
  | x :: xs, y :: ys, b =>
    let s := (x + W - b) % W
    let sc := if x < b then 1 else 0
    let p := y * mult
    let t := (s + W - p % W) % W
    let tc := if s < p % W then 1 else 0
    let r := submulL mult xs ys (p / W + sc + tc)
    (t :: r.1, r.2)
  | _, _, b => ([], b)

theorem submulL_spec (mult : Nat) (hm : mult < W) :
    ∀ (xs ys : List Nat) (b : Nat), wf xs → wf ys → b < W →
    xs.length = ys.length →
    ((toNat (submulL mult xs ys b).1 : ℤ)
        - ((submulL mult xs ys b).2 : ℤ) * W ^ xs.length
      = (toNat xs : ℤ) - b - mult * toNat ys)
    ∧ wf (submulL mult xs ys b).1
    ∧ (submulL mult xs ys b).1.length = xs.length
    ∧ (submulL mult xs ys b).2 < W := by
  intro xs
  induction xs with
  | nil =>
    intro ys b hwx hwy hb hlen
    cases ys with
    | nil =>
      refine ⟨by simp [submulL, toNat], ?_, rfl, by simpa [submulL]⟩
      intro w hw
      simp [submulL] at hw
    | cons y ys => simp at hlen
  | cons x xs ih =>
    intro ys b hwx hwy hb hlen
    cases ys with
    | nil => simp at hlen
    | cons y ys =>
      have hxW : x < W := wf_cons_head hwx
      have hyW : y < W := wf_cons_head hwy
      have hW := W_pos
      have h4W : 4 ≤ W := by rw [W]; norm_num
      set p := y * mult with hp
      have hpbound : p ≤ (W - 1) * (W - 1) :=
        Nat.mul_le_mul (by omega) (by omega)
      have hsq : (W - 1) * (W - 1) = W * (W - 2) + 1 := by
        zify [show 1 ≤ W by omega, show 2 ≤ W by omega]
        ring
      have hplt : p < (W - 1) * W := by
        have h1 : (W - 1) * (W - 1) < (W - 1) * W :=
          (Nat.mul_lt_mul_left (show 0 < W - 1 by omega)).mpr (by omega)
        omega
      have hpdiv : p / W ≤ W - 2 := by
        have h1 : p / W < W - 1 := (Nat.div_lt_iff_lt_mul hW).mpr hplt
        omega
      set s := (x + W - b) % W with hs
      set sc : Nat := if x < b then 1 else 0 with hsc
      set t := (s + W - p % W) % W with ht
      set tc : Nat := if s < p % W then 1 else 0 with htc
      have hsW : s < W := Nat.mod_lt _ hW
      have hpmW : p % W < W := Nat.mod_lt _ hW
      have htW : t < W := Nat.mod_lt _ hW
      obtain ⟨hsub1, hsub2⟩ := subWord x b hxW hb
      obtain ⟨htub1, htub2⟩ := subWord s (p % W) hsW hpmW
      -- the running borrow stays below one word
      have hbout : p / W + sc + tc < W := by
        have hsc1 : sc ≤ 1 := by rw [hsc]; split <;> omega
        have htc1 : tc ≤ 1 := by rw [htc]; split <;> omega
        by_cases hcase : p / W ≤ W - 3
        · omega
        · -- top product word is W-2, so p % W ≤ 1 and not both carries fire
          have hpd : p / W = W - 2 := by omega
          have hple : p ≤ W * (W - 2) + 1 := by rw [← hsq]; exact hpbound
          have hplow : p % W ≤ 1 := by
            have hdm := Nat.div_add_mod p W
            rw [hpd] at hdm
            omega
          have hnot : ¬(sc = 1 ∧ tc = 1) := by
            rintro ⟨hsc1, htc1⟩
            have hxb : x < b := by
              by_contra hxb
              rw [hsc, if_neg hxb] at hsc1
              omega
            have hspm : s < p % W := by
              by_contra hspm
              rw [htc, if_neg hspm] at htc1
              omega
            have hs0 : 0 < s := hsub2 hxb
            omega
          have hsc1 : sc ≤ 1 := by rw [hsc]; split <;> omega
          have htc1 : tc ≤ 1 := by rw [htc]; split <;> omega
          omega
      obtain ⟨ihval, ihwf, ihlen, ihb⟩ := ih ys (p / W + sc + tc)
        (wf_cons_tail hwx) (wf_cons_tail hwy) hbout (by simpa using hlen)
      have hse : submulL mult (x :: xs) (y :: ys) b
          = (t :: (submulL mult xs ys (p / W + sc + tc)).1,
             (submulL mult xs ys (p / W + sc + tc)).2) := rfl
      refine ⟨?_, ?_, ?_, ?_⟩
      · rw [hse]
        simp only [toNat_cons, List.length_cons]
        have hpWd := Nat.div_add_mod p W
        have hpWd' : (W : ℤ) * ((p / W : Nat) : ℤ) + ((p % W : Nat) : ℤ)
            = ((p : Nat) : ℤ) := by exact_mod_cast hpWd
        have hsc' : ((sc : Nat) : ℤ) = if x < b then 1 else 0 := by
          rw [hsc]; split <;> simp
        have htc' : ((tc : Nat) : ℤ) = if s < p % W then 1 else 0 := by
          rw [htc]; split <;> simp
        rw [← hs] at hsub1
        rw [← ht] at htub1
        rw [← hsc'] at hsub1
        rw [← htc'] at htub1
        have hpmult : ((p : Nat) : ℤ) = (y : ℤ) * mult := by
          rw [hp]; push_cast; ring
        push_cast
        rw [pow_succ]
        rw [Nat.cast_add, Nat.cast_add] at ihval
        linear_combination (W : ℤ) * ihval + htub1 + hsub1 - hpWd' - hpmult
      · rw [hse]
        intro w hw
        rcases List.mem_cons.mp hw with h | h
        · rw [h]; exact htW
        · exact ihwf w h
      · rw [hse]
        simpa using ihlen
      · rw [hse]
        exact ihb

/-- The significant-word count loops of `normalize` (`intx.hpp` lines
662–668): `for (m = num_words; m > 0 && u[m - 1] == 0; --m)`. -/
def sig : List Nat → Nat
  | [] => 0
  | w :: ws => if sig ws = 0 then (if w = 0 then 0 else 1) else sig ws + 1

theorem sig_le (u : List Nat) : sig u ≤ u.length := by
  induction u with
  | nil => exact le_refl 0
  | cons w ws ih =>
    show (if sig ws = 0 then (if w = 0 then 0 else 1) else sig ws + 1) ≤ ws.length + 1
    split
    · split <;> omega
    · omega

theorem sig_zero_iff (u : List Nat) : sig u = 0 ↔ toNat u = 0 := by
  induction u with
  | nil => simp [sig, toNat]
  | cons w ws ih =>
    show (if sig ws = 0 then (if w = 0 then 0 else 1) else sig ws + 1) = 0
      ↔ w + W * toNat ws = 0
    have hW := W_pos
    constructor
    · intro h
      by_cases hz : sig ws = 0
      · rw [if_pos hz] at h
        by_cases hw0 : w = 0
        · have hts : toNat ws = 0 := ih.mp hz
          rw [hw0, hts, Nat.mul_zero]
        · rw [if_neg hw0] at h
          omega
      · rw [if_neg hz] at h
        omega
    · intro h
      have hw0 : w = 0 := by omega
      have hws0 : toNat ws = 0 := by
        have h2 : W * toNat ws = 0 := by omega
        rcases Nat.mul_eq_zero.mp h2 with h3 | h3
        · exact absurd h3 (by omega)
        · exact h3
      have hs0 : sig ws = 0 := ih.mpr hws0
      rw [if_pos hs0, if_pos hw0]

theorem toNat_lt_sig (u : List Nat) (hw : wf u) : toNat u < W ^ sig u := by
  induction u with
  | nil => simp [sig, toNat]
  | cons w ws ih =>
    have hwW : w < W := wf_cons_head hw
    have ihw := ih (wf_cons_tail hw)
    show w + W * toNat ws < W ^ (if sig ws = 0 then (if w = 0 then 0 else 1)
      else sig ws + 1)
    split
    · have hz : toNat ws = 0 := (sig_zero_iff ws).mp (by assumption)
      split
      · simp_all
      · rw [pow_one, hz, Nat.mul_zero]
        omega
    · rw [pow_succ, mul_comm (W ^ sig ws) W]
      have h1 : toNat ws + 1 ≤ W ^ sig ws := ihw
      have h2 : W * (toNat ws + 1) ≤ W * W ^ sig ws :=
        Nat.mul_le_mul_left W h1
      have h3 : W * (toNat ws + 1) = W * toNat ws + W := by ring
      have hW := W_pos
      omega

theorem sig_lower (u : List Nat) (h0 : 0 < sig u) :
    W ^ (sig u - 1) ≤ toNat u := by
  induction u with
  | nil => simp [sig] at h0
  | cons w ws ih =>
    have hW := W_pos
    show W ^ (sig (w :: ws) - 1) ≤ w + W * toNat ws
    by_cases hz : sig ws = 0
    · have hnz : ¬ w = 0 := by
        intro hw0
        have : sig (w :: ws) = 0 := by
          show (if sig ws = 0 then (if w = 0 then 0 else 1) else sig ws + 1) = 0
          rw [if_pos hz, if_pos hw0]
        omega
      have hse : sig (w :: ws) = 1 := by
        show (if sig ws = 0 then (if w = 0 then 0 else 1) else sig ws + 1) = 1
        rw [if_pos hz, if_neg hnz]
      rw [hse]
      show W ^ 0 ≤ w + W * toNat ws
      rw [pow_zero]
      omega
    · have hse : sig (w :: ws) = sig ws + 1 := by
        show (if sig ws = 0 then (if w = 0 then 0 else 1) else sig ws + 1)
          = sig ws + 1
        rw [if_neg hz]
      rw [hse]
      have h1 := ih (by omega)
      calc W ^ (sig ws + 1 - 1) = W * W ^ (sig ws - 1) := by
            rw [← pow_succ']
            congr 1
            omega
      _ ≤ W * toNat ws := Nat.mul_le_mul_left W h1
      _ ≤ w + W * toNat ws := by omega

/-- Modelled from the spec: `clz_nonzero` on a word — the number of leading
zero bits, `64 - bit_length`. -/
def clz64 (w : Nat) : Nat := 64 - Nat.size w

theorem clz64_spec (w : Nat) (h0 : 0 < w) (hW : w < W) :
    clz64 w < 64 ∧ 2 ^ 63 ≤ w * 2 ^ clz64 w ∧ w * 2 ^ clz64 w < W := by
  have hsz1 : 1 ≤ Nat.size w := Nat.size_pos.mpr h0
  have hW' : w < 2 ^ 64 := hW
  have hsz64 : Nat.size w ≤ 64 := Nat.size_le.mpr hW'
  have hup : w < 2 ^ Nat.size w := Nat.lt_size_self w
  have hlo : 2 ^ (Nat.size w - 1) ≤ w := by
    have := Nat.lt_size.mp (show Nat.size w - 1 < Nat.size w by omega)
    exact this
  refine ⟨by rw [clz64]; omega, ?_, ?_⟩
  · calc (2:Nat) ^ 63 = 2 ^ (Nat.size w - 1) * 2 ^ (64 - Nat.size w) := by
          rw [← pow_add]
          congr 1
          omega
    _ ≤ w * 2 ^ (64 - Nat.size w) := Nat.mul_le_mul_right _ hlo
    _ = w * 2 ^ clz64 w := rfl
  · calc w * 2 ^ clz64 w < 2 ^ Nat.size w * 2 ^ (64 - Nat.size w) :=
          (Nat.mul_lt_mul_right (Nat.two_pow_pos _)).mpr hup
    _ = 2 ^ 64 := by
          rw [← pow_add]
          congr 1
          omega
    _ = W := rfl

/-- The word-shift loops of `normalize` (`intx.hpp` lines 672–681):
`xn[i] = (x[i] << shift) | (x[i - 1] >> (64 - shift))`, with `prev` the
word below the current one (`0` for `i = 0`). -/
def nshl (s : Nat) : Nat → List Nat → List Nat
  | _, [] => []
  | prev, w :: ws => (((w <<< s) % W) ||| (prev >>> (64 - s))) :: nshl s w ws

theorem nshl_eq_shlLoopGo (s : Nat) (hs : s < 64) :
    ∀ (ws : List Nat) (prev : Nat),
    nshl s prev ws = shlLoopGo s (prev >>> (64 - s)) ws := by
  intro ws
  induction ws with
  | nil => intro prev; rfl
  | cons w ws ih =>
    intro prev
    show (((w <<< s) % W) ||| (prev >>> (64 - s))) :: nshl s w ws
      = (((w <<< s) % W) ||| (prev >>> (64 - s)))
        :: shlLoopGo s ((w >>> (64 - s - 1)) >>> 1) ws
    rw [ih w, ← Nat.shiftRight_add, show 64 - s - 1 + 1 = 64 - s by omega]

theorem nshl_spec (s : Nat) (h0 : 0 < s) (hs : s < 64) (v : List Nat)
    (hw : wf v) :
    toNat (nshl s 0 v) = toNat v * 2 ^ s % W ^ v.length
    ∧ wf (nshl s 0 v) ∧ (nshl s 0 v).length = v.length := by
  rw [nshl_eq_shlLoopGo s hs v 0, Nat.zero_shiftRight]
  have h := shlLoopGo_spec s hs v 0 hw (Nat.two_pow_pos s)
  rwa [Nat.zero_add] at h

/-- The extended numerator of `normalize` (`intx.hpp` lines 677–687):
`un[num_words] = u[num_words - 1] >> (64 - shift)` above the shifted
words; for `shift == 0` the extra word is `numerator_ex = 0`. -/
def normNumEx (u : List Nat) (s : Nat) : List Nat :=
  if s = 0 then u ++ [0]
  else nshl s 0 u ++ [u.getD (u.length - 1) 0 >>> (64 - s)]

theorem mul_shift_top (u : List Nat) (s : Nat) (hw : wf u) (h1 : 1 ≤ u.length)
    (hs : s < 64) :
    toNat u * 2 ^ s / W ^ u.length
      = u.getD (u.length - 1) 0 / 2 ^ (64 - s) := by
  set n := u.length with hn
  set t := toNat u / W ^ (n - 1) with htd
  have htW : t < W := by
    rw [htd]
    have h2 := toNat_lt u hw
    rw [Nat.div_lt_iff_lt_mul (pow_pos W_pos _), ← pow_succ']
    rw [show n - 1 + 1 = n by omega]
    exact h2
  have hgd : u.getD (n - 1) 0 = t := by
    rw [getD_eq_value u hw (n - 1), Nat.mod_eq_of_lt htW]
  set A := toNat u % W ^ (n - 1) with hA
  have hAlt : A < W ^ (n - 1) := Nat.mod_lt _ (pow_pos W_pos _)
  have hsplit : toNat u = A + W ^ (n - 1) * t := by
    rw [hA, htd, Nat.mod_add_div]
  have hWn : W ^ n = W ^ (n - 1) * W := by
    rw [← pow_succ]
    congr 1
    omega
  rw [hgd, hsplit, hWn, ← Nat.div_div_eq_div_mul]
  have hstep1 : (A + W ^ (n - 1) * t) * 2 ^ s / W ^ (n - 1)
      = t * 2 ^ s + A * 2 ^ s / W ^ (n - 1) := by
    have : (A + W ^ (n - 1) * t) * 2 ^ s
        = A * 2 ^ s + W ^ (n - 1) * (t * 2 ^ s) := by ring
    rw [this, Nat.add_mul_div_left _ _ (pow_pos W_pos _)]
    omega
  rw [hstep1]
  set e := A * 2 ^ s / W ^ (n - 1) with he
  have helt : e < 2 ^ s := by
    rw [he, Nat.div_lt_iff_lt_mul (pow_pos W_pos _), mul_comm ((2:Nat) ^ s) _]
    exact (Nat.mul_lt_mul_right (Nat.two_pow_pos s)).mpr hAlt
  have hmod : t * 2 ^ s % W = t % 2 ^ (64 - s) * 2 ^ s := by
    have h2 := mul_pow_mod_pow (H := 64) t (le_of_lt hs)
    rwa [show (2:Nat) ^ 64 = W from rfl] at h2
  have hmodlt : t * 2 ^ s % W + e < W := by
    rw [hmod]
    have h2 : t % 2 ^ (64 - s) * 2 ^ s ≤ (2 ^ (64 - s) - 1) * 2 ^ s :=
      Nat.mul_le_mul_right _ (by
        have := Nat.mod_lt t (Nat.two_pow_pos (64 - s))
        omega)
    have h3 : W = 2 ^ (64 - s) * 2 ^ s := by
      rw [W, ← pow_add]
      congr 1
      omega
    have h4 : (2 ^ (64 - s) - 1) * 2 ^ s + 2 ^ s = 2 ^ (64 - s) * 2 ^ s := by
      rw [Nat.sub_mul, Nat.one_mul]
      have : 2 ^ s ≤ 2 ^ (64 - s) * 2 ^ s :=
        Nat.le_mul_of_pos_left _ (Nat.two_pow_pos _)
      omega
    omega
  have hfinal : (t * 2 ^ s + e) / W = t * 2 ^ s / W := by
    conv_lhs => rw [← Nat.div_add_mod (t * 2 ^ s) W]
    rw [Nat.add_assoc, Nat.mul_add_div W_pos,
      Nat.div_eq_of_lt hmodlt, Nat.add_zero]
  rw [hfinal]
  have h5 := mul_pow_div_pow (H := 64) t (le_of_lt hs)
  rwa [show (2:Nat) ^ 64 = W from rfl] at h5

theorem normNumEx_spec (u : List Nat) (s : Nat) (hw : wf u)
    (h1 : 1 ≤ u.length) (hs : s < 64) :
    toNat (normNumEx u s) = toNat u * 2 ^ s
    ∧ wf (normNumEx u s) ∧ (normNumEx u s).length = u.length + 1 := by
  by_cases h0 : s = 0
  · rw [normNumEx, if_pos h0, h0]
    refine ⟨?_, ?_, by simp⟩
    · rw [toNat_append]
      simp [toNat]
    · intro w hw2
      rcases List.mem_append.mp hw2 with h | h
      · exact hw w h
      · simp at h
        rw [h]
        exact W_pos
  · rw [normNumEx, if_neg h0]
    obtain ⟨hval, hwf2, hlen2⟩ := nshl_spec s (by omega) hs u hw
    have htop := mul_shift_top u s hw h1 hs
    refine ⟨?_, ?_, ?_⟩
    · rw [toNat_append, hval, hlen2]
      have hsp : toNat [u.getD (u.length - 1) 0 >>> (64 - s)]
          = u.getD (u.length - 1) 0 / 2 ^ (64 - s) := by
        rw [toNat_cons, toNat_nil, Nat.mul_zero, Nat.add_zero,
          Nat.shiftRight_eq_div_pow]
      rw [hsp, ← htop, Nat.mod_add_div]
    · intro w hw2
      rcases List.mem_append.mp hw2 with h | h
      · exact hwf2 w h
      · rw [List.mem_singleton.mp h, Nat.shiftRight_eq_div_pow]
        have hgd : u.getD (u.length - 1) 0 < W := by
          rw [getD_eq_value u hw]
          exact Nat.mod_lt _ W_pos
        calc u.getD (u.length - 1) 0 / 2 ^ (64 - s)
            ≤ u.getD (u.length - 1) 0 := Nat.div_le_self _ _
        _ < W := hgd
    · simp [hlen2]

/-- One nonzero-shift step of the remainder denormalization loop of
`udivrem` (`intx.hpp` lines 850–853):
`rw[i] = (un[i] >> shift) | (un[i + 1] << (64 - shift))`, and
`rw[n - 1] = un[n - 1] >> shift` for the top word. -/
def dnGo (s : Nat) : List Nat → List Nat
  | [] => []
  | [w] => [w >>> s]
  | w :: w1 :: ws => ((w >>> s) ||| ((w1 <<< (64 - s)) % W)) :: dnGo s (w1 :: ws)

/-- The remainder denormalization of `udivrem` (`intx.hpp` lines 848–853);
for `shift == 0` the words are copied unchanged. -/
def denorm (ws : List Nat) (s : Nat) : List Nat := if s = 0 then ws else dnGo s ws

theorem shr_split (a T s : Nat) (h0 : 0 < s) (hs : s < 64) :
    (a + W * T) / 2 ^ s
      = (a / 2 ^ s + T % 2 ^ s * 2 ^ (64 - s)) + W * (T / 2 ^ s) := by
  have hWsplit : W = 2 ^ s * 2 ^ (64 - s) := by
    rw [W, ← pow_add]
    congr 1
    omega
  have hT : T = T % 2 ^ s + 2 ^ s * (T / 2 ^ s) := (Nat.mod_add_div _ _).symm
  calc (a + W * T) / 2 ^ s
      = (a + 2 ^ s * (2 ^ (64 - s) * (T % 2 ^ s)) + 2 ^ s * ((T / 2 ^ s) * W))
          / 2 ^ s := by
        congr 1
        conv_lhs => rw [hT]
        rw [hWsplit]
        ring
    _ = (a + 2 ^ s * (2 ^ (64 - s) * (T % 2 ^ s))) / 2 ^ s + (T / 2 ^ s) * W := by
        rw [Nat.add_mul_div_left _ _ (Nat.two_pow_pos s)]
    _ = a / 2 ^ s + 2 ^ (64 - s) * (T % 2 ^ s) + (T / 2 ^ s) * W := by
        rw [Nat.add_mul_div_left _ _ (Nat.two_pow_pos s)]
    _ = (a / 2 ^ s + T % 2 ^ s * 2 ^ (64 - s)) + W * (T / 2 ^ s) := by ring

theorem dnGo_spec (s : Nat) (h0 : 0 < s) (hs : s < 64) : ∀ (ws : List Nat),
    wf ws →
    toNat (dnGo s ws) = toNat ws / 2 ^ s
    ∧ wf (dnGo s ws) ∧ (dnGo s ws).length = ws.length := by
  intro ws
  induction ws with
  | nil => intro _; exact ⟨by simp [dnGo, toNat], fun w hw => by simp [dnGo] at hw, rfl⟩
  | cons w ws ih =>
    intro hw
    have hwW : w < W := wf_cons_head hw
    cases ws with
    | nil =>
      refine ⟨?_, ?_, rfl⟩
      · show toNat [w >>> s] = toNat [w] / 2 ^ s
        simp [toNat, Nat.shiftRight_eq_div_pow]
      · intro v hv
        simp [dnGo] at hv
        rw [hv, Nat.shiftRight_eq_div_pow]
        calc w / 2 ^ s ≤ w := Nat.div_le_self _ _
        _ < W := hwW
    | cons w1 ws =>
      obtain ⟨ihv, ihw, ihl⟩ := ih (wf_cons_tail hw)
      have hw1W : w1 < W := wf_cons_head (wf_cons_tail hw)
      have hse : dnGo s (w :: w1 :: ws)
          = ((w >>> s) ||| ((w1 <<< (64 - s)) % W)) :: dnGo s (w1 :: ws) := rfl
      have hfun : (w >>> s) ||| ((w1 <<< (64 - s)) % W)
          = w / 2 ^ s + w1 % 2 ^ s * 2 ^ (64 - s) := by
        have hm : (w1 <<< (64 - s)) % W = w1 % 2 ^ s * 2 ^ (64 - s) := by
          rw [Nat.shiftLeft_eq]
          have h2 := mul_pow_mod_pow (H := 64) (s := 64 - s) w1 (by omega)
          rw [show 64 - (64 - s) = s by omega] at h2
          rwa [show (2:Nat) ^ 64 = W from rfl] at h2
        have hdisj : (w1 % 2 ^ s * 2 ^ (64 - s)) % 2 ^ (64 - s) = 0 :=
          Nat.mul_mod_left _ _
        have hblt : w >>> s < 2 ^ (64 - s) := by
          rw [Nat.shiftRight_eq_div_pow]
          have h3 := div_pow_lt_pow (H := 64) (s := 64 - s) w hwW (by omega)
          rwa [show 64 - (64 - s) = s by omega] at h3
        rw [hm, Nat.lor_comm, lor_disjoint_add _ _ hdisj hblt,
          Nat.shiftRight_eq_div_pow]
        omega
      refine ⟨?_, ?_, by rw [hse]; simpa using ihl⟩
      · rw [hse, toNat_cons, hfun, ihv]
        rw [show toNat (w :: w1 :: ws) = w + W * toNat (w1 :: ws) from rfl]
        rw [shr_split w (toNat (w1 :: ws)) s h0 hs]
        have hmod : toNat (w1 :: ws) % 2 ^ s = w1 % 2 ^ s := by
          rw [show toNat (w1 :: ws) = w1 + W * toNat ws from rfl]
          rw [show W = 2 ^ s * 2 ^ (64 - s) by
            rw [W, ← pow_add]
            congr 1
            omega]
          have h4 : w1 + 2 ^ s * 2 ^ (64 - s) * toNat ws
              = w1 + 2 ^ s * (2 ^ (64 - s) * toNat ws) := by ring
          rw [h4, Nat.add_mul_mod_self_left]
        rw [hmod]
      · rw [hse]
        intro v hv
        rcases List.mem_cons.mp hv with h | h
        · rw [h, hfun]
          have hlo := shr_lo_word_lt (H := 64) (s := s) w (w1 % 2 ^ s) hwW hs
          have hm2 : w1 % 2 ^ s * 2 ^ (64 - s) % 2 ^ 64
              = w1 % 2 ^ s * 2 ^ (64 - s) := by
            apply Nat.mod_eq_of_lt
            have h2 : w1 % 2 ^ s < 2 ^ s := Nat.mod_lt _ (Nat.two_pow_pos s)
            calc w1 % 2 ^ s * 2 ^ (64 - s) < 2 ^ s * 2 ^ (64 - s) :=
                  (Nat.mul_lt_mul_right (Nat.two_pow_pos _)).mpr h2
            _ = 2 ^ 64 := by
                  rw [← pow_add]
                  congr 1
                  omega
          rw [hm2] at hlo
          exact hlo
        · exact ihw v h

theorem denorm_spec (ws : List Nat) (s : Nat) (hw : wf ws) (hs : s < 64) :
    toNat (denorm ws s) = toNat ws / 2 ^ s
    ∧ wf (denorm ws s) ∧ (denorm ws s).length = ws.length := by
  by_cases h0 : s = 0
  · have hde : denorm ws s = ws := by rw [denorm, if_pos h0]
    rw [hde, h0]
    exact ⟨by rw [pow_zero, Nat.div_one], hw, rfl⟩
  · have hde : denorm ws s = dnGo s ws := by rw [denorm, if_neg h0]
    rw [hde]
    exact dnGo_spec s (by omega) hs ws hw

/-- The shared digit recursion of `udivrem_by1` / `udivrem_by2`
(`intx.hpp` lines 696–741), processing numerator words from the most
significant end.  The primitives `udivrem_2by1` / `udivrem_3by2` are
modelled from the spec as the exact division of `rem·2^64 + w` by the
divisor, valid because `rem < D` keeps the quotient within one word. -/
def dGo (D : Nat) : Nat → List Nat → List Nat × Nat
  | rem, [] => ([], rem)
  | rem, w :: ws =>
    let r := dGo D ((rem * W + w) % D) ws
    (((rem * W + w) / D) :: r.1, r.2)

theorem dGo_spec (D : Nat) (hD : 0 < D) :
    ∀ (ws : List Nat) (rem : Nat), rem < D → (∀ w ∈ ws, w < W) →
    toNat (dGo D rem ws).1.reverse * D + (dGo D rem ws).2
      = rem * W ^ ws.length + toNat ws.reverse
    ∧ (dGo D rem ws).2 < D ∧ wf (dGo D rem ws).1
    ∧ (dGo D rem ws).1.length = ws.length := by
  intro ws
  induction ws with
  | nil =>
    intro rem hrem hws
    refine ⟨by simp [dGo, toNat], hrem, ?_, rfl⟩
    intro w hw
    simp [dGo] at hw
  | cons w ws ih =>
    intro rem hrem hws
    have hwW : w < W := hws w (by simp)
    set X := rem * W + w with hX
    have hXlt : X < D * W := by
      have h1 : rem * W ≤ (D - 1) * W := Nat.mul_le_mul_right W (by omega)
      have h2 : (D - 1) * W + W = D * W := by
        rw [Nat.sub_mul, Nat.one_mul]
        have : W ≤ D * W := Nat.le_mul_of_pos_left _ hD
        omega
      omega
    have hq : X / D < W := by
      rw [Nat.div_lt_iff_lt_mul hD, mul_comm W D]
      exact hXlt
    obtain ⟨ihv, ihr, ihw, ihl⟩ := ih (X % D) (Nat.mod_lt _ hD)
      (fun v hv => hws v (by simp [hv]))
    have hse : dGo D rem (w :: ws)
        = ((X / D) :: (dGo D (X % D) ws).1, (dGo D (X % D) ws).2) := rfl
    refine ⟨?_, by rw [hse]; exact ihr, ?_, by rw [hse]; simpa using ihl⟩
    · rw [hse]
      show toNat ((X / D :: (dGo D (X % D) ws).1).reverse) * D
          + (dGo D (X % D) ws).2
        = rem * W ^ (w :: ws).length + toNat ((w :: ws).reverse)
      rw [List.reverse_cons, List.reverse_cons]
      rw [toNat_append, toNat_append, List.length_reverse, List.length_reverse,
        ihl]
      have hsing : toNat [X / D] = X / D := by simp [toNat]
      have hsing2 : toNat [w] = w := by simp [toNat]
      rw [hsing, hsing2, List.length_cons, pow_succ]
      have hXdm : D * (X / D) + X % D = X := Nat.div_add_mod X D
      calc (toNat (dGo D (X % D) ws).1.reverse + W ^ ws.length * (X / D)) * D
            + (dGo D (X % D) ws).2
          = (toNat (dGo D (X % D) ws).1.reverse * D + (dGo D (X % D) ws).2)
            + W ^ ws.length * (D * (X / D)) := by ring
        _ = X % D * W ^ ws.length + toNat ws.reverse
            + W ^ ws.length * (D * (X / D)) := by rw [ihv]
        _ = (D * (X / D) + X % D) * W ^ ws.length + toNat ws.reverse := by ring
        _ = X * W ^ ws.length + toNat ws.reverse := by rw [hXdm]
        _ = rem * (W ^ ws.length * W) + (w * W ^ ws.length + toNat ws.reverse)
            := by
          rw [hX]
          ring
        _ = rem * (W ^ ws.length * W) + (toNat ws.reverse + W ^ ws.length * w)
            := by ring
    · rw [hse]
      intro v hv
      rcases List.mem_cons.mp hv with h | h
      · rw [h]; exact hq
      · exact ihw v h

/-- `udivrem_by1` (`intx.hpp` lines 696–717) on the reversed
(most-significant-first) numerator: the remainder starts as the top word,
which is reset to zero; quotient digits fill the positions below. -/
def by1BE (d : Nat) : List Nat → List Nat × Nat
  | [] => ([], 0)
  | top :: rest =>
    let p := dGo d top rest
    (p.1.reverse ++ [0], p.2)

def udivremBy1 (u : List Nat) (d : Nat) : List Nat × Nat := by1BE d u.reverse

/-- `udivrem_by2` (`intx.hpp` lines 720–741) on the reversed numerator:
the remainder starts as the top two words, which are reset to zero;
quotient digits fill the positions below. -/
def by2BE (D : Nat) : List Nat → List Nat × Nat
  | t1 :: t0 :: rest =>
    let p := dGo D (t1 * W + t0) rest
    (p.1.reverse ++ [0, 0], p.2)
  | _ => ([], 0)

def udivremBy2 (u : List Nat) (D : Nat) : List Nat × Nat := by2BE D u.reverse

theorem rev_decomp (u : List Nat) (top : Nat) (rest : List Nat)
    (hrev : u.reverse = top :: rest) :
    u = rest.reverse ++ [top] ∧ rest.length = u.length - 1
    ∧ 1 ≤ u.length := by
  have hu : u = rest.reverse ++ [top] := by
    rw [← List.reverse_reverse u, hrev, List.reverse_cons]
  have hlen : u.reverse.length = u.length := List.length_reverse u
  rw [hrev] at hlen
  simp at hlen
  exact ⟨hu, by omega, by omega⟩

theorem udivremBy1_spec (u : List Nat) (d : Nat) (hw : wf u)
    (h1 : 1 ≤ u.length) (hd : 0 < d)
    (htop : toNat u / W ^ (u.length - 1) < d) :
    toNat (udivremBy1 u d).1 = toNat u / d
    ∧ (udivremBy1 u d).2 = toNat u % d
    ∧ wf (udivremBy1 u d).1 ∧ (udivremBy1 u d).1.length = u.length := by
  cases hrev : u.reverse with
  | nil =>
    exfalso
    have := List.length_reverse u
    rw [hrev] at this
    simp at this
    omega
  | cons top rest =>
    obtain ⟨hu, hrl, -⟩ := rev_decomp u top rest hrev
    have hwrev : wf rest.reverse := by
      intro w hw2
      exact hw w (by rw [hu]; exact List.mem_append_left _ hw2)
    have hwrest : ∀ w ∈ rest, w < W := fun w hw2 =>
      hwrev w (List.mem_reverse.mpr hw2)
    have hval : toNat u = toNat rest.reverse + W ^ rest.length * top := by
      rw [hu, toNat_append, List.length_reverse]
      rfl
    have hrlt : toNat rest.reverse < W ^ rest.length := by
      have := toNat_lt rest.reverse hwrev
      rwa [List.length_reverse] at this
    have htopval : toNat u / W ^ rest.length = top := by
      rw [hval, Nat.add_mul_div_left _ _ (pow_pos W_pos _),
        Nat.div_eq_of_lt hrlt, Nat.zero_add]
    have htopd : top < d := by
      rw [← htopval, hrl]
      exact htop
    obtain ⟨hid, hr, hqw, hql⟩ := dGo_spec d hd rest top htopd hwrest
    have hse : udivremBy1 u d
        = ((dGo d top rest).1.reverse ++ [0], (dGo d top rest).2) := by
      rw [udivremBy1, hrev]
      rfl
    have hidu : toNat (dGo d top rest).1.reverse * d + (dGo d top rest).2
        = toNat u := by
      rw [hid, hval]
      ring
    have hQ : toNat (dGo d top rest).1.reverse = toNat u / d := by
      have hdu : toNat u = d * toNat (dGo d top rest).1.reverse
          + (dGo d top rest).2 := by
        rw [← hidu]
        ring
      rw [hdu, Nat.mul_add_div hd, Nat.div_eq_of_lt hr, Nat.add_zero]
    have hR : (dGo d top rest).2 = toNat u % d := by
      have hdu : toNat u = d * toNat (dGo d top rest).1.reverse
          + (dGo d top rest).2 := by
        rw [← hidu]
        ring
      rw [hdu, Nat.mul_add_mod, Nat.mod_eq_of_lt hr]
    refine ⟨?_, by rw [hse]; exact hR, ?_, ?_⟩
    · rw [hse]
      show toNat ((dGo d top rest).1.reverse ++ [0]) = toNat u / d
      rw [toNat_append, toNat_cons, toNat_nil, Nat.mul_zero, Nat.add_zero,
        Nat.mul_zero, Nat.add_zero, hQ]
    · rw [hse]
      intro w hw2
      rcases List.mem_append.mp hw2 with h | h
      · exact hqw w (List.mem_reverse.mp h)
      · rw [List.mem_singleton.mp h]
        exact W_pos
    · rw [hse]
      show ((dGo d top rest).1.reverse ++ [0]).length = u.length
      rw [List.length_append, List.length_reverse, hql]
      simp
      omega

theorem udivremBy2_spec (u : List Nat) (D : Nat) (hw : wf u)
    (h2 : 2 ≤ u.length) (hD : 0 < D)
    (htop : toNat u / W ^ (u.length - 2) < D) :
    toNat (udivremBy2 u D).1 = toNat u / D
    ∧ (udivremBy2 u D).2 = toNat u % D
    ∧ wf (udivremBy2 u D).1 ∧ (udivremBy2 u D).1.length = u.length := by
  cases hrev : u.reverse with
  | nil =>
    exfalso
    have := List.length_reverse u
    rw [hrev] at this
    simp at this
    omega
  | cons t1 rest1 =>
    cases rest1 with
    | nil =>
      exfalso
      have := List.length_reverse u
      rw [hrev] at this
      simp at this
      omega
    | cons t0 rest =>
      obtain ⟨hu1, hrl1, -⟩ := rev_decomp u t1 (t0 :: rest) hrev
      have hu : u = rest.reverse ++ [t0, t1] := by
        rw [hu1, List.reverse_cons, List.append_assoc]
        rfl
      have hrl : rest.length = u.length - 2 := by
        have := List.length_reverse u
        rw [hrev] at this
        simp at this
        omega
      have hwrev : wf rest.reverse := by
        intro w hw2
        exact hw w (by rw [hu]; exact List.mem_append_left _ hw2)
      have hwrest : ∀ w ∈ rest, w < W := fun w hw2 =>
        hwrev w (List.mem_reverse.mpr hw2)
      have ht0W : t0 < W := hw t0 (by rw [hu]; simp)
      have ht1W : t1 < W := hw t1 (by rw [hu]; simp)
      have hval : toNat u = toNat rest.reverse + W ^ rest.length * (t0 + W * t1)
          := by
        rw [hu, toNat_append, List.length_reverse]
        rfl
      have hrlt : toNat rest.reverse < W ^ rest.length := by
        have := toNat_lt rest.reverse hwrev
        rwa [List.length_reverse] at this
      have htopval : toNat u / W ^ rest.length = t0 + W * t1 := by
        rw [hval, Nat.add_mul_div_left _ _ (pow_pos W_pos _),
          Nat.div_eq_of_lt hrlt, Nat.zero_add]
      have htopd : t1 * W + t0 < D := by
        have h3 : t0 + W * t1 < D := by
          rw [← htopval, hrl]
          exact htop
        rw [mul_comm t1 W]
        omega
      obtain ⟨hid, hr, hqw, hql⟩ := dGo_spec D hD rest (t1 * W + t0) htopd
        hwrest
      have hse : udivremBy2 u D
          = ((dGo D (t1 * W + t0) rest).1.reverse ++ [0, 0],
             (dGo D (t1 * W + t0) rest).2) := by
        rw [udivremBy2, hrev]
        rfl
      have hidu : toNat (dGo D (t1 * W + t0) rest).1.reverse * D
          + (dGo D (t1 * W + t0) rest).2 = toNat u := by
        rw [hid, hval]
        ring
      have hdu : toNat u = D * toNat (dGo D (t1 * W + t0) rest).1.reverse
          + (dGo D (t1 * W + t0) rest).2 := by
        rw [← hidu]
        ring
      have hQ : toNat (dGo D (t1 * W + t0) rest).1.reverse = toNat u / D := by
        rw [hdu, Nat.mul_add_div hD, Nat.div_eq_of_lt hr, Nat.add_zero]
      have hR : (dGo D (t1 * W + t0) rest).2 = toNat u % D := by
        rw [hdu, Nat.mul_add_mod, Nat.mod_eq_of_lt hr]
      refine ⟨?_, by rw [hse]; exact hR, ?_, ?_⟩
      · rw [hse]
        show toNat ((dGo D (t1 * W + t0) rest).1.reverse ++ [0, 0])
          = toNat u / D
        rw [toNat_append, hQ]
        have hz : toNat [0, 0] = 0 := by
          show 0 + W * (0 + W * toNat ([] : List Nat)) = 0
          simp [toNat]
        rw [hz, Nat.mul_zero, Nat.add_zero]
      · rw [hse]
        intro w hw2
        rcases List.mem_append.mp hw2 with h | h
        · exact hqw w (List.mem_reverse.mp h)
        · rcases List.mem_cons.mp h with h3 | h3
          · rw [h3]; exact W_pos
          · rw [List.mem_singleton.mp h3]; exact W_pos
      · rw [hse]
        show ((dGo D (t1 * W + t0) rest).1.reverse ++ [0, 0]).length = u.length
        rw [List.length_append, List.length_reverse, hql]
        simp
        omega

/-- One iteration of the `udivrem_knuth` main loop (`intx.hpp` lines
784–815) on the current window `u[j .. j+dlen]` (`dlen + 1` words,
little-endian).  The quotient-digit estimate comes from the top three
numerator words and the top two divisor words; `udivrem_3by2` is modelled
from the spec as the exact division of those three words by the two-word
divisor prefix.  Division overflow (`uint128(u2, u1) == divisor`) forces
the digit `~0`; otherwise `submul` subtracts the estimate and a borrow
out of the top triggers the `--qhat` add-back correction. -/
def knuthStepOv (d win : List Nat) : Nat × List Nat :=
  let sm := submulL (W - 1) (win.take d.length) d 0
  (W - 1, sm.1 ++ [(win.getD d.length 0 + W - sm.2) % W])

def knuthStepEst (d win : List Nat) (qhat rhat : Nat) : Nat × List Nat :=
  let sm := submulL qhat (win.take (d.length - 2)) (d.take (d.length - 2)) 0
  let t0 := (rhat % W + W - sm.2) % W
  let c1 : Nat := if rhat % W < sm.2 then 1 else 0
  let t1 := (rhat / W + W - c1) % W
  let c2 : Nat := if rhat / W < c1 then 1 else 0
  if c2 = 1 then
    let ad := addc (sm.1 ++ [t0]) (d.take (d.length - 1)) false
    (qhat - 1, ad.1 ++ [(t1 + (d.getD (d.length - 1) 0 + ad.2.toNat)) % W,
      win.getD d.length 0])
  else
    (qhat, sm.1 ++ [t0, t1, win.getD d.length 0])

def knuthStep (d win : List Nat) : Nat × List Nat :=
  let u2 := win.getD d.length 0
  let u1 := win.getD (d.length - 1) 0
  let u0 := win.getD (d.length - 2) 0
  let dv := d.getD (d.length - 1) 0 * W + d.getD (d.length - 2) 0
  if u2 * W + u1 = dv then knuthStepOv d win
  else knuthStepEst d win (((u2 * W + u1) * W + u0) / dv)
    (((u2 * W + u1) * W + u0) % dv)

/-- The `j`-loop of `udivrem_knuth` (`intx.hpp` lines 784–815), digit
positions `count - 1` down to `0`; each step rewrites the window
`u[j .. j+dlen]` in place and stores `q[j] = qhat`. -/
def knuthGo (d : List Nat) : Nat → List Nat → List Nat × List Nat
  | 0, u => ([], u)
  | c + 1, u =>
    let st := knuthStep d ((u.drop c).take (d.length + 1))
    let r := knuthGo d c (u.take c ++ st.2 ++ u.drop (c + d.length + 1))
    (r.1 ++ [st.1], r.2)

theorem divmod_unique (a b q r : Nat) (hb : 0 < b) (h : a = b * q + r)
    (hr : r < b) : a / b = q ∧ a % b = r := by
  constructor
  · rw [h, Nat.mul_add_div hb, Nat.div_eq_of_lt hr, Nat.add_zero]
  · rw [h, Nat.mul_add_mod, Nat.mod_eq_of_lt hr]

theorem getD_lt_W (xs : List Nat) (hw : wf xs) (i : Nat) : xs.getD i 0 < W := by
  rw [getD_eq_value xs hw i]
  exact Nat.mod_lt _ W_pos

/-- Facts about the two-word divisor prefix `divisor = {d[n-1], d[n-2]}`
used by the Knuth loop: writing `T2 = toNat d / W ^ (n - 2)` for its value,
the top divisor word is `T2 / W`, the prefix bounds the divisor as
`W^(n-2) * T2 ≤ toNat d < W^(n-2) * (T2 + 1)`, and normalization makes
`2^63 * W ≤ T2 < W * W`. -/
theorem divisorPrefix_facts (d : List Nat) (hwd : wf d) (hd3 : 3 ≤ d.length)
    (htw : 2 ^ 63 ≤ d.getD (d.length - 1) 0) :
    d.getD (d.length - 1) 0 = toNat d / W ^ (d.length - 2) / W
    ∧ d.getD (d.length - 1) 0 * W + d.getD (d.length - 2) 0
        = toNat d / W ^ (d.length - 2)
    ∧ W ^ (d.length - 2) * (toNat d / W ^ (d.length - 2)) ≤ toNat d
    ∧ toNat d < W ^ (d.length - 2) * (toNat d / W ^ (d.length - 2) + 1)
    ∧ 2 ^ 63 * W ≤ toNat d / W ^ (d.length - 2)
    ∧ toNat d / W ^ (d.length - 2) < W * W := by
  set n := d.length with hn
  set VN := toNat d with hVN
  set T2 := VN / W ^ (n - 2) with hT2
  have hW := W_pos
  have hVNlt : VN < W ^ n := by rw [hVN, hn]; exact toNat_lt d hwd
  have hpow : W ^ n = W ^ (n - 2) * (W * W) := by
    conv_lhs => rw [show n = (n - 2) + 2 by omega]
    rw [pow_add, pow_two]
  have hT2lt : T2 < W * W := by
    rw [hT2, Nat.div_lt_iff_lt_mul (pow_pos W_pos _), mul_comm (W * W) _,
      ← hpow]
    exact hVNlt
  have hd1T : VN / W ^ (n - 1) = T2 / W := by
    rw [hT2, Nat.div_div_eq_div_mul, ← pow_succ, show n - 2 + 1 = n - 1 by omega]
  have hd1 : d.getD (n - 1) 0 = T2 / W := by
    rw [getD_eq_value d hwd, ← hVN, hd1T]
    apply Nat.mod_eq_of_lt
    rw [Nat.div_lt_iff_lt_mul hW]
    exact hT2lt
  have hd0 : d.getD (n - 2) 0 = T2 % W := by
    rw [getD_eq_value d hwd, ← hVN, ← hT2]
  have hdv : d.getD (n - 1) 0 * W + d.getD (n - 2) 0 = T2 := by
    rw [hd1, hd0]
    have h1 : T2 / W * W = W * (T2 / W) := Nat.mul_comm _ _
    have h2 := Nat.div_add_mod T2 W
    omega
  have htwT : 2 ^ 63 * W ≤ T2 := by
    have h1 : 2 ^ 63 * W ≤ (T2 / W) * W := by
      apply Nat.mul_le_mul_right
      rw [← hd1]
      exact htw
    calc 2 ^ 63 * W ≤ (T2 / W) * W := h1
    _ ≤ T2 := Nat.div_mul_le_self T2 W
  have hlb : W ^ (n - 2) * T2 ≤ VN := by
    rw [hT2]
    exact Nat.mul_div_le VN (W ^ (n - 2))
  have hub : VN < W ^ (n - 2) * (T2 + 1) := by
    have h1 := Nat.div_add_mod VN (W ^ (n - 2))
    have h2 : VN % W ^ (n - 2) < W ^ (n - 2) := Nat.mod_lt _ (pow_pos W_pos _)
    have h3 : W ^ (n - 2) * (T2 + 1) = W ^ (n - 2) * T2 + W ^ (n - 2) := by ring
    rw [← hT2] at h1
    omega
  exact ⟨hd1, hdv, hlb, hub, htwT, hT2lt⟩

theorem knuthStepOv_spec (d win : List Nat) (hwd : wf d) (hd3 : 3 ≤ d.length)
    (htw : 2 ^ 63 ≤ d.getD (d.length - 1) 0)
    (hww : wf win) (hwl : win.length = d.length + 1)
    (hX : toNat win < toNat d * W)
    (hov : toNat win / W ^ (d.length - 1) = toNat d / W ^ (d.length - 2)) :
    (knuthStepOv d win).1 = toNat win / toNat d
    ∧ toNat ((knuthStepOv d win).2.take d.length) = toNat win % toNat d
    ∧ wf (knuthStepOv d win).2
    ∧ (knuthStepOv d win).2.length = d.length + 1
    ∧ (knuthStepOv d win).1 < W := by
  obtain ⟨hd1, hdv, hlb, hub, htwT, hT2lt⟩ := divisorPrefix_facts d hwd hd3 htw
  set n := d.length with hn
  set VN := toNat d with hVN
  set X := toNat win with hXd
  set T2 := VN / W ^ (n - 2) with hT2
  have hW := W_pos
  have h2W : 2 ≤ W := by rw [W]; norm_num
  have hVNlt : VN < W ^ n := by rw [hVN, hn]; exact toNat_lt d hwd
  have hWT2 : W ≤ T2 := by
    calc W = 1 * W := (Nat.one_mul W).symm
    _ ≤ 2 ^ 63 * W := Nat.mul_le_mul_right W (by norm_num)
    _ ≤ T2 := htwT
  have hVNpos : 0 < VN := by
    have h1 : 0 < W ^ (n - 2) * T2 := Nat.mul_pos (pow_pos hW _) (by omega)
    omega
  -- the numerator is bounded by one more word than the divisor
  have hXn1 : X < W ^ (n + 1) := by
    calc X < VN * W := hX
    _ ≤ W ^ n * W := Nat.mul_le_mul_right W (le_of_lt hVNlt)
    _ = W ^ (n + 1) := (pow_succ W n).symm
  -- lower bound: (W-1) * VN ≤ X, so the quotient digit is exactly W-1
  have hXlow : W ^ (n - 2) * W * T2 ≤ X := by
    have h1 : X / W ^ (n - 1) * W ^ (n - 1) ≤ X := Nat.div_mul_le_self _ _
    rw [hov] at h1
    have h2 : W ^ (n - 1) = W ^ (n - 2) * W := by
      rw [← pow_succ]
      congr 1
      omega
    calc W ^ (n - 2) * W * T2 = T2 * W ^ (n - 1) := by rw [h2]; ring
    _ ≤ X := h1
  have hlow : (W - 1) * VN ≤ X := by
    have f1 : (VN : ℤ) < (W : ℤ) ^ (n - 2) * (T2 + 1) := by exact_mod_cast hub
    have f2 : ((W : ℤ)) ^ (n - 2) * W * T2 ≤ X := by exact_mod_cast hXlow
    have f3 : (W : ℤ) ≤ T2 := by exact_mod_cast hWT2
    have f4 : (1 : ℤ) ≤ (W : ℤ) ^ (n - 2) := by exact_mod_cast Nat.one_le_iff_ne_zero.mpr (Nat.pos_iff_ne_zero.mp (pow_pos hW _))
    have f5 : (1 : ℤ) ≤ (W : ℤ) := by exact_mod_cast hW
    have hcast : ((W - 1 : Nat) : ℤ) = (W : ℤ) - 1 := by
      rw [Nat.cast_sub (by omega)]
      norm_num
    zify
    rw [hcast]
    set P : ℤ := (W : ℤ) ^ (n - 2) with hP
    have g1 : P * (W : ℤ) ≤ P * T2 := by
      apply mul_le_mul_of_nonneg_left f3
      linarith
    calc ((W : ℤ) - 1) * VN ≤ ((W : ℤ) - 1) * (P * T2 + P - 1) := by
          apply mul_le_mul_of_nonneg_left _ (by linarith)
          linarith
    _ = (W : ℤ) * (P * T2) + W * P - W - P * T2 - P + 1 := by ring
    _ ≤ (W : ℤ) * (P * T2) := by
          have g2 : (W : ℤ) * P = P * W := by ring
          linarith
    _ = P * (W : ℤ) * T2 := by ring
    _ ≤ X := f2
  -- the exact digit and remainder
  set R := X - (W - 1) * VN with hR
  have hRlt : R < VN := by
    have h1 : (W - 1) * VN + VN = W * VN := by
      have h2 : ((W - 1) + 1) * VN = W * VN := by
        rw [show W - 1 + 1 = W by omega]
      calc (W - 1) * VN + VN = ((W - 1) + 1) * VN := by ring
      _ = W * VN := h2
    have h3 : X < W * VN := by rw [mul_comm]; exact hX
    omega
  have hqt := divmod_unique X VN (W - 1) R hVNpos (by
    have h1 : VN * (W - 1) = (W - 1) * VN := Nat.mul_comm _ _
    omega) hRlt
  -- the word-level subtraction
  have hwt : wf (win.take n) := wf_take win n hww
  have hlt : (win.take n).length = n := by
    rw [List.length_take, hwl]
    omega
  have htv : toNat (win.take n) = X % W ^ n :=
    toNat_take_eq_mod win n hww (by omega)
  obtain ⟨hsv, hsw, hsl, hsb⟩ := submulL_spec (W - 1) (by omega) (win.take n) d
    0 hwt hwd hW (by rw [hlt, hn])
  rw [hlt] at hsv
  set S := (submulL (W - 1) (win.take n) d 0).1 with hSd
  set bout := (submulL (W - 1) (win.take n) d 0).2 with hboutd
  have hSlt : toNat S < W ^ n := by
    have := toNat_lt S hsw
    rwa [hsl, hlt] at this
  have hu2 : win.getD n 0 = X / W ^ n := by
    rw [getD_eq_value win hww, ← hXd]
    apply Nat.mod_eq_of_lt
    rw [Nat.div_lt_iff_lt_mul (pow_pos W_pos _), ← pow_succ']
    exact hXn1
  set u2v := X / W ^ n with hu2v
  -- identify the borrow with the top word and the result with the remainder
  have hXsplit : X % W ^ n + W ^ n * u2v = X := Nat.mod_add_div X (W ^ n)
  have hkey : (toNat S : ℤ) - (R : ℤ) = (W : ℤ) ^ n * (bout - u2v) := by
    have hRz : (R : ℤ) = (X : ℤ) - (W - 1 : Nat) * VN := by
      rw [hR, Nat.cast_sub hlow, Nat.cast_mul]
    have hXz : ((X % W ^ n : Nat) : ℤ) + (W : ℤ) ^ n * u2v = X := by
      exact_mod_cast hXsplit
    rw [htv] at hsv
    push_cast at hsv hRz hXz ⊢
    linarith [hsv, hRz, hXz]
  have hbe : bout = u2v := by
    rcases lt_trichotomy bout u2v with h | h | h
    · exfalso
      have h1 : (bout : ℤ) - u2v ≤ -1 := by
        have : (bout : ℤ) < u2v := by exact_mod_cast h
        omega
      have h2 : (W : ℤ) ^ n * ((bout : ℤ) - u2v) ≤ (W : ℤ) ^ n * (-1) :=
        mul_le_mul_of_nonneg_left h1 (by positivity)
      have h3 : (0 : ℤ) ≤ toNat S := by positivity
      have h4 : (R : ℤ) < (W : ℤ) ^ n := by
        have : R < W ^ n := lt_of_lt_of_le hRlt (le_of_lt hVNlt)
        exact_mod_cast this
      linarith [hkey, h2, h3, h4]
    · exact h
    · exfalso
      have h1 : (1 : ℤ) ≤ (bout : ℤ) - u2v := by
        have : (u2v : ℤ) < bout := by exact_mod_cast h
        omega
      have h2 : (W : ℤ) ^ n * 1 ≤ (W : ℤ) ^ n * ((bout : ℤ) - u2v) :=
        mul_le_mul_of_nonneg_left h1 (by positivity)
      have h3 : (toNat S : ℤ) < (W : ℤ) ^ n := by exact_mod_cast hSlt
      have h4 : (0 : ℤ) ≤ (R : ℤ) := by positivity
      linarith [hkey, h2, h3, h4]
  have hSR : toNat S = R := by
    have h0 : (toNat S : ℤ) - (R : ℤ) = 0 := by
      rw [hkey, hbe]
      ring
    have h1 : (toNat S : ℤ) = (R : ℤ) := by linarith
    exact_mod_cast h1
  -- assemble
  have hse : knuthStepOv d win
      = (W - 1, S ++ [(win.getD n 0 + W - bout) % W]) := rfl
  have htop0 : (win.getD n 0 + W - bout) % W = 0 := by
    rw [hu2, hbe]
    have h1 : u2v + W - u2v = W := by omega
    rw [h1, Nat.mod_self]
  refine ⟨?_, ?_, ?_, ?_, ?_⟩
  · rw [hse]
    show W - 1 = X / VN
    rw [hqt.1]
  · rw [hse]
    show toNat ((S ++ [(win.getD n 0 + W - bout) % W]).take n) = X % VN
    have hta : (S ++ [(win.getD n 0 + W - bout) % W]).take n = S := by
      have h1 : S.length = n := by rw [hsl, hlt]
      rw [← h1]
      exact List.take_left _ _
    rw [hta, hSR, hqt.2]
  · rw [hse]
    intro w hw2
    rcases List.mem_append.mp hw2 with h | h
    · exact hsw w h
    · rw [List.mem_singleton.mp h, htop0]
      exact hW
  · rw [hse]
    show (S ++ [(win.getD n 0 + W - bout) % W]).length = n + 1
    rw [List.length_append, hsl, hlt]
    rfl
  · rw [hse]
    show W - 1 < W
    omega

set_option maxHeartbeats 1600000 in
theorem knuthStepEst_spec (d win : List Nat) (qhat rhat : Nat)
    (hwd : wf d) (hd3 : 3 ≤ d.length)
    (htw : 2 ^ 63 ≤ d.getD (d.length - 1) 0)
    (hww : wf win) (hwl : win.length = d.length + 1)
    (hX : toNat win < toNat d * W)
    (hU2 : toNat win / W ^ (d.length - 1) < toNat d / W ^ (d.length - 2))
    (hqr : toNat win / W ^ (d.length - 2)
      = qhat * (toNat d / W ^ (d.length - 2)) + rhat)
    (hrh : rhat < toNat d / W ^ (d.length - 2)) :
    (knuthStepEst d win qhat rhat).1 = toNat win / toNat d
    ∧ toNat ((knuthStepEst d win qhat rhat).2.take d.length)
        = toNat win % toNat d
    ∧ wf (knuthStepEst d win qhat rhat).2
    ∧ (knuthStepEst d win qhat rhat).2.length = d.length + 1
    ∧ (knuthStepEst d win qhat rhat).1 < W := by
  obtain ⟨hd1, hdv, hlb, hub, htwT, hT2lt⟩ := divisorPrefix_facts d hwd hd3 htw
  set n := d.length with hn
  set VN := toNat d with hVN
  set X := toNat win with hXd
  set T2 := VN / W ^ (n - 2) with hT2
  set X2 := X / W ^ (n - 2) with hX2
  set qt := X / VN with hqtd
  have hW := W_pos
  have h2W : 2 ≤ W := by rw [W]; norm_num
  have hVNlt : VN < W ^ n := by rw [hVN, hn]; exact toNat_lt d hwd
  have hWT2 : W ≤ T2 := by
    calc W = 1 * W := (Nat.one_mul W).symm
    _ ≤ 2 ^ 63 * W := Nat.mul_le_mul_right W (by norm_num)
    _ ≤ T2 := htwT
  have hVNpos : 0 < VN := by
    have h1 : 0 < W ^ (n - 2) * T2 := Nat.mul_pos (pow_pos hW _) (by omega)
    omega
  have hpow1 : W ^ (n - 1) = W ^ (n - 2) * W := by
    rw [← pow_succ]
    congr 1
    omega
  have hpow2 : W ^ n = W ^ (n - 2) * W * W := by
    conv_lhs => rw [show n = (n - 2) + 2 by omega]
    rw [pow_add, pow_two]
    ring
  -- the digit estimate is a single word
  have hU2' : X2 / W < T2 := by
    have h1 : X / W ^ (n - 1) = X2 / W := by
      rw [hX2, Nat.div_div_eq_div_mul, ← pow_succ, show n - 2 + 1 = n - 1 by omega]
    rw [← h1]
    exact hU2
  have hX2T2W : X2 < W * T2 := by
    have h2 := Nat.div_add_mod X2 W
    have h3 : X2 % W < W := Nat.mod_lt _ hW
    have h4 : W * (X2 / W) ≤ W * (T2 - 1) := Nat.mul_le_mul_left W (by omega)
    have h5 : W * (T2 - 1) + W = W * T2 := by
      have h6 : T2 - 1 + 1 = T2 := by omega
      calc W * (T2 - 1) + W = W * ((T2 - 1) + 1) := by ring
      _ = W * T2 := by rw [h6]
    omega
  have hqhatW : qhat < W := by
    have h1 : qhat * T2 ≤ X2 := by omega
    by_contra hc
    push_neg at hc
    have h2 : W * T2 ≤ qhat * T2 := Nat.mul_le_mul_right T2 hc
    omega
  have hqhatT2 : qhat = X2 / T2 ∧ rhat = X2 % T2 := by
    have h1 := divmod_unique X2 T2 qhat rhat (by omega)
      (by rw [hqr]; ring) hrh
    exact ⟨h1.1.symm, h1.2.symm⟩
  -- estimation bounds: qt ≤ qhat ≤ qt + 1
  have hqtle : qt ≤ qhat := by
    rw [hqtd, hqhatT2.1, hX2]
    calc X / VN ≤ X / (W ^ (n - 2) * T2) :=
          Nat.div_le_div_left hlb (Nat.mul_pos (pow_pos hW _) (by omega))
    _ = X / W ^ (n - 2) / T2 := (Nat.div_div_eq_div_mul _ _ _).symm
  have hqhatle : qhat ≤ qt + 1 := by
    rcases Nat.eq_zero_or_pos qhat with h0 | hpos'
    · rw [h0]
      exact Nat.zero_le _
    · have hq1 : (qhat - 1) * VN ≤ X := by
        have f1 : (VN : ℤ) < (W : ℤ) ^ (n - 2) * (T2 + 1) := by exact_mod_cast hub
        have f2 : ((W : ℤ)) ^ (n - 2) * X2 ≤ X := by
          exact_mod_cast (Nat.mul_div_le X (W ^ (n - 2)) : W ^ (n-2) * (X / W ^ (n-2)) ≤ X)
        have f3 : (qhat : ℤ) * T2 ≤ X2 := by
          have : qhat * T2 ≤ X2 := by omega
          exact_mod_cast this
        have f4 : (1 : ℤ) ≤ (W : ℤ) ^ (n - 2) := by
          exact_mod_cast Nat.one_le_iff_ne_zero.mpr
            (Nat.pos_iff_ne_zero.mp (pow_pos hW _))
        have f5 : (qhat : ℤ) ≤ T2 := by
          have : qhat ≤ T2 := le_trans (le_of_lt hqhatW) hWT2
          exact_mod_cast this
        have f6 : (1 : ℤ) ≤ qhat := by exact_mod_cast hpos'
        have hcast : ((qhat - 1 : Nat) : ℤ) = (qhat : ℤ) - 1 := by
          rw [Nat.cast_sub (by omega)]
          norm_num
        zify
        rw [hcast]
        set P : ℤ := (W : ℤ) ^ (n - 2) with hPd
        calc ((qhat : ℤ) - 1) * VN ≤ ((qhat : ℤ) - 1) * (P * T2 + P - 1) := by
              apply mul_le_mul_of_nonneg_left _ (by linarith)
              linarith
        _ = (qhat : ℤ) * (P * T2) + qhat * P - qhat - P * T2 - P + 1 := by ring
        _ ≤ P * ((qhat : ℤ) * T2) := by
              have g1 : P * (qhat : ℤ) ≤ P * T2 := by
                apply mul_le_mul_of_nonneg_left f5
                linarith
              have g2 : (qhat : ℤ) * P = P * qhat := by ring
              have g3 : (qhat : ℤ) * (P * T2) = P * (qhat * T2) := by ring
              linarith
        _ ≤ P * (X2 : ℤ) := by
              apply mul_le_mul_of_nonneg_left f3
              linarith
        _ ≤ X := f2
      have h2 : qhat - 1 ≤ qt := by
        rw [hqtd]
        exact (Nat.le_div_iff_mul_le hVNpos).mpr hq1
      omega
  -- the word-level subtraction of the estimate
  have hwt : wf (win.take (n - 2)) := wf_take win _ hww
  have hltw : (win.take (n - 2)).length = n - 2 := by
    rw [List.length_take, hwl]
    omega
  have hltd : (d.take (n - 2)).length = n - 2 := by
    rw [List.length_take]
    omega
  have htvw : toNat (win.take (n - 2)) = X % W ^ (n - 2) :=
    toNat_take_eq_mod win _ hww (by rw [hwl]; omega)
  have htvd : toNat (d.take (n - 2)) = VN % W ^ (n - 2) :=
    toNat_take_eq_mod d _ hwd (by omega)
  obtain ⟨hsv, hsw, hsl, hsb⟩ := submulL_spec qhat hqhatW (win.take (n - 2))
    (d.take (n - 2)) 0 hwt (wf_take d _ hwd) hW (by rw [hltw, hltd])
  rw [hltw, htvw, htvd] at hsv
  have hSlt : toNat (submulL qhat (win.take (n - 2)) (d.take (n - 2)) 0).1
      < W ^ (n - 2) := by
    have := toNat_lt _ hsw
    rwa [hsl, hltw] at this
  have hrhW2 : rhat < W * W := lt_of_lt_of_le hrh (le_of_lt hT2lt)
  have hrh1W : rhat / W < W := by
    rw [Nat.div_lt_iff_lt_mul hW]
    rw [mul_comm] at hrhW2
    exact hrhW2
  obtain ⟨ht0z, ht0p⟩ := subWord (rhat % W)
    (submulL qhat (win.take (n - 2)) (d.take (n - 2)) 0).2
    (Nat.mod_lt _ hW) hsb
  obtain ⟨ht1z, -⟩ := subWord (rhat / W)
    (if rhat % W < (submulL qhat (win.take (n - 2)) (d.take (n - 2)) 0).2
      then 1 else 0) hrh1W (by split <;> omega)
  have hu2w : win.getD n 0 < W := getD_lt_W win hww n
  have hrsplit : (W : ℤ) * ((rhat / W : Nat) : ℤ) + ((rhat % W : Nat) : ℤ)
      = (rhat : ℤ) := by exact_mod_cast Nat.div_add_mod rhat W
  have hXsp : ((X % W ^ (n - 2) : Nat) : ℤ) + ((W : ℤ)) ^ (n - 2) * X2
      = (X : ℤ) := by exact_mod_cast Nat.mod_add_div X (W ^ (n - 2))
  have hVsp : ((VN % W ^ (n - 2) : Nat) : ℤ) + ((W : ℤ)) ^ (n - 2) * T2
      = (VN : ℤ) := by exact_mod_cast Nat.mod_add_div VN (W ^ (n - 2))
  have hqrz : (X2 : ℤ) = (qhat : ℤ) * T2 + rhat := by exact_mod_cast hqr
  have hYd : X % VN + VN * qt = X := Nat.mod_add_div X VN
  -- unfold the definition and branch on the correction carry
  simp only [knuthStepEst]
  set S := (submulL qhat (win.take (n - 2)) (d.take (n - 2)) 0).1 with hSd
  set ov := (submulL qhat (win.take (n - 2)) (d.take (n - 2)) 0).2 with hovd
  set c1 : Nat := if rhat % W < ov then 1 else 0 with hc1d
  set t0 := (rhat % W + W - ov) % W with ht0d
  set t1 := (rhat / W + W - c1) % W with ht1d
  have ht0W : t0 < W := Nat.mod_lt _ hW
  have ht1W : t1 < W := Nat.mod_lt _ hW
  have hc1z : ((c1 : Nat) : ℤ) = if rhat % W < ov then 1 else 0 := by
    rw [hc1d]
    split <;> simp
  rw [← hc1z] at ht0z
  by_cases hc2p : rhat / W < c1
  · -- correction branch: the estimate was one too large
    rw [if_pos hc2p] at ht1z
    rw [if_pos hc2p, if_pos rfl]
    have hc1v : c1 = 1 := by
      rcases Nat.lt_or_ge (rhat % W) ov with h | h
      · rw [hc1d, if_pos h]
      · exfalso
        rw [hc1d, if_neg (Nat.not_lt.mpr h)] at hc2p
        exact absurd hc2p (Nat.not_lt.mpr (Nat.zero_le _))
    -- the key value identity with the borrow out of the top
    have hkey : (X : ℤ) - (qhat : ℤ) * VN
        = (toNat S : ℤ) + (t0 : ℤ) * ((W : ℤ)) ^ (n - 2)
          + (t1 : ℤ) * (((W : ℤ)) ^ (n - 2) * W)
          - ((W : ℤ)) ^ (n - 2) * W * W := by
      linear_combination (-1 : ℤ) * hXsp + (qhat : ℤ) * hVsp - hsv
        + ((W : ℤ)) ^ (n - 2) * hqrz - ((W : ℤ)) ^ (n - 2) * hrsplit
        - ((W : ℤ)) ^ (n - 2) * ht0z - (((W : ℤ)) ^ (n - 2) * W) * ht1z
    -- the digit is qt + 1, so the stored digit qhat - 1 is exact
    have hneg : (X : ℤ) - (qhat : ℤ) * VN < 0 := by
      have b1 : (toNat S : ℤ) < ((W : ℤ)) ^ (n - 2) := by exact_mod_cast hSlt
      have b2 : (t0 : ℤ) ≤ (W : ℤ) - 1 := by
        have : (t0 : ℤ) < (W : ℤ) := by exact_mod_cast ht0W
        omega
      have b3 : (t1 : ℤ) ≤ (W : ℤ) - 1 := by
        have : (t1 : ℤ) < (W : ℤ) := by exact_mod_cast ht1W
        omega
      have b4 : (0 : ℤ) < ((W : ℤ)) ^ (n - 2) := by positivity
      have b5 : (0 : ℤ) < (W : ℤ) := by exact_mod_cast hW
      have m1 : (t0 : ℤ) * ((W : ℤ)) ^ (n - 2)
          ≤ ((W : ℤ) - 1) * ((W : ℤ)) ^ (n - 2) :=
        mul_le_mul_of_nonneg_right b2 (by linarith)
      have m2 : (t1 : ℤ) * (((W : ℤ)) ^ (n - 2) * W)
          ≤ ((W : ℤ) - 1) * (((W : ℤ)) ^ (n - 2) * W) :=
        mul_le_mul_of_nonneg_right b3 (by positivity)
      have hsum : ((W : ℤ) - 1) * ((W : ℤ)) ^ (n - 2)
          + ((W : ℤ) - 1) * (((W : ℤ)) ^ (n - 2) * W)
          + (((W : ℤ)) ^ (n - 2) - 1)
          = ((W : ℤ)) ^ (n - 2) * W * W - 1 := by ring
      rw [hkey]
      linarith [m1, m2, b1, hsum]
    have hqeq : qhat = qt + 1 := by
      have h1 : ¬ (qhat : ℤ) * VN ≤ X := by
        intro hc
        linarith
      have h2 : ¬ qhat * VN ≤ X := by
        intro hc
        exact h1 (by exact_mod_cast hc)
      have h3 : qt < qhat := by
        by_contra hc
        push_neg at hc
        exact h2 (le_trans (Nat.mul_le_mul_right VN hc)
          (by rw [hqtd, mul_comm]; exact Nat.mul_div_le X VN))
      omega
    -- add back the divisor
    have hwsm : wf (S ++ [t0]) := by
      intro w hw2
      rcases List.mem_append.mp hw2 with h | h
      · exact hsw w h
      · rw [List.mem_singleton.mp h]; exact ht0W
    have hlsm : (S ++ [t0]).length = n - 1 := by
      rw [List.length_append, hsl, hltw]
      simp
      omega
    have hltd1 : (d.take (n - 1)).length = n - 1 := by
      rw [List.length_take]
      omega
    obtain ⟨hav, haw, hal⟩ := addc_spec (S ++ [t0]) (d.take (n - 1)) false
      hwsm (wf_take d _ hwd) (by rw [hlsm, hltd1])
    rw [hlsm] at hav hal
    have htvd1 : toNat (d.take (n - 1)) = VN % W ^ (n - 1) :=
      toNat_take_eq_mod d _ hwd (by omega)
    have hsmv : toNat (S ++ [t0]) = toNat S + W ^ (n - 2) * t0 := by
      rw [toNat_append, hsl, hltw]
      congr 1
    have hd1' : VN % W ^ (n - 1) + W ^ (n - 1) * (T2 / W) = VN := by
      have h1 : VN / W ^ (n - 1) = T2 / W := by
        rw [hT2, Nat.div_div_eq_div_mul, ← pow_succ,
          show n - 2 + 1 = n - 1 by omega]
      have h2 := Nat.mod_add_div VN (W ^ (n - 1))
      rw [h1] at h2
      exact h2
    set ad := addc (S ++ [t0]) (d.take (n - 1)) false with hadd
    set cN := ad.2.toNat with hcN
    have hcNle : cN ≤ 1 := by rw [hcN]; cases ad.2 <;> simp
    rw [hsmv, htvd1] at hav
    have hadlt : toNat ad.1 < W ^ (n - 1) := by
      have := toNat_lt ad.1 haw
      rwa [hal] at this
    -- the value written back is exactly the remainder
    set s3 := t1 + (d.getD (n - 1) 0 + cN) with hs3
    have hs3z : (s3 : ℤ) = (t1 : ℤ) + (T2 / W : Nat) + cN := by
      rw [hs3, hd1]
      push_cast
      ring
    have hYz : ((X % VN : Nat) : ℤ)
        = (toNat ad.1 : ℤ) + ((W : ℤ)) ^ (n - 2) * W * s3
          - ((W : ℤ)) ^ (n - 2) * W * W := by
      have hYz1 : ((X % VN : Nat) : ℤ) + (VN : ℤ) * qt = X := by
        exact_mod_cast hYd
      have hqz : (qhat : ℤ) = (qt : ℤ) + 1 := by exact_mod_cast hqeq
      have havz : (toNat ad.1 : ℤ) + ((W : ℤ)) ^ (n - 1) * (Bool.toNat ad.2 : ℤ)
          = ((toNat S : ℤ) + ((W : ℤ)) ^ (n - 2) * t0)
            + ((VN % W ^ (n - 1) : Nat) : ℤ) := by exact_mod_cast hav
      have hd1z : ((VN % W ^ (n - 1) : Nat) : ℤ)
          + ((W : ℤ)) ^ (n - 1) * ((T2 / W : Nat) : ℤ) = VN := by
        exact_mod_cast hd1'
      have hpz : ((W : ℤ)) ^ (n - 1) = ((W : ℤ)) ^ (n - 2) * W := by
        exact_mod_cast hpow1
      have hcz : (cN : ℤ) = (Bool.toNat ad.2 : ℤ) := by rw [hcN]
      rw [hpz] at havz hd1z
      linear_combination hYz1 + hkey + (VN : ℤ) * hqz - havz - hd1z
        - ((W : ℤ)) ^ (n - 2) * W * hs3z
        - ((W : ℤ)) ^ (n - 2) * W * hcz
    -- the wrapped top word equals s3 - W
    have hs3ge : W ≤ s3 := by
      by_contra hc
      push_neg at hc
      have b1 : (s3 : ℤ) ≤ (W : ℤ) - 1 := by
        have : (s3 : ℤ) < (W : ℤ) := by exact_mod_cast hc
        omega
      have b2 : (toNat ad.1 : ℤ) < ((W : ℤ)) ^ (n - 2) * W := by
        have h1 : (toNat ad.1 : ℤ) < ((W : ℤ)) ^ (n - 1) := by
          exact_mod_cast hadlt
        have hpz : ((W : ℤ)) ^ (n - 1) = ((W : ℤ)) ^ (n - 2) * W := by
          exact_mod_cast hpow1
        rwa [hpz] at h1
      have b3 : (0 : ℤ) ≤ ((X % VN : Nat) : ℤ) := by positivity
      have b4 : (0 : ℤ) < ((W : ℤ)) ^ (n - 2) * W := by positivity
      have m1 : ((W : ℤ)) ^ (n - 2) * W * s3
          ≤ ((W : ℤ)) ^ (n - 2) * W * ((W : ℤ) - 1) :=
        mul_le_mul_of_nonneg_left b1 (by positivity)
      rw [hYz] at b3
      linarith [m1, b2, b3]
    have hs3lt : s3 < 2 * W := by
      have h1 : d.getD (n - 1) 0 < W := getD_lt_W d hwd _
      rw [hs3]
      omega
    have hs3mod : s3 % W = s3 - W := by
      rw [Nat.mod_eq_sub_mod hs3ge, Nat.mod_eq_of_lt (by omega)]
    -- assemble the correction-branch result
    have htake : ((ad.1 ++ [s3 % W, win.getD n 0]).take n)
        = ad.1 ++ [s3 % W] := by
      rw [List.take_append_eq_append_take, List.take_of_length_le (by rw [hal]; omega),
        hal, show n - (n - 1) = 1 by omega]
      rfl
    have hvalfin : toNat (ad.1 ++ [s3 % W]) = X % VN := by
      have h1 : (toNat (ad.1 ++ [s3 % W]) : ℤ) = ((X % VN : Nat) : ℤ) := by
        rw [toNat_append, hal]
        have h2 : toNat [s3 % W] = s3 - W := by
          rw [toNat_cons, toNat_nil, Nat.mul_zero, Nat.add_zero, hs3mod]
        rw [h2, hYz]
        have hpz : ((W : ℤ)) ^ (n - 1) = ((W : ℤ)) ^ (n - 2) * W := by
          exact_mod_cast hpow1
        push_cast [Nat.cast_sub hs3ge]
        rw [hpz]
        ring
      exact_mod_cast h1
    refine ⟨?_, ?_, ?_, ?_, ?_⟩
    · show qhat - 1 = X / VN
      rw [← hqtd, hqeq]
      exact Nat.succ_sub_one qt
    · show toNat ((ad.1 ++ [s3 % W, win.getD n 0]).take n) = X % VN
      rw [htake, hvalfin]
    · intro w hw2
      rcases List.mem_append.mp hw2 with h | h
      · exact haw w h
      · rcases List.mem_cons.mp h with h3 | h3
        · rw [h3]; exact Nat.mod_lt _ hW
        · rw [List.mem_singleton.mp h3]; exact hu2w
    · show (ad.1 ++ [s3 % W, win.getD n 0]).length = n + 1
      rw [List.length_append, hal]
      simp
      omega
    · show qhat - 1 < W
      omega
  · -- no correction: the estimate was exact
    rw [if_neg hc2p] at ht1z
    rw [if_neg hc2p, if_neg (by omega)]
    have hkey : (X : ℤ) - (qhat : ℤ) * VN
        = (toNat S : ℤ) + (t0 : ℤ) * ((W : ℤ)) ^ (n - 2)
          + (t1 : ℤ) * (((W : ℤ)) ^ (n - 2) * W) := by
      linear_combination (-1 : ℤ) * hXsp + (qhat : ℤ) * hVsp - hsv
        + ((W : ℤ)) ^ (n - 2) * hqrz - ((W : ℤ)) ^ (n - 2) * hrsplit
        - ((W : ℤ)) ^ (n - 2) * ht0z - (((W : ℤ)) ^ (n - 2) * W) * ht1z
    have hnn : (0 : ℤ) ≤ (X : ℤ) - (qhat : ℤ) * VN := by
      rw [hkey]
      positivity
    have hqeq : qhat = qt := by
      have h1 : qhat * VN ≤ X := by
        have h2 : (qhat : ℤ) * VN ≤ X := by linarith
        exact_mod_cast h2
      have h3 : qhat ≤ qt := by
        rw [hqtd]
        exact (Nat.le_div_iff_mul_le hVNpos).mpr h1
      omega
    have hvalfin : toNat (S ++ [t0, t1]) = X % VN := by
      have h1 : (toNat (S ++ [t0, t1]) : ℤ) = ((X % VN : Nat) : ℤ) := by
        have hYz1 : ((X % VN : Nat) : ℤ) + (VN : ℤ) * qt = X := by
          exact_mod_cast hYd
        have hqz : (qhat : ℤ) = (qt : ℤ) := by exact_mod_cast hqeq
        rw [toNat_append, hsl, hltw]
        have h2 : toNat [t0, t1] = t0 + W * t1 := by
          rw [toNat_cons, toNat_cons, toNat_nil, Nat.mul_zero, Nat.add_zero]
        rw [h2]
        push_cast
        push_cast at hYz1
        linear_combination (-1 : ℤ) * hkey - hYz1 - (VN : ℤ) * hqz
      exact_mod_cast h1
    have htake : ((S ++ [t0, t1, win.getD n 0]).take n) = S ++ [t0, t1] := by
      rw [List.take_append_eq_append_take, List.take_of_length_le (by rw [hsl, hltw]; omega),
        hsl, hltw, show n - (n - 2) = 2 by omega]
      rfl
    refine ⟨?_, ?_, ?_, ?_, ?_⟩
    · show qhat = X / VN
      rw [← hqtd, hqeq]
    · show toNat ((S ++ [t0, t1, win.getD n 0]).take n) = X % VN
      rw [htake, hvalfin]
    · intro w hw2
      rcases List.mem_append.mp hw2 with h | h
      · exact hsw w h
      · rcases List.mem_cons.mp h with h3 | h3
        · rw [h3]; exact ht0W
        · rcases List.mem_cons.mp h3 with h4 | h4
          · rw [h4]; exact ht1W
          · rw [List.mem_singleton.mp h4]; exact hu2w
    · show (S ++ [t0, t1, win.getD n 0]).length = n + 1
      rw [List.length_append, hsl, hltw]
      simp
      omega
    · show qhat < W
      exact hqhatW

theorem knuthStep_spec (d win : List Nat) (hwd : wf d) (hd3 : 3 ≤ d.length)
    (htw : 2 ^ 63 ≤ d.getD (d.length - 1) 0)
    (hww : wf win) (hwl : win.length = d.length + 1)
    (hX : toNat win < toNat d * W) :
    (knuthStep d win).1 = toNat win / toNat d
    ∧ toNat ((knuthStep d win).2.take d.length) = toNat win % toNat d
    ∧ wf (knuthStep d win).2 ∧ (knuthStep d win).2.length = d.length + 1
    ∧ (knuthStep d win).1 < W := by
  obtain ⟨hd1, hdv, hlb, hub, htwT, hT2lt⟩ := divisorPrefix_facts d hwd hd3 htw
  set n := d.length with hn
  set VN := toNat d with hVN
  set X := toNat win with hXd
  set T2 := VN / W ^ (n - 2) with hT2
  have hW := W_pos
  have hVNlt : VN < W ^ n := by rw [hVN, hn]; exact toNat_lt d hwd
  have hXn1 : X < W ^ (n + 1) := by
    calc X < VN * W := hX
    _ ≤ W ^ n * W := Nat.mul_le_mul_right W (le_of_lt hVNlt)
    _ = W ^ (n + 1) := (pow_succ W n).symm
  have hpow1 : W ^ (n - 1) = W ^ (n - 2) * W := by
    rw [← pow_succ]
    congr 1
    omega
  have hpown : W ^ n = W ^ (n - 1) * W := by
    rw [← pow_succ]
    congr 1
    omega
  have hu2 : win.getD n 0 = X / W ^ n := by
    rw [getD_eq_value win hww, ← hXd]
    apply Nat.mod_eq_of_lt
    rw [Nat.div_lt_iff_lt_mul (pow_pos W_pos _), ← pow_succ']
    exact hXn1
  have hu1 : win.getD (n - 1) 0 = X / W ^ (n - 1) % W := by
    rw [getD_eq_value win hww, ← hXd]
  have hu0 : win.getD (n - 2) 0 = X / W ^ (n - 2) % W := by
    rw [getD_eq_value win hww, ← hXd]
  have htop2 : win.getD n 0 * W + win.getD (n - 1) 0 = X / W ^ (n - 1) := by
    rw [hu2, hu1]
    have h1 : X / W ^ n = X / W ^ (n - 1) / W := by
      rw [Nat.div_div_eq_div_mul, ← hpown]
    rw [h1]
    have h2 := Nat.div_add_mod (X / W ^ (n - 1)) W
    have h3 : X / W ^ (n - 1) / W * W = W * (X / W ^ (n - 1) / W) :=
      Nat.mul_comm _ _
    omega
  have htop3 : X / W ^ (n - 1) * W + win.getD (n - 2) 0 = X / W ^ (n - 2) := by
    rw [hu0]
    have h1 : X / W ^ (n - 1) = X / W ^ (n - 2) / W := by
      rw [Nat.div_div_eq_div_mul, ← hpow1]
    rw [h1]
    have h2 := Nat.div_add_mod (X / W ^ (n - 2)) W
    have h3 : X / W ^ (n - 2) / W * W = W * (X / W ^ (n - 2) / W) :=
      Nat.mul_comm _ _
    omega
  by_cases hcond : win.getD n 0 * W + win.getD (n - 1) 0
      = d.getD (n - 1) 0 * W + d.getD (n - 2) 0
  · have hse : knuthStep d win = knuthStepOv d win := by
      simp only [knuthStep]
      rw [if_pos hcond]
    have hov : X / W ^ (n - 1) = T2 := by
      rw [← htop2, hcond, hdv]
    rw [hse]
    exact knuthStepOv_spec d win hwd hd3 htw hww hwl hX hov
  · have hse : knuthStep d win
        = knuthStepEst d win
          (((win.getD n 0 * W + win.getD (n - 1) 0) * W + win.getD (n - 2) 0)
            / (d.getD (n - 1) 0 * W + d.getD (n - 2) 0))
          (((win.getD n 0 * W + win.getD (n - 1) 0) * W + win.getD (n - 2) 0)
            % (d.getD (n - 1) 0 * W + d.getD (n - 2) 0)) := by
      simp only [knuthStep]
      rw [if_neg hcond]
    have hnum : (win.getD n 0 * W + win.getD (n - 1) 0) * W
        + win.getD (n - 2) 0 = X / W ^ (n - 2) := by
      rw [htop2, htop3]
    have hT2pos : 0 < T2 := by
      have h1 : W ≤ T2 := by
        calc W = 1 * W := (Nat.one_mul W).symm
        _ ≤ 2 ^ 63 * W := Nat.mul_le_mul_right W (by norm_num)
        _ ≤ T2 := htwT
      omega
    have hU2 : X / W ^ (n - 1) < T2 := by
      have h1 : X / W ^ (n - 1) ≠ T2 := by
        intro hc
        exact hcond (by rw [htop2, hc, hdv])
      have h2 : X / W ^ (n - 1) < T2 + 1 := by
        rw [Nat.div_lt_iff_lt_mul (pow_pos W_pos _)]
        calc X < VN * W := hX
        _ ≤ W ^ (n - 2) * (T2 + 1) * W := Nat.mul_le_mul_right W (le_of_lt hub)
        _ = (T2 + 1) * W ^ (n - 1) := by rw [hpow1]; ring
      omega
    rw [hse, hnum, hdv]
    exact knuthStepEst_spec d win (X / W ^ (n - 2) / T2) (X / W ^ (n - 2) % T2)
      hwd hd3 htw hww hwl hX hU2
      (Nat.div_add_mod' (X / W ^ (n - 2)) T2).symm (Nat.mod_lt _ hT2pos)

theorem knuthGo_spec (d : List Nat) (hwd : wf d) (hd3 : 3 ≤ d.length)
    (htw : 2 ^ 63 ≤ d.getD (d.length - 1) 0) :
    ∀ (c : Nat) (u : List Nat), wf u → c + d.length ≤ u.length →
    toNat (u.take (c + d.length)) < toNat d * W ^ c →
    toNat (knuthGo d c u).1 = toNat (u.take (c + d.length)) / toNat d
    ∧ toNat ((knuthGo d c u).2.take d.length)
        = toNat (u.take (c + d.length)) % toNat d
    ∧ wf (knuthGo d c u).1 ∧ (knuthGo d c u).1.length = c
    ∧ wf (knuthGo d c u).2 ∧ (knuthGo d c u).2.length = u.length := by
  have hVNpos : 0 < toNat d := by
    obtain ⟨-, -, hlb, -, htwT, -⟩ := divisorPrefix_facts d hwd hd3 htw
    have h1 : 0 < W ^ (d.length - 2) * (toNat d / W ^ (d.length - 2)) :=
      Nat.mul_pos (pow_pos W_pos _) (by
        have : 0 < 2 ^ 63 * W := Nat.mul_pos (by norm_num) W_pos
        omega)
    omega
  intro c
  induction c with
  | zero =>
    intro u hwu hlen hinv
    rw [pow_zero, Nat.mul_one] at hinv
    refine ⟨?_, ?_, ?_, rfl, hwu, rfl⟩
    · show toNat ([] : List Nat) = toNat (u.take (0 + d.length)) / toNat d
      rw [toNat_nil, Nat.div_eq_of_lt (by rwa [Nat.zero_add] at hinv ⊢)]
    · show toNat (u.take d.length) = toNat (u.take (0 + d.length)) % toNat d
      rw [Nat.zero_add] at hinv ⊢
      rw [Nat.mod_eq_of_lt hinv]
    · show wf ([] : List Nat)
      intro w hw
      cases hw
  | succ c ih =>
    intro u hwu hlen hinv
    set n := d.length with hn
    set VN := toNat d with hVN
    -- the current window
    set win := (u.drop c).take (n + 1) with hwin
    have hwwin : wf win := wf_take _ _ (wf_drop _ _ hwu)
    have hlwin : win.length = n + 1 := by
      rw [hwin, List.length_take, List.length_drop]
      omega
    have hsplit : u.take (c + 1 + n) = u.take c ++ win := by
      rw [show c + 1 + n = c + (n + 1) by omega, List.take_add]
    have hltc : (u.take c).length = c := by
      rw [List.length_take]
      omega
    have hvsplit : toNat (u.take (c + 1 + n))
        = toNat (u.take c) + W ^ c * toNat win := by
      rw [hsplit, toNat_append, hltc]
    have hLlt : toNat (u.take c) < W ^ c := by
      have := toNat_lt _ (wf_take u c hwu)
      rwa [hltc] at this
    set X := toNat win with hX
    have hXw : X < VN * W := by
      have h1 : W ^ c * X < VN * W ^ (c + 1) := by
        have h2 := hinv
        rw [hvsplit] at h2
        omega
      have h3 : VN * W ^ (c + 1) = W ^ c * (VN * W) := by
        rw [pow_succ]
        ring
      rw [h3] at h1
      exact Nat.lt_of_mul_lt_mul_left h1
    obtain ⟨hq, hr, hw2, hl2, hqW⟩ := knuthStep_spec d win hwd hd3 htw hwwin
      hlwin hXw
    set st := knuthStep d win with hst
    -- write the window back
    set u2 := u.take c ++ st.2 ++ u.drop (c + n + 1) with hu2
    have hwu2 : wf u2 := by
      intro w hw3
      rcases List.mem_append.mp hw3 with h | h
      · rcases List.mem_append.mp h with h4 | h4
        · exact hwu w (List.mem_of_mem_take h4)
        · exact hw2 w h4
      · exact hwu w (List.mem_of_mem_drop h)
    have hlu2 : u2.length = u.length := by
      rw [hu2, List.length_append, List.length_append, hltc, hl2,
        List.length_drop]
      omega
    have hu2take : u2.take (c + n) = u.take c ++ st.2.take n := by
      rw [hu2, List.append_assoc, List.take_append_eq_append_take, hltc,
        List.take_of_length_le (by rw [hltc]; omega),
        show c + n - c = n by omega, List.take_append_eq_append_take, hl2,
        show n - (n + 1) = 0 by omega, List.take_zero, List.append_nil]
    have hvu2 : toNat (u2.take (c + n))
        = toNat (u.take c) + W ^ c * (X % VN) := by
      rw [hu2take, toNat_append, hltc, hr]
    have hinv2 : toNat (u2.take (c + n)) < VN * W ^ c := by
      rw [hvu2]
      have h1 : X % VN < VN := Nat.mod_lt _ hVNpos
      have h2 : W ^ c * (X % VN) ≤ W ^ c * (VN - 1) :=
        Nat.mul_le_mul_left _ (by omega)
      have h3 : W ^ c * (VN - 1) + W ^ c = W ^ c * VN := by
        have h4 : VN - 1 + 1 = VN := by omega
        calc W ^ c * (VN - 1) + W ^ c = W ^ c * ((VN - 1) + 1) := by ring
        _ = W ^ c * VN := by rw [h4]
      have h5 : W ^ c * VN = VN * W ^ c := Nat.mul_comm _ _
      omega
    obtain ⟨ihq, ihr, ihqw, ihql, ihrw, ihrl⟩ := ih u2 hwu2
      (by rw [hlu2]; omega) hinv2
    have hse : knuthGo d (c + 1) u
        = ((knuthGo d c u2).1 ++ [st.1], (knuthGo d c u2).2) := rfl
    -- the division identity for the extended prefix
    have hXdm : X = X % VN + VN * (X / VN) := (Nat.mod_add_div _ _).symm
    have hudecomp : toNat (u.take (c + 1 + n))
        = toNat (u2.take (c + n)) + (W ^ c * (X / VN)) * VN := by
      rw [hvsplit, hvu2]
      calc toNat (u.take c) + W ^ c * X
          = toNat (u.take c) + W ^ c * (X % VN + VN * (X / VN)) := by
            rw [← hXdm]
      _ = toNat (u.take c) + W ^ c * (X % VN) + W ^ c * (X / VN) * VN := by
            ring
    refine ⟨?_, ?_, ?_, ?_, ?_, ?_⟩
    · rw [hse]
      show toNat ((knuthGo d c u2).1 ++ [st.1])
        = toNat (u.take (c + 1 + n)) / VN
      rw [toNat_append, ihql, hudecomp,
        Nat.add_mul_div_right _ _ hVNpos, ihq]
      congr 1
      · show W ^ c * toNat [st.1] = W ^ c * (X / VN)
        rw [toNat_cons, toNat_nil, Nat.mul_zero, Nat.add_zero, hq]
    · rw [hse, hudecomp, Nat.add_mul_mod_self_right]
      exact ihr
    · rw [hse]
      intro w hw3
      rcases List.mem_append.mp hw3 with h | h
      · exact ihqw w h
      · rw [List.mem_singleton.mp h]
        exact hqW
    · rw [hse]
      rw [List.length_append, ihql]
      simp
    · rw [hse]
      exact ihrw
    · rw [hse]
      rw [ihrl, hlu2]

/-- `udivrem` (`intx.hpp` lines 820–856) on word lists.  `normalize`
(lines 649–693) finds the significant word counts `m`, `n`, the shift,
the shifted divisor and the extended shifted numerator, then adjusts `m`
(`if (un[m] != 0 || un[m - 1] >= vn[n - 1]) ++m`).  The quotient returned
on the `by1`/`by2` paths is `na.numerator`, i.e. the digit words written
by the loop followed by the untouched upper words of the shifted
numerator (`un.drop m`), truncated to `num_words`. -/
def udivremT (u v : List Nat) : List Nat × List Nat :=
  let nw := u.length
  let m0 := sig u
  let n := sig v
  let s := clz64 (v.getD (n - 1) 0)
  let vn := if s = 0 then v else nshl s 0 v
  let un := normNumEx u s
  let m := if un.getD m0 0 ≠ 0 ∨ vn.getD (n - 1) 0 ≤ un.getD (m0 - 1) 0
    then m0 + 1 else m0
  if m ≤ n then (zeros nw, u)
  else if n = 1 then
    let p := udivremBy1 (un.take m) (vn.getD 0 0)
    ((p.1 ++ un.drop m).take nw, fromNat nw (p.2 >>> s))
  else if n = 2 then
    let p := udivremBy2 (un.take m) (vn.getD 1 0 * W + vn.getD 0 0)
    ((p.1 ++ un.drop m).take nw, fromNat nw (p.2 >>> s))
  else
    let r := knuthGo (vn.take n) (m - n) (un.take m)
    (r.1 ++ zeros (nw - (m - n)), denorm (r.2.take n) s ++ zeros (nw - n))

/-- Facts established by `normalize` about the shift: it is a proper bit
count, the shifted divisor still fits its significant words, and its top
word gains the leading one-bit (`≥ 2^63`). -/
theorem norm_shift_facts (v : List Nat) (hwv : wf v) (hv : 0 < toNat v) :
    clz64 (v.getD (sig v - 1) 0) < 64
    ∧ toNat v * 2 ^ clz64 (v.getD (sig v - 1) 0) < W ^ sig v
    ∧ 2 ^ 63 ≤ toNat v * 2 ^ clz64 (v.getD (sig v - 1) 0) / W ^ (sig v - 1)
    := by
  set n := sig v with hnd
  have hn1 : 1 ≤ n := by
    rcases Nat.eq_zero_or_pos (sig v) with h0 | h
    · rw [(sig_zero_iff v).mp h0] at hv
      omega
    · exact h
  set t := toNat v / W ^ (n - 1) with htd
  have hW := W_pos
  have hvlt : toNat v < W ^ n := toNat_lt_sig v hwv
  have hvge : W ^ (n - 1) ≤ toNat v := sig_lower v (by omega)
  have htge : 1 ≤ t := by
    rw [htd]
    exact (Nat.one_le_div_iff (pow_pos W_pos _)).mpr hvge
  have htlt : t < W := by
    rw [htd, Nat.div_lt_iff_lt_mul (pow_pos W_pos _), ← pow_succ',
      show n - 1 + 1 = n by omega]
    exact hvlt
  have htgd : v.getD (n - 1) 0 = t := by
    rw [getD_eq_value v hwv, ← htd, Nat.mod_eq_of_lt htlt]
  set s := clz64 (v.getD (n - 1) 0) with hsd
  obtain ⟨hs64, hts1, hts2⟩ := clz64_spec (v.getD (n - 1) 0)
    (by rw [htgd]; omega) (by rw [htgd]; exact htlt)
  rw [htgd] at hts1 hts2 hsd
  rw [← hsd] at hts1 hts2
  have h2sW : 2 ^ s ≤ W := by
    calc 2 ^ s ≤ t * 2 ^ s := Nat.le_mul_of_pos_left _ (by omega)
    _ ≤ W := le_of_lt hts2
  have hts3 : t * 2 ^ s ≤ W - 2 ^ s := by
    have hWsp : W = 2 ^ (64 - s) * 2 ^ s := by
      rw [W, ← pow_add]
      congr 1
      omega
    have h2 : t < 2 ^ (64 - s) := by
      by_contra hc
      push_neg at hc
      have h3 : 2 ^ (64 - s) * 2 ^ s ≤ t * 2 ^ s :=
        Nat.mul_le_mul_right _ hc
      rw [← hWsp] at h3
      omega
    have h3 : t * 2 ^ s ≤ (2 ^ (64 - s) - 1) * 2 ^ s :=
      Nat.mul_le_mul_right _ (by omega)
    have h4 : (2 ^ (64 - s) - 1) * 2 ^ s = 2 ^ (64 - s) * 2 ^ s - 2 ^ s := by
      rw [Nat.sub_mul, Nat.one_mul]
    rw [hWsp]
    omega
  set Av := toNat v % W ^ (n - 1) with hAvd
  have hAvlt : Av < W ^ (n - 1) := Nat.mod_lt _ (pow_pos W_pos _)
  have hvsplit : Av + W ^ (n - 1) * t = toNat v := Nat.mod_add_div _ _
  have hVNn : toNat v * 2 ^ s < W ^ n := by
    rw [← hvsplit]
    have e1 : (Av + W ^ (n - 1) * t) * 2 ^ s
        = Av * 2 ^ s + W ^ (n - 1) * (t * 2 ^ s) := by ring
    have e2 : Av * 2 ^ s < W ^ (n - 1) * 2 ^ s :=
      (Nat.mul_lt_mul_right (Nat.two_pow_pos s)).mpr hAvlt
    have e3 : W ^ (n - 1) * (t * 2 ^ s) ≤ W ^ (n - 1) * (W - 2 ^ s) :=
      Nat.mul_le_mul_left _ hts3
    have e4 : W ^ (n - 1) * 2 ^ s + W ^ (n - 1) * (W - 2 ^ s) = W ^ n := by
      rw [← Nat.mul_add, show 2 ^ s + (W - 2 ^ s) = W by omega, ← pow_succ,
        show n - 1 + 1 = n by omega]
    omega
  refine ⟨hs64, hVNn, ?_⟩
  have h1 : toNat v * 2 ^ s = Av * 2 ^ s + W ^ (n - 1) * (t * 2 ^ s) := by
    rw [← hvsplit]
    ring
  have h2 : toNat v * 2 ^ s / W ^ (n - 1)
      = Av * 2 ^ s / W ^ (n - 1) + t * 2 ^ s := by
    rw [h1, Nat.add_mul_div_left _ _ (pow_pos W_pos _)]
  rw [h2]
  exact le_trans hts1 (Nat.le_add_left _ _)

set_option maxHeartbeats 3200000 in
theorem udivremT_spec (u v : List Nat) (hwu : wf u) (hwv : wf v)
    (hlen : v.length = u.length) (hv : 0 < toNat v) :
    toNat (udivremT u v).1 = toNat u / toNat v
    ∧ toNat (udivremT u v).2 = toNat u % toNat v
    ∧ wf (udivremT u v).1 ∧ (udivremT u v).1.length = u.length
    ∧ wf (udivremT u v).2 ∧ (udivremT u v).2.length = u.length := by
  obtain ⟨hs64, hVNn0, hVNtop0⟩ := norm_shift_facts v hwv hv
  set nw := u.length with hnw
  set m0 := sig u with hm0d
  set n := sig v with hnd
  set s := clz64 (v.getD (n - 1) 0) with hsd
  set vn := if s = 0 then v else nshl s 0 v with hvnd
  set un := normNumEx u s with hund
  set m := if un.getD m0 0 ≠ 0 ∨ vn.getD (n - 1) 0 ≤ un.getD (m0 - 1) 0
    then m0 + 1 else m0 with hmd
  set VN := toNat v * 2 ^ s with hVNd
  set UN := toNat u * 2 ^ s with hUNd
  have hW := W_pos
  have hn1 : 1 ≤ n := by
    rcases Nat.eq_zero_or_pos (sig v) with h0 | h
    · rw [(sig_zero_iff v).mp h0] at hv
      omega
    · exact h
  have hnnw : n ≤ nw := by rw [hnd, ← hlen]; exact sig_le v
  have hm0nw : m0 ≤ nw := by rw [hm0d, hnw]; exact sig_le u
  have hnw1 : 1 ≤ nw := by omega
  have hVNpos : 0 < VN := Nat.mul_pos hv (Nat.two_pow_pos s)
  have h2s63 : (2:Nat) ^ s ≤ 2 ^ 63 :=
    Nat.pow_le_pow_right (by norm_num) (by omega)
  -- the normalized divisor
  have hvnfacts : toNat vn = VN ∧ wf vn ∧ vn.length = nw := by
    by_cases h0 : s = 0
    · rw [hvnd, if_pos h0]
      refine ⟨?_, hwv, by rw [hlen]⟩
      rw [hVNd, h0, pow_zero, Nat.mul_one]
    · rw [hvnd, if_neg h0]
      obtain ⟨h1, h2, h3⟩ := nshl_spec s (by omega) hs64 v hwv
      refine ⟨?_, h2, by rw [h3, hlen]⟩
      rw [h1, ← hVNd]
      apply Nat.mod_eq_of_lt
      calc VN < W ^ n := hVNn0
      _ ≤ W ^ v.length := Nat.pow_le_pow_right hW (by rw [hnd]; exact sig_le v)
  obtain ⟨hvnv, hvnw, hvnl⟩ := hvnfacts
  have hVNlt : VN < W ^ n := hVNn0
  have hvntop : vn.getD (n - 1) 0 = VN / W ^ (n - 1) := by
    rw [getD_eq_value vn hvnw, hvnv]
    apply Nat.mod_eq_of_lt
    rw [Nat.div_lt_iff_lt_mul (pow_pos W_pos _), ← pow_succ',
      show n - 1 + 1 = n by omega]
    exact hVNlt
  -- the extended shifted numerator
  obtain ⟨hunv, hunw, hunl⟩ := normNumEx_spec u s hwu (by omega) hs64
  rw [← hund] at hunv hunw hunl
  rw [← hUNd] at hunv
  rw [← hnw] at hunl
  have hUNlt : UN < W ^ (m0 + 1) := by
    rw [hUNd, pow_succ]
    calc toNat u * 2 ^ s < W ^ m0 * 2 ^ s :=
          (Nat.mul_lt_mul_right (Nat.two_pow_pos s)).mpr (toNat_lt_sig u hwu)
    _ ≤ W ^ m0 * W := Nat.mul_le_mul_left _ (by
          calc (2:Nat) ^ s ≤ 2 ^ 63 := h2s63
          _ ≤ W := by rw [W]; norm_num)
  have hungetD : ∀ i, un.getD i 0 = UN / W ^ i % W := fun i => by
    rw [getD_eq_value un hunw i, hunv]
  have hmrange : m = m0 ∨ m = m0 + 1 := by
    rw [hmd]
    split
    · right; rfl
    · left; rfl
  -- facts available when the top word is not skipped
  have hnotcondfacts :
      ¬(un.getD m0 0 ≠ 0 ∨ vn.getD (n - 1) 0 ≤ un.getD (m0 - 1) 0) →
      UN < W ^ m0 ∧ UN / W ^ (m0 - 1) < VN / W ^ (n - 1) := by
    intro hc
    push_neg at hc
    obtain ⟨h1, h2⟩ := hc
    have hUN0 : UN / W ^ m0 = 0 := by
      have ha := hungetD m0
      have hb : UN / W ^ m0 < W := by
        rw [Nat.div_lt_iff_lt_mul (pow_pos W_pos _), ← pow_succ']
        exact hUNlt
      rw [ha, Nat.mod_eq_of_lt hb] at h1
      exact h1
    have hUNm0 : UN < W ^ m0 := (Nat.div_eq_zero_iff (pow_pos W_pos m0)).mp hUN0
    refine ⟨hUNm0, ?_⟩
    have ha := hungetD (m0 - 1)
    have hb : UN / W ^ (m0 - 1) < W := by
      rw [Nat.div_lt_iff_lt_mul (pow_pos W_pos _)]
      calc UN < W ^ m0 := hUNm0
      _ ≤ W * W ^ (m0 - 1) := by
            rw [← pow_succ']
            exact Nat.pow_le_pow_right hW (by omega)
    rw [ha, Nat.mod_eq_of_lt hb] at h2
    rw [hvntop] at h2
    exact h2
  -- window bound: the numerator fits m - n digit steps
  have hbound : n < m → UN < VN * W ^ (m - n) := by
    intro hnm
    by_cases hc : un.getD m0 0 ≠ 0 ∨ vn.getD (n - 1) 0 ≤ un.getD (m0 - 1) 0
    · have hm : m = m0 + 1 := by rw [hmd, if_pos hc]
      have h1 : UN < W ^ m0 * 2 ^ s := by
        rw [hUNd]
        exact (Nat.mul_lt_mul_right (Nat.two_pow_pos s)).mpr (toNat_lt_sig u hwu)
      have h3 : W ^ (n - 1) * 2 ^ 63 ≤ VN := by
        calc W ^ (n - 1) * 2 ^ 63 ≤ W ^ (n - 1) * (VN / W ^ (n - 1)) :=
              Nat.mul_le_mul_left _ hVNtop0
        _ ≤ VN := Nat.mul_div_le VN _
      have hexp : W ^ (n - 1) * W ^ (m - n) = W ^ m0 := by
        rw [← pow_add]
        congr 1
        omega
      calc UN < W ^ m0 * 2 ^ s := h1
      _ ≤ W ^ m0 * 2 ^ 63 := Nat.mul_le_mul_left _ h2s63
      _ = (W ^ (n - 1) * 2 ^ 63) * W ^ (m - n) := by rw [← hexp]; ring
      _ ≤ VN * W ^ (m - n) := Nat.mul_le_mul_right _ h3
    · have hm : m = m0 := by rw [hmd, if_neg hc]
      obtain ⟨hUNm0, htopcmp⟩ := hnotcondfacts hc
      have hm01 : 1 ≤ m0 := by omega
      have h1 : UN < W ^ (m0 - 1) * (UN / W ^ (m0 - 1) + 1) := by
        have ha := Nat.div_add_mod UN (W ^ (m0 - 1))
        have h2 : UN % W ^ (m0 - 1) < W ^ (m0 - 1) :=
          Nat.mod_lt _ (pow_pos W_pos _)
        have h3 : W ^ (m0 - 1) * (UN / W ^ (m0 - 1) + 1)
            = W ^ (m0 - 1) * (UN / W ^ (m0 - 1)) + W ^ (m0 - 1) := by ring
        omega
      have hexp : W ^ (m0 - 1) = W ^ (m - n) * W ^ (n - 1) := by
        rw [← pow_add]
        congr 1
        omega
      calc UN < W ^ (m0 - 1) * (UN / W ^ (m0 - 1) + 1) := h1
      _ ≤ W ^ (m0 - 1) * (VN / W ^ (n - 1)) := Nat.mul_le_mul_left _ htopcmp
      _ = W ^ (m - n) * (W ^ (n - 1) * (VN / W ^ (n - 1))) := by
            rw [hexp]
            ring
      _ ≤ W ^ (m - n) * VN := Nat.mul_le_mul_left _ (Nat.mul_div_le VN _)
      _ = VN * W ^ (m - n) := Nat.mul_comm _ _
  -- the early-return branch only fires when the numerator is smaller
  have hulv : m ≤ n → toNat u < toNat v := by
    intro hmn
    by_cases hc : un.getD m0 0 ≠ 0 ∨ vn.getD (n - 1) 0 ≤ un.getD (m0 - 1) 0
    · have hm : m = m0 + 1 := by rw [hmd, if_pos hc]
      have h1 : m0 < n := by omega
      calc toNat u < W ^ m0 := toNat_lt_sig u hwu
      _ ≤ W ^ (n - 1) := Nat.pow_le_pow_right hW (by omega)
      _ ≤ toNat v := sig_lower v (by omega)
    · have hm : m = m0 := by rw [hmd, if_neg hc]
      obtain ⟨hUNm0, htopcmp⟩ := hnotcondfacts hc
      rcases Nat.lt_or_ge m0 n with h1 | h1
      · calc toNat u < W ^ m0 := toNat_lt_sig u hwu
        _ ≤ W ^ (n - 1) := Nat.pow_le_pow_right hW (by omega)
        _ ≤ toNat v := sig_lower v (by omega)
      · have hm0n : m0 = n := by omega
        have hm01 : 1 ≤ m0 := by omega
        have hUNVN : UN < VN := by
          have h2 : UN < W ^ (m0 - 1) * (UN / W ^ (m0 - 1) + 1) := by
            have ha := Nat.div_add_mod UN (W ^ (m0 - 1))
            have h3 : UN % W ^ (m0 - 1) < W ^ (m0 - 1) :=
              Nat.mod_lt _ (pow_pos W_pos _)
            have h4 : W ^ (m0 - 1) * (UN / W ^ (m0 - 1) + 1)
                = W ^ (m0 - 1) * (UN / W ^ (m0 - 1)) + W ^ (m0 - 1) := by ring
            omega
          calc UN < W ^ (m0 - 1) * (UN / W ^ (m0 - 1) + 1) := h2
          _ ≤ W ^ (m0 - 1) * (VN / W ^ (n - 1)) := Nat.mul_le_mul_left _ htopcmp
          _ = W ^ (n - 1) * (VN / W ^ (n - 1)) := by rw [hm0n]
          _ ≤ VN := Nat.mul_div_le VN _
        have h5 : toNat u * 2 ^ s < toNat v * 2 ^ s := by
          rw [← hUNd, ← hVNd]
          exact hUNVN
        exact (Nat.mul_lt_mul_right (Nat.two_pow_pos s)).mp h5
  -- the definitional unfolding
  have hse : udivremT u v
      = (if m ≤ n then (zeros nw, u)
         else if n = 1 then
           (((udivremBy1 (un.take m) (vn.getD 0 0)).1 ++ un.drop m).take nw,
            fromNat nw ((udivremBy1 (un.take m) (vn.getD 0 0)).2 >>> s))
         else if n = 2 then
           (((udivremBy2 (un.take m)
               (vn.getD 1 0 * W + vn.getD 0 0)).1 ++ un.drop m).take nw,
            fromNat nw ((udivremBy2 (un.take m)
               (vn.getD 1 0 * W + vn.getD 0 0)).2 >>> s))
         else
           ((knuthGo (vn.take n) (m - n) (un.take m)).1
              ++ zeros (nw - (m - n)),
            denorm ((knuthGo (vn.take n) (m - n) (un.take m)).2.take n) s
              ++ zeros (nw - n))) := rfl
  rw [hse]
  by_cases hmn : m ≤ n
  · rw [if_pos hmn]
    have hult := hulv hmn
    refine ⟨?_, ?_, wf_zeros nw, length_zeros nw, hwu, rfl⟩
    · show toNat (zeros nw) = toNat u / toNat v
      rw [toNat_zeros, Nat.div_eq_of_lt hult]
    · show toNat u = toNat u % toNat v
      rw [Nat.mod_eq_of_lt hult]
  · push_neg at hmn
    rw [if_neg (by omega)]
    have hb := hbound hmn
    have hmle : m ≤ nw + 1 := by rcases hmrange with h | h <;> omega
    have hUNltm : UN < W ^ m := by
      calc UN < VN * W ^ (m - n) := hb
      _ ≤ W ^ n * W ^ (m - n) := Nat.mul_le_mul_right _ (le_of_lt hVNlt)
      _ = W ^ m := by
            rw [← pow_add]
            congr 1
            omega
    have hwtun : wf (un.take m) := wf_take _ _ hunw
    have hltun : (un.take m).length = m := by
      rw [List.length_take, hunl]
      omega
    have htakeun : toNat (un.take m) = UN := by
      rw [toNat_take_eq_mod un m hunw (by rw [hunl]; omega), hunv,
        Nat.mod_eq_of_lt hUNltm]
    have hUNdiv0 : UN / W ^ m = 0 := Nat.div_eq_of_lt hUNltm
    have hdropz : un.drop m = zeros (nw + 1 - m) := by
      have h1 : toNat (un.drop m) = 0 := by
        rw [toNat_drop_eq_div un m hunw (by rw [hunl]; omega), hunv, hUNdiv0]
      have h2 := eq_zeros_of_toNat_eq_zero (un.drop m) h1
      rwa [List.length_drop, hunl] at h2
    have hdivscale : UN / VN = toNat u / toNat v := by
      rw [hUNd, hVNd, Nat.mul_div_mul_right _ _ (Nat.two_pow_pos s)]
    have hmodscale : UN % VN = toNat u % toNat v * 2 ^ s := by
      rw [hUNd, hVNd, Nat.mul_mod_mul_right]
    have hqlt : toNat u / toNat v < W ^ nw :=
      lt_of_le_of_lt (Nat.div_le_self _ _) (by rw [hnw]; exact toNat_lt u hwu)
    have hrlt : toNat u % toNat v < W ^ nw :=
      lt_of_le_of_lt (Nat.mod_le _ _) (by rw [hnw]; exact toNat_lt u hwu)
    have hshiftback : ∀ r : Nat, r = UN % VN →
        r >>> s = toNat u % toNat v := by
      intro r hr
      rw [hr, hmodscale, Nat.shiftRight_eq_div_pow,
        Nat.mul_div_cancel _ (Nat.two_pow_pos s)]
    by_cases hcase1 : n = 1
    · rw [if_pos hcase1]
      have hVN1 : VN < W := by
        have := hVNlt
        rwa [hcase1, pow_one] at this
      have hd0 : vn.getD 0 0 = VN := by
        rw [getD_eq_value vn hvnw 0, hvnv, pow_zero, Nat.div_one,
          Nat.mod_eq_of_lt hVN1]
      have htop : toNat (un.take m) / W ^ ((un.take m).length - 1)
          < vn.getD 0 0 := by
        rw [htakeun, hltun, hd0, Nat.div_lt_iff_lt_mul (pow_pos W_pos _)]
        calc UN < VN * W ^ (m - n) := hb
        _ = VN * W ^ (m - 1) := by rw [hcase1]
      obtain ⟨hq1, hr1, hqw1, hql1⟩ := udivremBy1_spec (un.take m)
        (vn.getD 0 0) hwtun (by rw [hltun]; omega) (by rw [hd0]; omega) htop
      rw [htakeun] at hq1 hr1
      rw [hltun] at hql1
      set p := udivremBy1 (un.take m) (vn.getD 0 0) with hpd
      have hwapp : wf (p.1 ++ un.drop m) := by
        rw [hdropz]
        exact wf_append _ _ hqw1 (wf_zeros _)
      have hlapp : (p.1 ++ un.drop m).length = nw + 1 := by
        rw [List.length_append, hql1, List.length_drop, hunl]
        omega
      have hvapp : toNat (p.1 ++ un.drop m) = toNat u / toNat v := by
        rw [toNat_append, hdropz, toNat_zeros, Nat.mul_zero, Nat.add_zero,
          hq1, hd0, hdivscale]
      refine ⟨?_, ?_, wf_take _ _ hwapp, ?_, wf_fromNat _ _, length_fromNat _ _⟩
      · show toNat ((p.1 ++ un.drop m).take nw) = toNat u / toNat v
        rw [toNat_take_eq_mod _ nw hwapp (by rw [hlapp]; omega), hvapp,
          Nat.mod_eq_of_lt hqlt]
      · show toNat (fromNat nw (p.2 >>> s)) = toNat u % toNat v
        rw [hshiftback p.2 (by rw [hr1, hd0]), toNat_fromNat _ _ hrlt]
      · show ((p.1 ++ un.drop m).take nw).length = nw
        rw [List.length_take, hlapp]
        omega
    · rw [if_neg hcase1]
      by_cases hcase2 : n = 2
      · rw [if_pos hcase2]
        have hVN2 : VN < W * W := by
          have := hVNlt
          rwa [hcase2, pow_two] at this
        have hVNW : VN / W < W := by
          rw [Nat.div_lt_iff_lt_mul hW]
          exact hVN2
        have hd0 : vn.getD 0 0 = VN % W := by
          rw [getD_eq_value vn hvnw 0, hvnv, pow_zero, Nat.div_one]
        have hd1 : vn.getD 1 0 = VN / W := by
          rw [getD_eq_value vn hvnw 1, hvnv, pow_one, Nat.mod_eq_of_lt hVNW]
        have hdv : vn.getD 1 0 * W + vn.getD 0 0 = VN := by
          rw [hd0, hd1]
          have h1 := Nat.div_add_mod VN W
          have h2 : VN / W * W = W * (VN / W) := Nat.mul_comm _ _
          omega
        have htop : toNat (un.take m) / W ^ ((un.take m).length - 2)
            < vn.getD 1 0 * W + vn.getD 0 0 := by
          rw [htakeun, hltun, hdv, Nat.div_lt_iff_lt_mul (pow_pos W_pos _)]
          calc UN < VN * W ^ (m - n) := hb
          _ = VN * W ^ (m - 2) := by rw [hcase2]
        obtain ⟨hq1, hr1, hqw1, hql1⟩ := udivremBy2_spec (un.take m)
          (vn.getD 1 0 * W + vn.getD 0 0) hwtun (by rw [hltun]; omega)
          (by rw [hdv]; omega) htop
        rw [htakeun] at hq1 hr1
        rw [hltun] at hql1
        set p := udivremBy2 (un.take m) (vn.getD 1 0 * W + vn.getD 0 0)
          with hpd
        have hwapp : wf (p.1 ++ un.drop m) := by
          rw [hdropz]
          exact wf_append _ _ hqw1 (wf_zeros _)
        have hlapp : (p.1 ++ un.drop m).length = nw + 1 := by
          rw [List.length_append, hql1, List.length_drop, hunl]
          omega
        have hvapp : toNat (p.1 ++ un.drop m) = toNat u / toNat v := by
          rw [toNat_append, hdropz, toNat_zeros, Nat.mul_zero, Nat.add_zero,
            hq1, hdv, hdivscale]
        refine ⟨?_, ?_, wf_take _ _ hwapp, ?_, wf_fromNat _ _,
          length_fromNat _ _⟩
        · show toNat ((p.1 ++ un.drop m).take nw) = toNat u / toNat v
          rw [toNat_take_eq_mod _ nw hwapp (by rw [hlapp]; omega), hvapp,
            Nat.mod_eq_of_lt hqlt]
        · show toNat (fromNat nw (p.2 >>> s)) = toNat u % toNat v
          rw [hshiftback p.2 (by rw [hr1, hdv]), toNat_fromNat _ _ hrlt]
        · show ((p.1 ++ un.drop m).take nw).length = nw
          rw [List.length_take, hlapp]
          omega
      · rw [if_neg hcase2]
        have hd3 : 3 ≤ n := by omega
        have hvtl : (vn.take n).length = n := by
          rw [List.length_take, hvnl]
          omega
        have hvtw : wf (vn.take n) := wf_take _ _ hvnw
        have hvdval : toNat (vn.take n) = VN := by
          rw [toNat_take_eq_mod vn n hvnw (by omega), hvnv,
            Nat.mod_eq_of_lt hVNlt]
        have htopw : 2 ^ 63 ≤ (vn.take n).getD ((vn.take n).length - 1) 0 := by
          rw [hvtl, getD_eq_value (vn.take n) hvtw, hvdval]
          have h1 : VN / W ^ (n - 1) < W := by
            rw [Nat.div_lt_iff_lt_mul (pow_pos W_pos _), ← pow_succ',
              show n - 1 + 1 = n by omega]
            exact hVNlt
          rw [Nat.mod_eq_of_lt h1]
          exact hVNtop0
        have hlenk : (m - n) + (vn.take n).length ≤ (un.take m).length := by
          rw [hvtl, hltun]
          omega
        have hinvk : toNat ((un.take m).take ((m - n) + (vn.take n).length))
            < toNat (vn.take n) * W ^ (m - n) := by
          rw [hvtl, show m - n + n = m by omega,
            List.take_of_length_le (by rw [hltun]), htakeun, hvdval]
          exact hb
        obtain ⟨kq, kr, kqw, kql, krw, krl⟩ := knuthGo_spec (vn.take n) hvtw
          (by rw [hvtl]; omega) (by rw [hvtl] at htopw ⊢; exact htopw)
          (m - n) (un.take m) hwtun hlenk hinvk
        have htkm : (un.take m).take m = un.take m :=
          List.take_of_length_le (le_of_eq hltun)
        rw [hvtl, show m - n + n = m by omega, htkm, htakeun, hvdval] at kq kr
        rw [hltun] at krl
        set r := knuthGo (vn.take n) (m - n) (un.take m) with hrd
        have hrtw : wf (r.2.take n) := wf_take _ _ krw
        have hrtl : (r.2.take n).length = n := by
          rw [List.length_take, krl]
          omega
        obtain ⟨hdnv, hdnw, hdnl⟩ := denorm_spec (r.2.take n) s hrtw hs64
        rw [hrtl] at hdnl
        refine ⟨?_, ?_, ?_, ?_, ?_, ?_⟩
        · show toNat (r.1 ++ zeros (nw - (m - n))) = toNat u / toNat v
          rw [toNat_append, toNat_zeros, Nat.mul_zero, Nat.add_zero, kq,
            hdivscale]
        · show toNat (denorm (r.2.take n) s ++ zeros (nw - n))
            = toNat u % toNat v
          rw [toNat_append, toNat_zeros, Nat.mul_zero, Nat.add_zero, hdnv, kr,
            hmodscale, Nat.mul_div_cancel _ (Nat.two_pow_pos s)]
        · intro w hw2
          rcases List.mem_append.mp hw2 with h | h
          · exact kqw w h
          · exact wf_zeros _ w h
        · show (r.1 ++ zeros (nw - (m - n))).length = nw
          rw [List.length_append, kql, length_zeros]
          omega
        · intro w hw2
          rcases List.mem_append.mp hw2 with h | h
          · exact hdnw w h
          · exact wf_zeros _ w h
        · show (denorm (r.2.take n) s ++ zeros (nw - n)).length = nw
          rw [List.length_append, hdnl, length_zeros]
          omega

/-- `addmod` (intx.hpp lines 1065–1069): `s = add_with_carry(x, y)`, then
`(uint512{s.carry, s.value} % mod).lo`, generalized from 4 words to
`x.length` words.  The numerator is the sum's words followed by the carry
zero-extended to the high half; the modulus is zero-extended; `%` is
`udivrem(..).rem` (intx.hpp line 882); `.lo` keeps the low half. -/
def addmodT (x y m : List Nat) : List Nat :=
  let s := addc x y false
  ((udivremT (s.1 ++ (if s.2 then 1 else 0) :: zeros (x.length - 1))
    (m ++ zeros x.length)).2).take x.length

/-- `mulmod` (intx.hpp lines 1071–1074): `(umul(x, y) % mod).lo`,
generalized from 4 words to `x.length` words. -/
def mulmodT (x y m : List Nat) : List Nat :=
  ((udivremT (umulT x y) (m ++ zeros x.length)).2).take x.length

/-- `addmod_daosvik` (test/experimental/addmod.hpp lines 38–63) on 4-word
(uint256) values.  Fast path when `m[3] != 0 && x[3] <= m[3] && y[3] <= m[3]`:
reduce each addend by one conditional subtraction, add with carry, subtract
`m` once more and select; otherwise the generic 320-bit remainder path
(`uint<320> n = s.value; n[4] = s.carry; udivrem(n, m).rem` truncated). -/
def addmodDaosvik (x y m : List Nat) : List Nat :=
  if m.getD 3 0 ≠ 0 ∧ x.getD 3 0 ≤ m.getD 3 0 ∧ y.getD 3 0 ≤ m.getD 3 0 then
    let s0 := subc x m false
    let sv := if s0.2 then x else s0.1
    let t0 := subc y m false
    let tv := if t0.2 then y else t0.1
    let s := addc sv tv false
    let t := subc s.1 m false
    if s.2 ∨ ¬ t.2 then t.1 else s.1
  else
    let s := addc x y false
    ((udivremT (s.1 ++ [if s.2 then 1 else 0]) (m ++ [0])).2).take 4

theorem carry_word_value (c : Bool) (k : Nat) :
    toNat ((if c then 1 else 0) :: zeros k) = c.toNat := by
  rw [toNat_cons, toNat_zeros, Nat.mul_zero, Nat.add_zero]
  cases c <;> rfl

theorem wf_carry_word (c : Bool) (k : Nat) :
    wf ((if c then 1 else 0) :: zeros k) := by
  intro w hw
  rcases List.mem_cons.mp hw with h | h
  · rw [h]
    cases c
    · exact W_pos
    · exact one_lt_W
  · exact wf_zeros _ w h

theorem modPipeline_spec (u m : List Nat) (hwu : wf u) (hwm : wf m)
    (hlen : m.length + (u.length - m.length) = u.length)
    (hle : m.length ≤ u.length) (hm : 0 < toNat m) :
    toNat ((udivremT u (m ++ zeros (u.length - m.length))).2.take m.length)
      = toNat u % toNat m
    ∧ wf ((udivremT u (m ++ zeros (u.length - m.length))).2.take m.length)
    ∧ ((udivremT u (m ++ zeros (u.length - m.length))).2.take m.length).length
        = m.length := by
  set D := m ++ zeros (u.length - m.length) with hD
  have hDv : toNat D = toNat m := by
    rw [hD, toNat_append, toNat_zeros, Nat.mul_zero, Nat.add_zero]
  have hDw : wf D := wf_append _ _ hwm (wf_zeros _)
  have hDl : D.length = u.length := by
    rw [hD, List.length_append, length_zeros]
    exact hlen
  obtain ⟨-, hr, -, -, hrw, hrl⟩ := udivremT_spec u D hwu hDw hDl
    (by rw [hDv]; exact hm)
  rw [hDv] at hr
  have hmod : toNat u % toNat m < W ^ m.length := by
    calc toNat u % toNat m < toNat m := Nat.mod_lt _ hm
    _ < W ^ m.length := toNat_lt m hwm
  refine ⟨?_, wf_take _ _ hrw, ?_⟩
  · rw [toNat_take_eq_mod _ _ hrw (by rw [hrl]; exact hle), hr,
      Nat.mod_eq_of_lt hmod]
  · rw [List.length_take, hrl]
    omega

theorem addmodT_spec (x y m : List Nat) (hwx : wf x) (hwy : wf y) (hwm : wf m)
    (hly : y.length = x.length) (hlm : m.length = x.length)
    (h1 : 1 ≤ x.length) (hm : 0 < toNat m) :
    toNat (addmodT x y m) = (toNat x + toNat y) % toNat m
    ∧ wf (addmodT x y m) ∧ (addmodT x y m).length = x.length := by
  obtain ⟨hsv, hsw, hsl⟩ := addc_spec x y false hwx hwy hly.symm
  set s := addc x y false with hs
  set N := s.1 ++ (if s.2 then 1 else 0) :: zeros (x.length - 1) with hN
  have hNv : toNat N = toNat x + toNat y := by
    rw [hN, toNat_append, hsl, carry_word_value]
    simp only [Bool.toNat_false, Nat.add_zero] at hsv
    exact hsv
  have hNw : wf N := wf_append _ _ hsw (wf_carry_word _ _)
  have hNl : N.length = x.length + (x.length - 1 + 1) := by
    rw [hN, List.length_append, hsl, List.length_cons, length_zeros]
  have hNlen : x.length ≤ N.length := by omega
  have hsub : N.length - x.length = x.length := by omega
  have hres : addmodT x y m
      = (udivremT N (m ++ zeros x.length)).2.take x.length := rfl
  obtain ⟨h1r, h2r, h3r⟩ := modPipeline_spec N m hNw hwm
    (by rw [hlm, hsub]; omega) (by rw [hlm]; exact hNlen) hm
  rw [hlm, hsub] at h1r h2r h3r
  rw [hres]
  exact ⟨by rw [h1r, hNv], h2r, h3r⟩

theorem mulmodT_spec (x y m : List Nat) (hwx : wf x) (hwy : wf y) (hwm : wf m)
    (hly : y.length = x.length) (hlm : m.length = x.length)
    (hp2 : pow2 x.length) (h1 : 1 ≤ x.length) (hm : 0 < toNat m) :
    toNat (mulmodT x y m) = toNat x * toNat y % toNat m
    ∧ wf (mulmodT x y m) ∧ (mulmodT x y m).length = x.length := by
  obtain ⟨hpv, hpw, hpl⟩ := umulT_spec x y hwx hwy hp2 hly.symm
  have hsub : (umulT x y).length - x.length = x.length := by omega
  have hres : mulmodT x y m
      = (udivremT (umulT x y) (m ++ zeros x.length)).2.take x.length := rfl
  obtain ⟨h1r, h2r, h3r⟩ := modPipeline_spec (umulT x y) m hpw hwm
    (by rw [hlm, hsub]; omega) (by rw [hlm]; omega) hm
  rw [hlm, hsub] at h1r h2r h3r
  rw [hres]
  exact ⟨by rw [h1r, hpv], h2r, h3r⟩

theorem top_word_le (x m : List Nat) (hwx : wf x) (hwm : wf m)
    (hlx : x.length = 4) (hlm : m.length = 4)
    (hx3 : x.getD 3 0 ≤ m.getD 3 0) :
    toNat x < toNat m + W ^ 3 := by
  have hq : toNat x / W ^ 3 ≤ toNat m / W ^ 3 := by
    have h1 : x.getD 3 0 = toNat x / W ^ 3 := by
      rw [getD_eq_value x hwx 3]
      congr 1
      apply Nat.mod_eq_of_lt
      rw [Nat.div_lt_iff_lt_mul (pow_pos W_pos 3), ← pow_succ']
      have := toNat_lt x hwx
      rwa [hlx] at this
    have h2 : m.getD 3 0 = toNat m / W ^ 3 := by
      rw [getD_eq_value m hwm 3]
      congr 1
      apply Nat.mod_eq_of_lt
      rw [Nat.div_lt_iff_lt_mul (pow_pos W_pos 3), ← pow_succ']
      have := toNat_lt m hwm
      rwa [hlm] at this
    rw [← h1, ← h2]
    exact hx3
  have hxsplit := Nat.div_add_mod (toNat x) (W ^ 3)
  have hxmod : toNat x % W ^ 3 < W ^ 3 := Nat.mod_lt _ (pow_pos W_pos 3)
  have hmlow : W ^ 3 * (toNat m / W ^ 3) ≤ toNat m := Nat.mul_div_le _ _
  have hmul : W ^ 3 * (toNat x / W ^ 3) ≤ W ^ 3 * (toNat m / W ^ 3) :=
    Nat.mul_le_mul_left _ hq
  omega

theorem top_word_lower (m : List Nat) (hwm : wf m) (hlm : m.length = 4)
    (hm3 : m.getD 3 0 ≠ 0) : W ^ 3 ≤ toNat m := by
  have h2 : m.getD 3 0 = toNat m / W ^ 3 := by
    rw [getD_eq_value m hwm 3]
    congr 1
    apply Nat.mod_eq_of_lt
    rw [Nat.div_lt_iff_lt_mul (pow_pos W_pos 3), ← pow_succ']
    have := toNat_lt m hwm
    rwa [hlm] at this
  have h3 : 1 ≤ toNat m / W ^ 3 := by omega
  have h4 : W ^ 3 * 1 ≤ W ^ 3 * (toNat m / W ^ 3) := Nat.mul_le_mul_left _ h3
  have h5 : W ^ 3 * (toNat m / W ^ 3) ≤ toNat m := Nat.mul_div_le _ _
  omega

theorem reduce_once (x m : List Nat) (hwx : wf x) (hwm : wf m)
    (hlx : x.length = 4) (hlm : m.length = 4)
    (hx3 : x.getD 3 0 ≤ m.getD 3 0) (hm3 : m.getD 3 0 ≠ 0) :
    toNat (if (subc x m false).2 then x else (subc x m false).1) < toNat m
    ∧ (toNat (if (subc x m false).2 then x else (subc x m false).1) = toNat x
       ∨ toNat (if (subc x m false).2 then x else (subc x m false).1) + toNat m
           = toNat x)
    ∧ wf (if (subc x m false).2 then x else (subc x m false).1)
    ∧ (if (subc x m false).2 then x else (subc x m false).1).length = 4 := by
  obtain ⟨hsz, hsb, hsw, hsl⟩ := subc_spec x m false hwx hwm (by rw [hlx, hlm])
  simp only [Bool.toNat_false, Nat.add_zero, Nat.cast_zero, sub_zero] at hsz hsb
  have hW3m := top_word_lower m hwm hlm hm3
  by_cases hb : (subc x m false).2 = true
  · rw [if_pos hb]
    rw [hb] at hsb
    have hlt : toNat x < toNat m := of_decide_eq_true hsb.symm
    exact ⟨hlt, Or.inl rfl, hwx, hlx⟩
  · rw [if_neg hb]
    have hbf : (subc x m false).2 = false := by
      cases h : (subc x m false).2
      · rfl
      · exact absurd h hb
    rw [hbf] at hsb hsz
    have hge : toNat m ≤ toNat x := by
      have := of_decide_eq_false hsb.symm
      omega
    simp only [Bool.toNat_false, Nat.cast_zero, Nat.zero_mul, Nat.add_zero,
      zero_mul, add_zero] at hsz
    have hval : toNat (subc x m false).1 + toNat m = toNat x := by omega
    have hup := top_word_le x m hwx hwm hlx hlm hx3
    refine ⟨by omega, Or.inr hval, hsw, by rw [hsl, hlx]⟩

theorem addmodDaosvik_spec (x y m : List Nat) (hwx : wf x) (hwy : wf y)
    (hwm : wf m) (hlx : x.length = 4) (hly : y.length = 4) (hlm : m.length = 4)
    (hm : 0 < toNat m) :
    toNat (addmodDaosvik x y m) = (toNat x + toNat y) % toNat m
    ∧ wf (addmodDaosvik x y m) ∧ (addmodDaosvik x y m).length = 4 := by
  by_cases hg : m.getD 3 0 ≠ 0 ∧ x.getD 3 0 ≤ m.getD 3 0
      ∧ y.getD 3 0 ≤ m.getD 3 0
  · -- the Daosvik fast path
    obtain ⟨hm3, hx3, hy3⟩ := hg
    have hres : addmodDaosvik x y m
        = (if (addc (if (subc x m false).2 then x else (subc x m false).1)
                (if (subc y m false).2 then y else (subc y m false).1)
                false).2
             ∨ ¬ (subc (addc (if (subc x m false).2 then x
                               else (subc x m false).1)
                         (if (subc y m false).2 then y else (subc y m false).1)
                         false).1 m false).2
           then (subc (addc (if (subc x m false).2 then x
                              else (subc x m false).1)
                        (if (subc y m false).2 then y else (subc y m false).1)
                        false).1 m false).1
           else (addc (if (subc x m false).2 then x else (subc x m false).1)
                  (if (subc y m false).2 then y else (subc y m false).1)
                  false).1) := by
      rw [addmodDaosvik, if_pos ⟨hm3, hx3, hy3⟩]
    obtain ⟨hsvlt, hsveq, hsvw, hsvl⟩ := reduce_once x m hwx hwm hlx hlm hx3 hm3
    obtain ⟨htvlt, htveq, htvw, htvl⟩ := reduce_once y m hwy hwm hly hlm hy3 hm3
    set sv := if (subc x m false).2 then x else (subc x m false).1 with hsvd
    set tv := if (subc y m false).2 then y else (subc y m false).1 with htvd
    set M := toNat m with hMd
    set X := toNat sv + toNat tv with hXd
    have hX2M : X < 2 * M := by omega
    have hMW : M < W ^ 4 := by
      have h := toNat_lt m hwm
      rw [hlm] at h
      exact h
    obtain ⟨haddv, haddw, haddl⟩ := addc_spec sv tv false hsvw htvw
      (by rw [hsvl, htvl])
    rw [hsvl] at haddl
    simp only [Bool.toNat_false, Nat.add_zero] at haddv
    rw [hsvl, ← hXd] at haddv
    set sw := addc sv tv false with hswd
    have hs1lt : toNat sw.1 < W ^ 4 := by
      have := toNat_lt sw.1 haddw
      rwa [haddl] at this
    obtain ⟨htz, htb, htw, htl⟩ := subc_spec sw.1 m false haddw hwm
      (by rw [haddl, hlm])
    simp only [Bool.toNat_false, Nat.add_zero, Nat.cast_zero, sub_zero] at htz htb
    rw [haddl] at htz
    set tw := subc sw.1 m false with htwd
    have hXmod : (toNat x + toNat y) % M = X % M := by
      rcases hsveq with h1 | h1 <;> rcases htveq with h2 | h2
      · rw [show toNat x + toNat y = X by omega]
      · rw [show toNat x + toNat y = X + M by omega, Nat.add_mod_right]
      · rw [show toNat x + toNat y = X + M by omega, Nat.add_mod_right]
      · rw [show toNat x + toNat y = X + M + M by omega, Nat.add_mod_right,
          Nat.add_mod_right]
    rw [hres, hXmod]
    rcases Nat.lt_or_ge X M with hcase | hge
    · -- X < M: no carry, the trial subtraction borrows, keep the sum
      have hsc : sw.2 = false := by
        cases h : sw.2
        · rfl
        · exfalso
          rw [h] at haddv
          simp only [Bool.toNat_true, Nat.mul_one] at haddv
          omega
      rw [hsc] at haddv
      simp only [Bool.toNat_false, Nat.mul_zero, Nat.add_zero] at haddv
      have htc : tw.2 = true := by
        rw [htb, haddv]
        simp [hcase]
      rw [hsc, htc]
      simp only [Bool.false_eq_true, false_or, not_true_eq_false, if_false]
      rw [haddv, Nat.mod_eq_of_lt hcase]
      exact ⟨rfl, haddw, haddl⟩
    · -- M ≤ X < 2M: the result is X - M, from one of the two branches
      have hXmM : X % M = X - M := by
        rw [Nat.mod_eq_sub_mod hge, Nat.mod_eq_of_lt (by omega)]
      rcases Nat.lt_or_ge X (W ^ 4) with hXW | hXW
      · -- no carry out of the sum; the trial subtraction succeeds
        have hsc : sw.2 = false := by
          cases h : sw.2
          · rfl
          · exfalso
            rw [h] at haddv
            simp only [Bool.toNat_true, Nat.mul_one] at haddv
            omega
        rw [hsc] at haddv
        simp only [Bool.toNat_false, Nat.mul_zero, Nat.add_zero] at haddv
        have htc : tw.2 = false := by
          rw [htb, haddv]
          simp [Nat.not_lt.mpr hge]
        rw [hsc, htc]
        simp only [Bool.false_eq_true, false_or, not_false_eq_true, if_true]
        rw [htc] at htz
        simp only [Bool.toNat_false, Nat.cast_zero, zero_mul, add_zero] at htz
        rw [haddv] at htz
        refine ⟨?_, htw, by rw [htl, haddl]⟩
        rw [hXmM]
        omega
      · -- carry out of the sum: the wrapped sum is X - 2^256
        have hsc : sw.2 = true := by
          cases h : sw.2
          · exfalso
            rw [h] at haddv
            simp only [Bool.toNat_false, Nat.mul_zero, Nat.add_zero] at haddv
            omega
          · rfl
        rw [hsc] at haddv
        simp only [Bool.toNat_true, Nat.mul_one] at haddv
        rw [hsc]
        simp only [true_or, if_true]
        have hswv : toNat sw.1 = X - W ^ 4 := by omega
        have htc : tw.2 = true := by
          rw [htb, hswv]
          have : X - W ^ 4 < M := by omega
          simp [this]
        rw [htc] at htz
        simp only [Bool.toNat_true, Nat.cast_one, one_mul] at htz
        refine ⟨?_, htw, by rw [htl, haddl]⟩
        rw [hXmM]
        rw [hswv] at htz
        push_cast [Nat.cast_sub hXW] at htz
        have hfin : (toNat tw.1 : ℤ) = (X : ℤ) - M := by linarith [htz]
        have hfin2 : (toNat tw.1 : ℤ) = ((X - M : Nat) : ℤ) := by
          rw [Nat.cast_sub hge]
          exact hfin
        exact_mod_cast hfin2
  · -- the generic 320-bit remainder path
    have hres : addmodDaosvik x y m
        = ((udivremT ((addc x y false).1
              ++ [if (addc x y false).2 then 1 else 0]) (m ++ [0])).2).take 4
        := by
      rw [addmodDaosvik, if_neg hg]
    obtain ⟨hsv, hsw, hsl⟩ := addc_spec x y false hwx hwy (by rw [hlx, hly])
    simp only [Bool.toNat_false, Nat.add_zero] at hsv
    set s := addc x y false with hs
    set N := s.1 ++ [if s.2 then 1 else 0] with hN
    have hcw : toNat [if s.2 then 1 else 0] = s.2.toNat :=
      carry_word_value s.2 0
    have hNv : toNat N = toNat x + toNat y := by
      rw [hN, toNat_append, hsl, hcw, hsv]
    have hNw : wf N := wf_append _ _ hsw (wf_carry_word s.2 0)
    have hNl : N.length = 5 := by
      rw [hN, List.length_append, hsl, hlx]
      rfl
    have hz1 : (zeros 1 : List Nat) = [0] := rfl
    obtain ⟨h1r, h2r, h3r⟩ := modPipeline_spec N m hNw hwm
      (by rw [hlm, hNl]) (by rw [hlm, hNl]; omega) hm
    rw [hNl, hlm, show (5 : Nat) - 4 = 1 by rfl, hz1] at h1r h2r h3r
    rw [hres]
    exact ⟨by rw [h1r, hNv], h2r, h3r⟩

/-- C1: for every pair of `uint<N>` values `u` and `v` with `v != 0`,
`udivrem(u, v)` returns a pair `(q, r)` such that `r < v` and the low `N`
bits of `q * v + r` equal `u`. -/
theorem claim_C1 (u v : List Nat) (hwu : wf u) (hwv : wf v)
    (hlen : v.length = u.length) (hv : 0 < toNat v) :
    toNat (udivremT u v).2 < toNat v
    ∧ (toNat (udivremT u v).1 * toNat v + toNat (udivremT u v).2)
        % W ^ u.length = toNat u := by
  obtain ⟨hq, hr, -, -, -, -⟩ := udivremT_spec u v hwu hwv hlen hv
  refine ⟨by rw [hr]; exact Nat.mod_lt _ hv, ?_⟩
  rw [hq, hr, Nat.div_add_mod' (toNat u) (toNat v),
    Nat.mod_eq_of_lt (toNat_lt u hwu)]

theorem claim_C1_witness :
    0 < toNat [3, 0]
    ∧ (toNat (udivremT [7, 9] [3, 0]).2 < toNat [3, 0]
      ∧ (toNat (udivremT [7, 9] [3, 0]).1 * toNat [3, 0]
          + toNat (udivremT [7, 9] [3, 0]).2) % W ^ ([7, 9] : List Nat).length
        = toNat [7, 9]) :=
  ⟨by decide, claim_C1 [7, 9] [3, 0] (by decide) (by decide) rfl (by decide)⟩

/-- C2: the recursive half-decomposition multiplication `umul` and the
schoolbook double loop `umul_loop` return bit-identical `2N`-bit results. -/
theorem claim_C2 (x y : List Nat) (hwx : wf x) (hwy : wf y)
    (hp2 : pow2 x.length) (hlen : x.length = y.length) :
    umulT x y = umulLoop x y := by
  obtain ⟨h1, w1, l1⟩ := umulT_spec x y hwx hwy hp2 hlen
  obtain ⟨h2, w2, l2⟩ := umulLoop_spec x y hwx hwy
  exact toNat_inj _ _ w1 w2 (by rw [l1, l2]; omega) (by rw [h1, h2])

theorem claim_C2_witness :
    pow2 ([2, 3] : List Nat).length ∧ umulT [2, 3] [5, 7] = umulLoop [2, 3] [5, 7] :=
  ⟨⟨1, rfl⟩, claim_C2 [2, 3] [5, 7] (by decide) (by decide) ⟨1, rfl⟩ rfl⟩

/-- C3: the low `N` bits of the full product `umul(a, b)` equal the
truncated product `a * b` (`operator*`). -/
theorem claim_C3 (a b : List Nat) (hwa : wf a) (hwb : wf b)
    (hp2 : pow2 a.length) (hlen : a.length = b.length) :
    (umulT a b).take a.length = mulT a b := by
  obtain ⟨h1, w1, l1⟩ := umulT_spec a b hwa hwb hp2 hlen
  obtain ⟨h2, w2, l2⟩ := mulT_spec a b hwa hwb hlen
  refine toNat_inj _ _ (wf_take _ _ w1) w2 ?_ ?_
  · rw [List.length_take, l1, l2]
    omega
  · rw [toNat_take_eq_mod _ _ w1 (by rw [l1]; omega), h1, h2]

theorem claim_C3_witness :
    pow2 ([2, 3] : List Nat).length
    ∧ (umulT [2, 3] [5, 7]).take ([2, 3] : List Nat).length = mulT [2, 3] [5, 7] :=
  ⟨⟨1, rfl⟩, claim_C3 [2, 3] [5, 7] (by decide) (by decide) ⟨1, rfl⟩ rfl⟩

/-- C4: for `uint256` (4-word) values with `m != 0`, `addmod(x, y, m)` is the
mathematical `(x + y) mod m` and `mulmod(x, y, m)` is the mathematical
`(x * y) mod m` of the exact double-width products. -/
theorem claim_C4 (x y m : List Nat) (hwx : wf x) (hwy : wf y) (hwm : wf m)
    (hlx : x.length = 4) (hly : y.length = 4) (hlm : m.length = 4)
    (hm : 0 < toNat m) :
    toNat (addmodT x y m) = (toNat x + toNat y) % toNat m
    ∧ toNat (mulmodT x y m) = toNat x * toNat y % toNat m := by
  obtain ⟨h1, -, -⟩ := addmodT_spec x y m hwx hwy hwm (by omega) (by omega)
    (by omega) hm
  obtain ⟨h2, -, -⟩ := mulmodT_spec x y m hwx hwy hwm (by omega) (by omega)
    ⟨2, by omega⟩ (by omega) hm
  exact ⟨h1, h2⟩

theorem claim_C4_witness :
    0 < toNat [9, 0, 0, 1]
    ∧ (toNat (addmodT [1, 2, 3, 4] [5, 6, 7, 8] [9, 0, 0, 1])
        = (toNat [1, 2, 3, 4] + toNat [5, 6, 7, 8]) % toNat [9, 0, 0, 1]
      ∧ toNat (mulmodT [1, 2, 3, 4] [5, 6, 7, 8] [9, 0, 0, 1])
        = toNat [1, 2, 3, 4] * toNat [5, 6, 7, 8] % toNat [9, 0, 0, 1]) :=
  ⟨by decide, claim_C4 [1, 2, 3, 4] [5, 6, 7, 8] [9, 0, 0, 1]
    (by decide) (by decide) (by decide) rfl rfl rfl (by decide)⟩

/-- C5: for every `uint256` triple with `m != 0`, the Daosvik-optimized
`addmod` (fast conditional-subtraction path under its top-word guard,
generic 320-bit remainder path otherwise) returns exactly the same result
as the generic `addmod`. -/
theorem claim_C5 (x y m : List Nat) (hwx : wf x) (hwy : wf y) (hwm : wf m)
    (hlx : x.length = 4) (hly : y.length = 4) (hlm : m.length = 4)
    (hm : 0 < toNat m) :
    addmodDaosvik x y m = addmodT x y m := by
  obtain ⟨h1, w1, l1⟩ := addmodDaosvik_spec x y m hwx hwy hwm hlx hly hlm hm
  obtain ⟨h2, w2, l2⟩ := addmodT_spec x y m hwx hwy hwm (by omega) (by omega)
    (by omega) hm
  exact toNat_inj _ _ w1 w2 (by rw [l1, l2, hlx]) (by rw [h1, h2])

theorem claim_C5_witness :
    0 < toNat [7, 0, 0, 3]
    ∧ addmodDaosvik [1, 0, 0, 5] [2, 0, 0, 4] [7, 0, 0, 3]
      = addmodT [1, 0, 0, 5] [2, 0, 0, 4] [7, 0, 0, 3] :=
  ⟨by decide, claim_C5 [1, 0, 0, 5] [2, 0, 0, 4] [7, 0, 0, 3]
    (by decide) (by decide) (by decide) rfl rfl rfl (by decide)⟩

/-- C6 (counterexample to the claim as stated): at `N = 256`, with `a = 2`,
`m = 2^256 - 1` and `n = 2`, the exponent sum wraps to `1`, so
`exp(a, m + n) = 2` while `exp(a, m) * exp(a, n) = 0`. -/
theorem claim_C6_counterexample :
    expT [2, 0, 0, 0]
        (addT [W - 1, W - 1, W - 1, W - 1] [2, 0, 0, 0])
      ≠ mulT (expT [2, 0, 0, 0] [W - 1, W - 1, W - 1, W - 1])
          (expT [2, 0, 0, 0] [2, 0, 0, 0]) := by
  decide

/-- C6 (amended): `exp(a, m + n) == exp(a, m) * exp(a, n)` holds provided
the exponent sum `m + n` does not wrap modulo `2^N`; the unrestricted
claim is refuted by `claim_C6_counterexample`. -/
theorem claim_C6 (a m n : List Nat) (hwa : wf a) (hwm : wf m) (hwn : wf n)
    (hlm : m.length = a.length) (hln : n.length = a.length)
    (hp2 : pow2 a.length) (h4 : 4 ≤ a.length) (h32 : 64 * a.length < W)
    (hsum : toNat m + toNat n < W ^ a.length) :
    expT a (addT m n) = mulT (expT a m) (expT a n) := by
  obtain ⟨hm1, hmw, hml⟩ := expT_spec a m hwa hwm hlm.symm hp2 h4 h32
  obtain ⟨hn1, hnw2, hnl⟩ := expT_spec a n hwa hwn hln.symm hp2 h4 h32
  obtain ⟨-, haw, hal⟩ := addc_spec m n false hwm hwn (by rw [hlm, hln])
  have haddv : toNat (addT m n) = toNat m + toNat n := by
    rw [addT_value m n hwm hwn (by rw [hlm, hln]), hlm, Nat.mod_eq_of_lt hsum]
  have haddl : (addT m n).length = a.length := by
    show (addc m n false).1.length = a.length
    rw [hal, hlm]
  obtain ⟨he1, hew, hel⟩ := expT_spec a (addT m n) hwa haw haddl.symm hp2 h4 h32
  obtain ⟨hp1, hpw, hpl⟩ := mulT_spec (expT a m) (expT a n) hmw hnw2
    (by rw [hml, hnl])
  refine toNat_inj _ _ hew hpw (by rw [hel, hpl, hml]) ?_
  rw [he1, hp1, hm1, hn1, haddv, hml, pow_add, Nat.mul_mod]

theorem claim_C6_witness :
    pow2 ([2, 0, 0, 0] : List Nat).length
    ∧ 64 * ([2, 0, 0, 0] : List Nat).length < W
    ∧ toNat [1, 0, 0, 0] + toNat [2, 0, 0, 0]
        < W ^ ([2, 0, 0, 0] : List Nat).length
    ∧ expT [2, 0, 0, 0] (addT [1, 0, 0, 0] [2, 0, 0, 0])
      = mulT (expT [2, 0, 0, 0] [1, 0, 0, 0]) (expT [2, 0, 0, 0] [2, 0, 0, 0]) :=
  ⟨⟨2, rfl⟩, by decide, by decide,
    claim_C6 [2, 0, 0, 0] [1, 0, 0, 0] [2, 0, 0, 0] (by decide) (by decide)
      (by decide) rfl rfl ⟨2, rfl⟩ (by decide) (by decide) (by decide)⟩

/-- C7: shifts by distances `>= N` yield `0`, both for the `uint64_t`
shift-distance operators and for shift distances given as a `uint<N>`. -/
theorem claim_C7 (x y : List Nat) (s : Nat) (hwx : wf x) (hwy : wf y)
    (hp2 : pow2 x.length) (h2 : 2 ≤ x.length) (hly : y.length = x.length)
    (hs : 64 * x.length ≤ s) (hyv : 64 * x.length ≤ toNat y) :
    shlT x s = zeros x.length ∧ shrT x s = zeros x.length
    ∧ shlU x y = zeros x.length ∧ shrU x y = zeros x.length := by
  have hWpow : W ^ x.length = 2 ^ (64 * x.length) := by
    rw [W, ← pow_mul]
  have hcut : 64 * x.length < W ^ x.length := by
    rw [hWpow]
    exact Nat.lt_two_pow _
  have hlc : ltT y (fromNat x.length (64 * x.length)) = false := by
    rw [ltT_iff y _ hwy (wf_fromNat _ _) (by rw [length_fromNat, hly]),
      toNat_fromNat _ _ hcut]
    simp [Nat.not_lt.mpr hyv]
  have hshl : shlT x s = zeros x.length := by
    obtain ⟨h1, w1, l1⟩ := shlT_spec x s hwx hp2 h2
    have hdvd : W ^ x.length ∣ toNat x * 2 ^ s := by
      refine Dvd.dvd.mul_left ?_ (toNat x)
      rw [hWpow]
      exact pow_dvd_pow 2 hs
    have h0 : toNat (shlT x s) = 0 := by
      rw [h1]
      exact Nat.mod_eq_zero_of_dvd hdvd
    have := eq_zeros_of_toNat_eq_zero _ h0
    rwa [l1] at this
  have hshr : shrT x s = zeros x.length := by
    obtain ⟨h1, w1, l1⟩ := shrT_spec x s hwx hp2 h2
    have h0 : toNat (shrT x s) = 0 := by
      rw [h1]
      apply Nat.div_eq_of_lt
      calc toNat x < W ^ x.length := toNat_lt x hwx
      _ = 2 ^ (64 * x.length) := hWpow
      _ ≤ 2 ^ s := Nat.pow_le_pow_right (by norm_num) hs
    have := eq_zeros_of_toNat_eq_zero _ h0
    rwa [l1] at this
  have hseL : shlU x y
      = if ltT y (fromNat x.length (64 * x.length)) then shlT x (y.getD 0 0)
        else zeros x.length := rfl
  have hseR : shrU x y
      = if ltT y (fromNat x.length (64 * x.length)) then shrT x (y.getD 0 0)
        else zeros x.length := rfl
  refine ⟨hshl, hshr, ?_, ?_⟩
  · rw [hseL, hlc]
    simp
  · rw [hseR, hlc]
    simp

theorem claim_C7_witness :
    64 * ([1, 2] : List Nat).length ≤ 128
    ∧ 64 * ([1, 2] : List Nat).length ≤ toNat [200, 0]
    ∧ (shlT [1, 2] 128 = zeros ([1, 2] : List Nat).length
      ∧ shrT [1, 2] 128 = zeros ([1, 2] : List Nat).length
      ∧ shlU [1, 2] [200, 0] = zeros ([1, 2] : List Nat).length
      ∧ shrU [1, 2] [200, 0] = zeros ([1, 2] : List Nat).length) :=
  ⟨by decide, by decide,
    claim_C7 [1, 2] [200, 0] 128 (by decide) (by decide) ⟨1, rfl⟩ (by decide)
      rfl (by decide) (by decide)⟩

/-- C8: serialization round-trips: `le::load(le::store(x)) == x`,
`be::load(be::store(x)) == x` with full-size buffers, and
`bswap(bswap(x)) == x`. -/
theorem claim_C8 (x : List Nat) (hw : wf x) :
    leLoad x.length (leStore x) = x
    ∧ beLoad x.length (beStore x) = x
    ∧ bswapT (bswapT x) = x :=
  ⟨leLoad_leStore x hw, beLoad_beStore x hw, bswapT_bswapT x hw⟩

theorem claim_C8_witness :
    wf [5, 6, 7]
    ∧ (leLoad ([5, 6, 7] : List Nat).length (leStore [5, 6, 7]) = [5, 6, 7]
      ∧ beLoad ([5, 6, 7] : List Nat).length (beStore [5, 6, 7]) = [5, 6, 7]
      ∧ bswapT (bswapT [5, 6, 7]) = [5, 6, 7]) :=
  ⟨by decide, claim_C8 [5, 6, 7] (by decide)⟩

/-- C9 (implicit): the truncated multiplication `operator*` is commutative,
although the schoolbook loop treats its operands asymmetrically. -/
theorem claim_C9 (x y : List Nat) (hwx : wf x) (hwy : wf y)
    (hlen : x.length = y.length) :
    mulT x y = mulT y x := by
  obtain ⟨h1, w1, l1⟩ := mulT_spec x y hwx hwy hlen
  obtain ⟨h2, w2, l2⟩ := mulT_spec y x hwy hwx hlen.symm
  exact toNat_inj _ _ w1 w2 (by rw [l1, l2, hlen])
    (by rw [h1, h2, hlen, Nat.mul_comm])

theorem claim_C9_witness :
    wf [2, 3] ∧ mulT [2, 3] [5, 7] = mulT [5, 7] [2, 3] :=
  ⟨by decide, claim_C9 [2, 3] [5, 7] (by decide) (by decide) rfl⟩

/-- C10 (implicit): for shift distances `s < N`, the loop implementation
`shl_loop(x, s)` agrees with the half-split `operator<<`. -/
theorem claim_C10 (x : List Nat) (s : Nat) (hwx : wf x) (hp2 : pow2 x.length)
    (h2 : 2 ≤ x.length) (hs : s < 64 * x.length) :
    shlLoop x s = shlT x s := by
  obtain ⟨h1, w1, l1⟩ := shlLoop_spec x s hwx hs
  obtain ⟨h2v, w2, l2⟩ := shlT_spec x s hwx hp2 h2
  exact toNat_inj _ _ w1 w2 (by rw [l1, l2]) (by rw [h1, h2v])

theorem claim_C10_witness :
    3 < 64 * ([1, 2] : List Nat).length
    ∧ shlLoop [1, 2] 3 = shlT [1, 2] 3 :=
  ⟨by decide, claim_C10 [1, 2] 3 (by decide) ⟨1, rfl⟩ (by decide) (by decide)⟩

end Intx
